import Mathlib

/-!
EasyNextionLibrary (`nextion_ez`): a shallow embedding of the inbound protocol
and of the argument queue of `sendCmd`.

The driver object of `src/nextion_ez.h` becomes the record `Nextion`; the member
functions of `src/nextion_ez.cpp` that the statements below are about become
functions on that record.

The two external collaborators of the driver are part of the record:

* the serial link (`HardwareSerial`): `rx` holds the bytes that are buffered and
  can be read now, `wire` the bytes that are still in flight, each stamped with
  the millisecond at which it reaches the buffer, `tx` the bytes written so far;
* the clock (`millis`): `now` is the time in ms, and `ticks` lists by how many
  ms the clock advances at each of the coming clock polls (a poll after the
  list is used up advances the clock by 1 ms).  A byte in flight becomes
  readable at the first clock poll whose reading reaches its stamp.

Busy-wait loops are bounded by a fuel argument that counts loop iterations; a
loop that needs more iterations than the fuel allows yields `none`.  A store to
or a load from the argument queue at an index outside the 16 words of its array
has no defined result in C++; the call that makes it yields `none`.
-/

namespace NextionEz

/-- One octet of the serial link, also the C types `uint8_t`, `byte` and the bit
pattern of a `char`. -/
abbrev Byte := Fin 256

/-- The number of values of an `unsigned long` / `uint32_t`: `2 ^ 32`. -/
def ULONG : Nat := 4294967296

/-- The driver object together with its serial port and clock. -/
@[ext]
structure Nextion where
  /-- Clock: the present time in ms (not wrapped). -/
  now : Nat
  /-- Clock: the advance of the clock at each of the coming polls. -/
  ticks : List Nat
  /-- Serial: received bytes waiting to be read, oldest first. -/
  rx : List Byte
  /-- Serial: bytes in flight, `(arrival time in ms, byte)`, in transmission order. -/
  wire : List (Nat × Byte)
  /-- Serial: everything written to the display so far. -/
  tx : List Byte
  _component : List Byte
  _numVal : Nat
  _strVal : List Byte
  _cmdFifo : List Nat
  _cmdFifoHead : Byte
  _cmdFifoTail : Byte
  _comp : List Byte
  _numericBuffer : Byte × Byte × Byte × Byte
  _numberValue : Nat
  _start_char : Byte
  _tmr1 : Nat
  _cmdFound : Bool
  _cmd1 : Byte
  _len : Byte
  _cmdAvail : Bool
  _cmdGroup : Byte
  _cmdLength : Byte
  /-- Modelled from the spec: the member behind the sub-command accessor
  `getSubCmd`, whose declaration is missing from the header; it holds the raw
  trigger id as read, an `int` like the accessor that returns it. -/
  _subCmd : Int
  _currentPageId : Int
  _lastCurrentPageId : Int
  _readString : List Byte
  /-- Local of `readStr` / `readNum`. -/
  _endOfCommandFound : Bool
  /-- Local of `readStr` / `readNum`. -/
  _tempChar : Byte
  /-- Local of `readStr` / `readNum`. -/
  _endBytes : Nat
  deriving DecidableEq

/-- Conversion of an `int` to `uint8_t` / to the bit pattern of a `char`. -/
def toByte (i : Int) : Byte := Fin.ofNat (i % 256).toNat

/-! ## The serial port and the clock -/

/-- Modelled from the spec: the byte source's `available()` (the serial port
class of the Arduino core is not part of the repository), called as
`_serial->available()`: the number of buffered bytes. -/
def available (s : Nextion) : Nat := s.rx.length

/-- Modelled from the spec: the byte source's `readByte()` (the serial port
class of the Arduino core is not part of the repository), called as
`_serial->read()`: the oldest buffered byte is consumed and returned; with
nothing buffered the result is `-1`, the value the Arduino core documents for
that case, and nothing is consumed. -/
@[simps]
def read (s : Nextion) : Int × Nextion :=
  ((s.rx.head?.map fun b => (b.val : Int)).getD (-1), { s with rx := s.rx.tail })

/-- Modelled from the spec: the byte source's `write(bytes)` (the serial port
class of the Arduino core is not part of the repository), called as
`_serial->print(...)` on a byte string. -/
@[simps]
def print (bs : List Byte) (s : Nextion) : Nextion := { s with tx := s.tx ++ bs }

/-- Modelled from the spec: the monotonic millisecond clock (`millis()` of the
Arduino core, not part of the repository).  The clock advances by the next
tick, the bytes in flight whose stamp has been reached enter the receive
buffer, and the reading is the time as an `unsigned long`. -/
@[simps]
def millis (s : Nextion) : Nat × Nextion :=
  let t := s.now + s.ticks.head?.getD 1
  (t % ULONG,
   { s with
     now := t
     ticks := s.ticks.tail
     rx := s.rx ++ (s.wire.takeWhile (fun e => decide (e.1 ≤ t))).map Prod.snd
     wire := s.wire.dropWhile (fun e => decide (e.1 ≤ t)) })

/-- The `unsigned long` difference `t - tmr` of two clock readings. -/
def elapsed (t tmr : Nat) : Nat := (t + ULONG - tmr % ULONG) % ULONG

/-- The loop shape shared by the waits of the driver:
`while (cond) { body; if ((millis() - _tmr1) > budget) { onTimeout; break; } }`,
where `body` may itself `break` (second component `true`). -/
def pollLoop (cond : Nextion → Bool) (body : Nextion → Nextion × Bool) (budget : Nat)
    (onTimeout : Nextion → Nextion) : Nat → Nextion → Option Nextion
  | fuel, s =>
    if cond s then
      match fuel with
      | 0 => none
      | fuel + 1 =>
        if (body s).2 then some (body s).1
        else
          if elapsed (millis (body s).1).1 (millis (body s).1).2._tmr1 > budget then
            some (onTimeout (millis (body s).1).2)
          else pollLoop cond body budget onTimeout fuel (millis (body s).1).2
    else some s

/-! ## Accessors -/

def getCurrentPage (s : Nextion) : Int := s._currentPageId

def setCurrentPage (page : Int) (s : Nextion) : Nextion := { s with _currentPageId := page }

def getLastPage (s : Nextion) : Int := s._lastCurrentPageId

def setLastPage (page : Int) (s : Nextion) : Nextion := { s with _lastCurrentPageId := page }

/-- `cmdAvail()`: returns the pending flag and clears it. -/
@[simps]
def cmdAvail (s : Nextion) : Bool × Nextion := (s._cmdAvail, { s with _cmdAvail := false })

def getCmd (s : Nextion) : Int := (s._cmdGroup.val : Int)

def getSubCmd (s : Nextion) : Int := s._subCmd

def getCmdLen (s : Nextion) : Int := (s._cmdLength.val : Int)

/-- `readByte()`: the raw next byte of the serial port. -/
def readByte (s : Nextion) : Int × Nextion := read s

/-! ## `listen` and `readCommand` -/

/-- `readCommand()`: the switch on the command group `_cmd1`. -/
def readCommand (s : Nextion) : Nextion :=
  if s._cmd1 = 80 then
    -- case 'P'
    let s1 := { s with _lastCurrentPageId := s._currentPageId }
    { (read s1).2 with _currentPageId := (read s1).1 }
  else if s._cmd1 = 84 then
    -- case 'T'
    let s1 := { s with _cmdAvail := true, _cmdGroup := s._cmd1 }
    { (read s1).2 with _subCmd := (read s1).1 }
  else
    -- default
    { s with _cmdGroup := s._cmd1, _cmdLength := s._len, _cmdAvail := true }

/-- Body of the marker search of `listen`: `_start_char = _serial->read();`. -/
@[simps]
def readStartChar (s : Nextion) : Nextion := { (read s).2 with _start_char := toByte (read s).1 }

/-- `_tmr1 = millis();`. -/
@[simps]
def startTimer (s : Nextion) : Nextion := { (millis s).2 with _tmr1 := (millis s).1 }

/-- `_len = _serial->read();`. -/
@[simps]
def readLen (s : Nextion) : Nextion := { (read s).2 with _len := toByte (read s).1 }

/-- `_cmdFound = b;`. -/
@[simps]
def setCmdFound (b : Bool) (s : Nextion) : Nextion := { s with _cmdFound := b }

/-- `_cmd1 = _serial->read();`. -/
@[simps]
def readCmd1 (s : Nextion) : Nextion := { (read s).2 with _cmd1 := toByte (read s).1 }

/-- `listen()`. -/
def listen (fuel : Nat) (s : Nextion) : Option Nextion :=
  if available s > 2 then
    let s1 := startTimer (readStartChar s)
    (pollLoop (fun x => x._start_char != 35) (fun x => (readStartChar x, false)) 100 id
        fuel s1).bind fun s2 =>
      if s2._start_char = 35 then
        let s4 := setCmdFound true (startTimer (readLen s2))
        (pollLoop (fun x => decide (available x < x._len.val)) (fun x => (x, false)) 100
            (setCmdFound false) fuel s4).bind fun s5 =>
          if s5._cmdFound = true then some (readCommand (readCmd1 s5)) else some s5
      else some s2
  else some s

/-! ## `readStr` and `readNum` -/

/-- The string `"ERROR"`. -/
def ERROR : List Byte := [69, 82, 82, 79, 82]

/-- The string `"get "`. -/
def GET : List Byte := [103, 101, 116, 32]

/-- The string `"\xFF\xFF\xFF"` that ends every message. -/
def TERM : List Byte := [255, 255, 255]

/-- The drain loop at the start of `readStr` and `readNum`:
`while (_serial->available()) { if ((millis() - _tmr1) > 1000UL) { onTimeout; break; }
 else { listen(); } }`.  The calls of `listen` run with fuel `lf`. -/
def drainLoop (onTimeout : Nextion → Nextion) (lf : Nat) : Nat → Nextion → Option Nextion
  | fuel, s =>
    if available s ≠ 0 then
      match fuel with
      | 0 => none
      | fuel + 1 =>
        if elapsed (millis s).1 (millis s).2._tmr1 > 1000 then some (onTimeout (millis s).2)
        else (listen lf (millis s).2).bind (drainLoop onTimeout lf fuel)
    else some s

/-- `_readString = "ERROR";`. -/
@[simps]
def setError (s : Nextion) : Nextion := { s with _readString := ERROR }

/-- `_numberValue = 777777;`. -/
@[simps]
def setFail (s : Nextion) : Nextion := { s with _numberValue := 777777 }

/-- Body of the reply-marker search of `readStr` and `readNum`:
`if (_serial->available()) { _start_char = _serial->read(); }`. -/
def readStartCharIfAvailable (s : Nextion) : Nextion :=
  if available s ≠ 0 then readStartChar s else s

/-- `_tempChar = _serial->read();`. -/
@[simps]
def readTempChar (s : Nextion) : Nextion := { (read s).2 with _tempChar := toByte (read s).1 }

/-- `_endBytes++;`. -/
@[simps]
def countEndByte (s : Nextion) : Nextion := { s with _endBytes := s._endBytes + 1 }

/-- `_endOfCommandFound = true;`. -/
@[simps]
def setFound (s : Nextion) : Nextion := { s with _endOfCommandFound := true }

/-- `_readString += _tempChar;`. -/
@[simps]
def appendTempChar (s : Nextion) : Nextion :=
  { s with _readString := s._readString ++ [s._tempChar] }

/-- The counting of a terminator byte, in `readStr` and `readNum`:
`_endBytes++; if (_endBytes == 3) { _endOfCommandFound = true; }`. -/
def countTerminator (s : Nextion) : Nextion :=
  if (countEndByte s)._endBytes = 3 then setFound (countEndByte s) else countEndByte s

/-- Body of the accumulation loop of `readStr` (the test
`_tempChar == 0xFF || _tempChar == 0xFFFFFFFF` holds exactly for the bit pattern
`0xFF`, whether `char` is signed or not). -/
def strStep (s : Nextion) : Nextion :=
  if available s ≠ 0 then
    if (readTempChar s)._tempChar = 255 then countTerminator (readTempChar s)
    else appendTempChar (readTempChar s)
  else s

/-- The initialised local of `readStr`: `bool _endOfCommandFound = false;`. -/
@[simps]
def readStrInit (s : Nextion) : Nextion := { s with _endOfCommandFound := false }

/-- The assignments before the accumulation loop of `readStr`:
`_readString = ""; int _endBytes = 0;`. -/
@[simps]
def clearReadString (s : Nextion) : Nextion := { s with _readString := [], _endBytes := 0 }

/-- First part of `readStr`: the locals and the drain of pending event frames. -/
def readStrDrain (fuel : Nat) (s : Nextion) : Option Nextion :=
  drainLoop setError fuel fuel (startTimer (readStrInit s))

/-- The parsing of the text reply in `readStr`, the block
`if (_serial->available() > 3) { ... }`. -/
def readStrParse (fuel : Nat) (s3 : Nextion) : Option Nextion :=
  if available s3 > 3 then
    let s4 := startTimer (readStartChar s3)
    (pollLoop (fun x => x._start_char != 112) (fun x => (readStartCharIfAvailable x, false))
        100 setError fuel s4).bind fun s5 =>
      if s5._start_char = 112 then
        let s6 := startTimer (clearReadString s5)
        pollLoop (fun x => x._endOfCommandFound == false) (fun x => (strStep x, false))
          1000 setError fuel s6
      else some s5
  else some s3

/-- Second part of `readStr`: the `get` request, the wait for the reply and its
parsing, from the state `s1` in which the drain ended. -/
def readStrReply (fuel : Nat) (TextComponent : List Byte) (s1 : Nextion) :
    Option (List Byte × Nextion) :=
  let s2 := startTimer (print TERM (print TextComponent (print GET s1)))
  (pollLoop (fun x => decide (available x < 4)) (fun x => (x, false)) 400 setError
      fuel s2).bind fun s3 =>
  (readStrParse fuel s3).bind fun s7 =>
  some (s7._readString, s7)

/-- `readStr(TextComponent)`. -/
def readStr (fuel : Nat) (TextComponent : List Byte) (s : Nextion) :
    Option (List Byte × Nextion) :=
  (readStrDrain fuel s).bind (readStrReply fuel TextComponent)

/-- The four reads `_numericBuffer[i] = _serial->read();` for `i = 0 .. 3`. -/
@[simps]
def readNumericBuffer (s : Nextion) : Nextion :=
  { (read (read (read (read s).2).2).2).2 with
    _numericBuffer :=
      (toByte (read s).1, toByte (read (read s).2).1, toByte (read (read (read s).2).2).1,
        toByte (read (read (read (read s).2).2).2).1) }

/-- Body of the terminator loop of `readNum`, up to the clock check; the second
component tells that the loop was left by the `break` of the `else` branch. -/
def numStep (s : Nextion) : Nextion × Bool :=
  if (readTempChar s)._tempChar = 255 then (countTerminator (readTempChar s), false)
  else (setFail (readTempChar s), true)

/-- `_numberValue <<= 8;` on a `uint32_t`. -/
def shl8 (v : Nat) : Nat := (v <<< 8) % ULONG

/-- The little endian conversion at the end of `readNum`. -/
def assemble (b : Byte × Byte × Byte × Byte) : Nat :=
  shl8 (shl8 (shl8 b.2.2.2.val ||| b.2.2.1.val) ||| b.2.1.val) ||| b.1.val

/-- The first statements of `readNum`:
`_comp = component; bool _endOfCommandFound = false; _numberValue = 777777;`. -/
@[simps]
def readNumInit (component : List Byte) (s : Nextion) : Nextion :=
  { s with _comp := component, _endOfCommandFound := false, _numberValue := 777777 }

/-- `int _endBytes = 0;`. -/
@[simps]
def clearEndBytes (s : Nextion) : Nextion := { s with _endBytes := 0 }

/-- First part of `readNum`: the locals, the default result and the drain of
pending event frames. -/
def readNumDrain (fuel : Nat) (component : List Byte) (s : Nextion) : Option Nextion :=
  drainLoop setFail fuel fuel (startTimer (readNumInit component s))

/-- The parsing of the numeric reply in `readNum`, the block
`if (_serial->available() > 7) { ... }`. -/
def readNumParse (fuel : Nat) (s3 : Nextion) : Option Nextion :=
  if available s3 > 7 then
    let s4 := startTimer (readStartChar s3)
    (pollLoop (fun x => x._start_char != 113) (fun x => (readStartCharIfAvailable x, false))
        100 setFail fuel s4).bind fun s5 =>
      if s5._start_char = 113 then
        let s6 := startTimer (clearEndBytes (readNumericBuffer s5))
        pollLoop (fun x => x._endOfCommandFound == false) numStep 1000 setFail fuel s6
      else some s5
  else some s3

/-- The end of `readNum`: the little endian conversion or the value 777777. -/
def readNumResult (s7 : Nextion) : Nextion :=
  if s7._endOfCommandFound = true then
    { s7 with _numberValue := assemble s7._numericBuffer }
  else setFail s7

/-- Second part of `readNum`: the `get` request, the wait for the reply and its
parsing, from the state `s1` in which the drain ended. -/
def readNumReply (fuel : Nat) (s1 : Nextion) : Option (Nat × Nextion) :=
  let s2 := startTimer (print TERM (print s1._comp (print GET s1)))
  (pollLoop (fun x => decide (available x < 8)) (fun x => (x, false)) 400 setFail
      fuel s2).bind fun s3 =>
  (readNumParse fuel s3).bind fun s7 =>
  some ((readNumResult s7)._numberValue, readNumResult s7)

/-- `readNum(component)`. -/
def readNum (fuel : Nat) (component : List Byte) (s : Nextion) : Option (Nat × Nextion) :=
  (readNumDrain fuel component s).bind (readNumReply fuel)

/-! ## Scenarios used by the statements -/

/-- A driver object with static storage right after `begin()` on a silent link:
every member zero, no byte buffered or in flight, the clock at 0. -/
def initial : Nextion :=
  { now := 0, ticks := [], rx := [], wire := [], tx := [], _component := [], _numVal := 0,
    _strVal := [], _cmdFifo := List.replicate 16 0, _cmdFifoHead := 0, _cmdFifoTail := 0,
    _comp := [], _numericBuffer := (0, 0, 0, 0), _numberValue := 0, _start_char := 0,
    _tmr1 := 0, _cmdFound := false, _cmd1 := 0, _len := 0, _cmdAvail := false,
    _cmdGroup := 0, _cmdLength := 0, _subCmd := 0, _currentPageId := 0,
    _lastCurrentPageId := 0, _readString := [], _endOfCommandFound := false,
    _tempChar := 0, _endBytes := 0 }

/-- All bytes the driver can still read: the buffered ones, then those in flight. -/
def stream (s : Nextion) : List Byte := s.rx ++ s.wire.map Prod.snd

/-- The page frame `# 2 P id`. -/
def pageFrame (id : Byte) : List Byte := [35, 2, 80, id]

/-- The trigger frame `# 2 T id`. -/
def triggerFrame (id : Byte) : List Byte := [35, 2, 84, id]

/-- The page frames of a list of page ids, one after the other. -/
def pageFrames : List Byte → List Byte
  | [] => []
  | id :: ids => pageFrame id ++ pageFrames ids

/-- `n` successive calls of `listen()`. -/
def listenN (fuel : Nat) : Nat → Nextion → Option Nextion
  | 0, s => some s
  | n + 1, s => (listen fuel s).bind (listenN fuel n)

/-- `n` successive calls of `readByte()`, with the values they return. -/
def readBytes : Nat → Nextion → List Int × Nextion
  | 0, s => ([], s)
  | n + 1, s => ((readByte s).1 :: (readBytes n (readByte s).2).1, (readBytes n (readByte s).2).2)

/-- The four bytes of a 32-bit value, least significant first. -/
def leBytes (V : Nat) : List Byte :=
  [Fin.ofNat (V % 256), Fin.ofNat (V / 256 % 256), Fin.ofNat (V / 65536 % 256),
    Fin.ofNat (V / 16777216 % 256)]

/-- The numeric reply `0x71 <4 bytes little endian> 0xFF 0xFF 0xFF` for a value. -/
def numReply (V : Nat) : List Byte := 113 :: leBytes V ++ TERM

/-- The text reply `0x70 <bytes> 0xFF 0xFF 0xFF` for a string. -/
def strReply (str : List Byte) : List Byte := 112 :: str ++ TERM

/-- State in which `readCommand` runs when `listen` meets a frame whose header
and declared length are buffered. -/
def afterHeader (s : Nextion) : Nextion :=
  readCmd1 (setCmdFound true (startTimer (readLen (startTimer (readStartChar s)))))

/-- Polls of the clock that a wait with the given budget can still need once
the list of ticks is used up. -/
def need (budget : Nat) (x : Nextion) : Nat :=
  if elapsed (x.now % ULONG) x._tmr1 ≤ budget then
    budget + 1 - elapsed (x.now % ULONG) x._tmr1
  else budget + 2

/-- Fuel that is enough for a wait with the given budget that starts in `x`. -/
def fuelFor (budget : Nat) (x : Nextion) : Nat :=
  if x.ticks = [] then need budget x else x.ticks.length + budget + 2

/-- The time at the `k`-th coming poll of the clock. -/
def pollTime (s : Nextion) : Nat → Nat
  | 0 => s.now
  | k + 1 => pollTime (millis s).2 k

/-- State of the accumulation loop of `readStr` after the bytes `p` of the reply
body `full` have been read: what is still to come, what has been stored and
counted, and how far the clock may have advanced. -/
def Accumulated (full : List Byte) (T D B M0 : Nat) (slack : Nat) (x : Nextion) : Prop :=
  ∃ p : List Byte, p ++ stream x = full ∧
    x._readString = p.filter (fun b => decide (b ≠ 255)) ∧
    x._endBytes = p.count 255 ∧ (x._endOfCommandFound = true ↔ p.count 255 = 3) ∧
    p.count 255 ≤ 3 ∧ x.now + slack ≤ M0 + p.length * B ∧
    x._tmr1 = T % ULONG ∧ T ≤ x.now ∧ (∀ e ∈ x.wire, e.1 ≤ D) ∧ (∀ t ∈ x.ticks, t ≤ B)

/-- Fuel that is enough for the drain loop that starts in `x`: each byte of the
stream can restart the 1000 ms of the drain once. -/
def drainFuel (x : Nextion) : Nat :=
  (stream x).length * (x.ticks.length + 1003) + fuelFor 1000 x

/-- The number of bytes that can be read by the time `D`: the buffered ones and
those in flight that are due by `D`. -/
def dueBy (s : Nextion) (D : Nat) : Nat :=
  s.rx.length + (s.wire.takeWhile fun e => decide (e.1 ≤ D)).length

/-- The custom frame `# 3 L 1 1`: group `L` with two payload bytes. -/
def customFrame : List Byte := [35, 3, 76, 1, 1]

/-- A burst of events during a read: one custom frame is buffered when the read
starts at time 0 and three more arrive 900 ms apart; the clock advances 1 ms
per poll. -/
def storm : Nextion :=
  { initial with
    rx := customFrame
    wire := (customFrame.map fun b => (900, b)) ++ (customFrame.map fun b => (1800, b)) ++
      (customFrame.map fun b => (2700, b)) }

/-- The reply `0x70 a FF b FF FF c FF FF FF`, all of it arriving 5 ms after the
request on a link that was silent. -/
def scattered : Nextion :=
  { initial with
    wire := ([112, 97, 255, 98, 255, 255, 99, 255, 255, 255] : List Byte).map fun b => (5, b) }

/-- The event frames of the three kinds that `readCommand` tells apart, in the
shapes the display sends them: `# 2 P id`, `# 2 T id` and `# 1 g`. -/
inductive Frame where
  | page (id : Byte)
  | trigger (id : Byte)
  | custom (g : Byte)
  deriving DecidableEq

/-- The bytes of a frame on the link. -/
def Frame.bytes : Frame → List Byte
  | Frame.page id => [35, 2, 80, id]
  | Frame.trigger id => [35, 2, 84, id]
  | Frame.custom g => [35, 1, g]

/-- The bytes of frames sent one after the other. -/
def frames : List Frame → List Byte
  | [] => []
  | f :: fs => f.bytes ++ frames fs

/-- A custom frame carries a group byte other than `P` and `T`. -/
def Frame.wellFormed : Frame → Bool
  | Frame.custom g => g != 80 && g != 84
  | _ => true

/-- The event of a frame, as a relation between the state before and the state
after the call that dispatches it. A page frame moves the current page id to the
last one and stores its id, and leaves the pending command alone; a trigger frame
flags a pending command of group `T` with its id as sub-command and leaves the
page ids alone; a custom frame flags a pending command of its group with the
declared length 1 and leaves the page ids and the sub-command alone. -/
def Produced : Frame → Nextion → Nextion → Bool
  | Frame.page id, s, r =>
    r._currentPageId == (id.val : Int) && r._lastCurrentPageId == s._currentPageId &&
      r._cmdAvail == s._cmdAvail && r._cmdGroup == s._cmdGroup &&
      r._cmdLength == s._cmdLength && r._subCmd == s._subCmd
  | Frame.trigger id, s, r =>
    r._cmdAvail == true && r._cmdGroup == 84 && r._subCmd == (id.val : Int) &&
      r._currentPageId == s._currentPageId && r._lastCurrentPageId == s._lastCurrentPageId
  | Frame.custom g, s, r =>
    r._cmdAvail == true && r._cmdGroup == g && r._cmdLength == 1 &&
      r._subCmd == s._subCmd &&
      r._currentPageId == s._currentPageId && r._lastCurrentPageId == s._lastCurrentPageId
/-- What a sketch can observe of the events: the current and the last page id
and the pending command (available, group, length, sub-command). -/
def observed (s : Nextion) : Int × Int × Bool × Byte × Byte × Int :=
  (s._currentPageId, s._lastCurrentPageId, s._cmdAvail, s._cmdGroup, s._cmdLength, s._subCmd)

/-! ## The argument queue and `sendCmd` -/

/-- `if (i++ > 15) i = 0;` on a `uint8_t` index of the argument queue. -/
def advance (i : Byte) : Byte := if i.val > 15 then 0 else i + 1

/-- The two statements of `pushCmdArg` for a head inside the array:
`_cmdFifo[_cmdFifoHead] = argument; if (_cmdFifoHead++ > 15) _cmdFifoHead = 0;`. -/
@[simps]
def storeArg (argument : Nat) (s : Nextion) : Nextion :=
  { s with
    _cmdFifo := s._cmdFifo.set s._cmdFifoHead.val (argument % ULONG)
    _cmdFifoHead := advance s._cmdFifoHead }

/-- `pushCmdArg(argument)`, with the argument converted to `uint32_t`. The store
`_cmdFifo[_cmdFifoHead] = argument` has a defined result only for an index
inside the array `uint32_t _cmdFifo[16]` of the header; with the head at 16 or
more the store lies outside the array and the call has no defined result. -/
def pushCmdArg (argument : Nat) (s : Nextion) : Option Nextion :=
  if s._cmdFifoHead.val < 16 then some (storeArg argument s) else none

/-- Modelled from the spec: `_serial->print(_argument)` of the Arduino core for
an `uint32_t`, which writes the decimal digits of the value in ASCII. -/
def decimal (n : Nat) : List Byte := (Nat.toDigits 10 n).map fun c => Fin.ofNat c.toNat

/-- `if (_cmdFifoTail++ > 15) _cmdFifoTail = 0;`. -/
@[simps]
def advanceTail (s : Nextion) : Nextion := { s with _cmdFifoTail := advance s._cmdFifoTail }

/-- Body of the `for` loop of `sendCmd` for a tail inside the array, with the
loop counter at `x`: `if (x > 0) _serial->print(",");
_argument = _cmdFifo[_cmdFifoTail]; _serial->print(_argument);` and the advance
of the tail. -/
def printArg (x : Nat) (s : Nextion) : Nextion :=
  advanceTail (print (decimal (s._cmdFifo.getD s._cmdFifoTail.val 0))
    (if x > 0 then print [44] s else s))

/-- `_component = command;`. -/
@[simps]
def setComponent (command : List Byte) (s : Nextion) : Nextion :=
  { s with _component := command }

/-- The `for` loop of `sendCmd` with `n` arguments still to print and the loop
counter at `x`. The load `_cmdFifo[_cmdFifoTail]` has a defined result only for
an index inside the 16 words of the array. -/
def sendArgs : Nat → Nat → Nextion → Option Nextion
  | 0, _, s => some s
  | n + 1, x, s =>
    if s._cmdFifoTail.val < 16 then
      sendArgs n (x + 1) (printArg x s)
    else none

/-- The `uint8_t _count` of `sendCmd`: the number of arguments it prints. -/
def argCount (s : Nextion) : Nat :=
  if s._cmdFifoHead.val < s._cmdFifoTail.val then
    (s._cmdFifoHead.val + 16 - s._cmdFifoTail.val) % 256
  else (s._cmdFifoHead.val - s._cmdFifoTail.val) % 256

/-- `sendCmd(command)`. -/
def sendCmd (command : List Byte) (s : Nextion) : Option Nextion :=
  let s1 := print command (setComponent command s)
  (if argCount s > 0 then sendArgs (argCount s) 0 (print [32] s1) else some s1).map (print TERM)

/-- A call of `pushCmdArg` or of `sendCmd`. -/
inductive Call where
  | push (argument : Nat)
  | send (command : List Byte)
  deriving DecidableEq

/-- A sequence of calls of `pushCmdArg` and `sendCmd`, in order. -/
def run : List Call → Nextion → Option Nextion
  | [], s => some s
  | Call.push a :: cs, s => (pushCmdArg a s).bind (run cs)
  | Call.send c :: cs, s => (sendCmd c s).bind (run cs)

/-- Successive calls of `pushCmdArg`, one for each argument. -/
def pushArgs (args : List Nat) (s : Nextion) : Option Nextion :=
  run (args.map Call.push) s

/-! ## `begin` -/

/-- Modelled from the spec: `delay(ms)` of the Arduino core: the time passes,
and the bytes in flight that are due by then reach the receive buffer. -/
@[simps]
def delay (ms : Nat) (s : Nextion) : Nextion :=
  { s with
    now := s.now + ms
    rx := s.rx ++ (s.wire.takeWhile (fun e => decide (e.1 ≤ s.now + ms))).map Prod.snd
    wire := s.wire.dropWhile (fun e => decide (e.1 ≤ s.now + ms)) }

/-- `_cmdFifoHead = 0; _cmdFifoTail = 0; _cmdAvail = false;`. -/
@[simps]
def resetQueue (s : Nextion) : Nextion :=
  { s with _cmdFifoHead := 0, _cmdFifoTail := 0, _cmdAvail := false }

/-- The loop of `begin` that empties the receive buffer:
`while (available() > 0) { if ((millis() - _tmr1) > 400UL) break; read(); }`. -/
def flushLoop : Nat → Nextion → Option Nextion
  | fuel, s =>
    if available s > 0 then
      match fuel with
      | 0 => none
      | fuel + 1 =>
        if elapsed (millis s).1 (millis s).2._tmr1 > 400 then some (millis s).2
        else flushLoop fuel (read (millis s).2).2
    else some s

/-- `begin(baud)`; the baud rate has no part in this model of the link. -/
def begin (fuel : Nat) (_baud : Nat) (s : Nextion) : Option Nextion :=
  flushLoop fuel (startTimer (resetQueue (delay 100 s)))

/-- Sixteen arguments, as many as the array of the queue has words. -/
def sixteenArgs : List Nat := [1, 2, 3, 4, 5, 6, 7, 8, 9, 10, 11, 12, 13, 14, 15, 16]

/-- A reply to `readNum` that is one byte short: a noise byte, then `0x71`, the
four value bytes 1, 2, 3, 4 and only two 0xFF bytes, eight bytes in all, arriving
5 ms after the request on a link that was silent. -/
def shortReply : Nextion :=
  { initial with wire := ([0, 113, 1, 2, 3, 4, 255, 255] : List Byte).map fun b => (5, b) }

/-- Seven noise bytes and the marker `0x71` with nothing behind it, arriving
5 ms after the request on a link that was silent. -/
def bareMarker : Nextion :=
  { initial with wire := ([0, 0, 0, 0, 0, 0, 0, 113] : List Byte).map fun b => (5, b) }

/-- The calls `pushCmdArg(1)` ten times, `sendCmd("p")`, `pushCmdArg(2)` a given
number of times, `sendCmd("p")`. -/
def twoBatches (second : Nat) : List Call :=
  List.replicate 10 (Call.push 1) ++ [Call.send [112]] ++
    List.replicate second (Call.push 2) ++ [Call.send [112]]
/-- The rest of `listen` once the marker has been found, from the read of the
length on, when the payload wait has nothing to wait for. -/
def dispatch (s2 : Nextion) : Nextion :=
  readCommand (readCmd1 (setCmdFound true (startTimer (readLen s2))))

/-- What the dispatch of a frame makes of the page ids and the pending command
(current page, last page, available, group, length, sub-command). -/
def applyFrame : Frame → Int × Int × Bool × Byte × Byte × Int → Int × Int × Bool × Byte × Byte × Int
  | Frame.page id, (cur, _, avail, group, len, sub) => ((id.val : Int), cur, avail, group, len, sub)
  | Frame.trigger id, (cur, last, _, _, len, _) => (cur, last, true, 84, len, (id.val : Int))
  | Frame.custom g, (cur, last, _, _, _, sub) => (cur, last, true, g, 1, sub)

/-- The state after a poll of the clock at which no byte arrives. -/
@[simps]
def pollQuiet (s : Nextion) : Nextion :=
  { s with now := s.now + s.ticks.head?.getD 1, ticks := s.ticks.tail }

/-- The state after `_tmr1 = millis();` when no byte arrives at that poll. -/
@[simps]
def startTimerQuiet (s : Nextion) : Nextion :=
  { s with
    now := s.now + s.ticks.head?.getD 1
    ticks := s.ticks.tail
    _tmr1 := (s.now + s.ticks.head?.getD 1) % ULONG }
/-- A page frame between request and reply of `readNum`: with the current page
at 1 and a silent link, the frame `# 2 P 7` arrives 5 ms and the reply for the
value 1000 arrives 10 ms after the call. -/
def interleavedNum : Nextion :=
  { initial with
    _currentPageId := 1
    wire := ((pageFrame 7).map fun b => (5, b)) ++ (numReply 1000).map fun b => (10, b) }

/-- A page frame between request and reply of `readStr`: as `interleavedNum`,
with the reply for the text `hi`. -/
def interleavedStr : Nextion :=
  { initial with
    _currentPageId := 1
    wire := ((pageFrame 7).map fun b => (5, b)) ++ (strReply [104, 105]).map fun b => (10, b) }

/-- The page frame `# 2 P 7` and the reply for the text `hi` arriving in one
piece 5 ms after the call of `readStr`, with the current page at 1. -/
def burstStr : Nextion :=
  { initial with
    _currentPageId := 1
    wire := (pageFrame 7 ++ strReply [104, 105]).map fun b => (5, b) }

/-- The reply for the text `hi` arriving in one piece `stamp` ms after the call
of `readStr` on a link that was silent. -/
def lateReply (stamp : Nat) : Nextion :=
  { initial with wire := (strReply [104, 105]).map fun b => (stamp, b) }

/-- A reply that arrives in two pieces after a page frame: with the current page
at 1 and a silent link, the frame `# 2 P 7` and the first four bytes of the
reply for the value 1000 arrive 5 ms after the call, the other four 15 ms
later. -/
def splitReply : Nextion :=
  { initial with
    _currentPageId := 1
    wire := ((pageFrame 7 ++ (numReply 1000).take 4).map fun b => (5, b)) ++
      ((numReply 1000).drop 4).map fun b => (20, b) }

/-! ## Basic facts -/

theorem toByte_val (b : Byte) : toByte (b.val : Int) = b := by
  apply Fin.ext
  have h := b.isLt
  simp only [toByte, Fin.ofNat]
  show ((b.val : Int) % 256).toNat % 256 = b.val
  omega

theorem toByte_neg_one : toByte (-1) = 255 := by decide

theorem pollLoop_done {cond : Nextion → Bool} {body : Nextion → Nextion × Bool} {budget : Nat}
    {onTimeout : Nextion → Nextion} {s : Nextion} (h : cond s = false) (fuel : Nat) :
    pollLoop cond body budget onTimeout fuel s = some s := by
  unfold pollLoop
  simp [h]

/-- A frame whose marker is the next byte and whose declared length is covered
by the buffer is dispatched by one `listen` without any wait. -/
theorem listen_buffered (fuel : Nat) (s : Nextion) (L g : Byte) (rest : List Byte)
    (hrx : s.rx = 35 :: L :: g :: rest) (hL : L.val ≤ rest.length + 1) :
    listen fuel s = some (readCommand (afterHeader s)) := by
  have h0 : available s > 2 := by simp [available, hrx]
  have h1 : (startTimer (readStartChar s))._start_char = 35 := by
    simp [hrx, toByte_val]
  simp only [listen, if_pos h0]
  rw [pollLoop_done (by simpa using h1)]
  simp only [Option.bind, if_pos h1]
  rw [pollLoop_done]
  · rfl
  · simp [available, hrx, toByte_val]
    omega

theorem stream_millis (s : Nextion) : stream (millis s).2 = stream s := by
  simp [stream, ← List.map_append, List.takeWhile_append_dropWhile]

theorem stream_startTimer (s : Nextion) : stream (startTimer s) = stream s := by
  simpa [stream] using stream_millis s

theorem afterHeader_rx_front (s : Nextion) (L g : Byte) (rest : List Byte)
    (hrx : s.rx = 35 :: L :: g :: rest) : rest <+: (afterHeader s).rx := by
  simp [afterHeader, hrx]

theorem afterHeader_stream (s : Nextion) (L g : Byte) (rest : List Byte)
    (hrx : s.rx = 35 :: L :: g :: rest) :
    stream (afterHeader s) = rest ++ s.wire.map Prod.snd := by
  simp [afterHeader, stream, hrx, ← List.map_append, List.takeWhile_append_dropWhile]

theorem listen_page (fuel : Nat) (s : Nextion) (id : Byte) (rest : List Byte)
    (hrx : s.rx = pageFrame id ++ rest) :
    ∃ s', listen fuel s = some s' ∧ rest <+: s'.rx ∧
      s'._currentPageId = (id.val : Int) ∧ s'._lastCurrentPageId = s._currentPageId := by
  have hrx' : s.rx = 35 :: 2 :: 80 :: (id :: rest) := by simpa [pageFrame] using hrx
  refine ⟨_, listen_buffered fuel s 2 80 (id :: rest) hrx' (by simp), ?_, ?_, ?_⟩
  · simp [readCommand, afterHeader, hrx', toByte_val]
  · simp [readCommand, afterHeader, hrx', toByte_val]
  · simp [readCommand, afterHeader, hrx', toByte_val]

theorem listen_trigger (fuel : Nat) (s : Nextion) (L t : Byte) (rest : List Byte)
    (hrx : s.rx = 35 :: L :: 84 :: t :: rest) (hL : L.val ≤ rest.length + 2) :
    ∃ s', listen fuel s = some s' ∧ rest <+: s'.rx ∧ s'._cmdAvail = true ∧
      s'._cmdGroup = 84 ∧ s'._subCmd = (t.val : Int) ∧ s'._cmdLength = s._cmdLength ∧
      s'._len = L ∧ s'._currentPageId = s._currentPageId ∧
      s'._lastCurrentPageId = s._lastCurrentPageId := by
  refine ⟨_, listen_buffered fuel s L 84 (t :: rest) hrx (by simpa using hL), ?_, ?_, ?_, ?_, ?_,
    ?_, ?_, ?_⟩ <;> simp [readCommand, afterHeader, hrx, toByte_val]

theorem listen_custom (fuel : Nat) (s : Nextion) (L g : Byte) (rest : List Byte)
    (hrx : s.rx = 35 :: L :: g :: rest) (hL : L.val ≤ rest.length + 1)
    (hP : g ≠ 80) (hT : g ≠ 84) :
    ∃ s', listen fuel s = some s' ∧ rest <+: s'.rx ∧
      stream s' = rest ++ s.wire.map Prod.snd ∧ s'._cmdAvail = true ∧
      s'._cmdGroup = g ∧ s'._cmdLength = L ∧ s'._currentPageId = s._currentPageId ∧
      s'._lastCurrentPageId = s._lastCurrentPageId := by
  have hg : (afterHeader s)._cmd1 = g := by simp [afterHeader, hrx, toByte_val]
  have hc : readCommand (afterHeader s) =
      { afterHeader s with _cmdGroup := g, _cmdLength := (afterHeader s)._len,
                           _cmdAvail := true } := by
    simp [readCommand, hg, hP, hT]
  refine ⟨_, listen_buffered fuel s L g rest hrx hL, ?_, ?_, ?_, ?_, ?_, ?_, ?_⟩
  · rw [hc]; exact afterHeader_rx_front s L g rest hrx
  · rw [hc]; exact afterHeader_stream s L g rest hrx
  · rw [hc]
  · rw [hc]
  · rw [hc]; simp [afterHeader, hrx, toByte_val]
  · rw [hc]; simp [afterHeader]
  · rw [hc]; simp [afterHeader]

theorem readBytes_front (p : List Byte) :
    ∀ s : Nextion, p <+: s.rx → (readBytes p.length s).1 = p.map fun b => (b.val : Int) := by
  induction p with
  | nil => intro s _; rfl
  | cons b p ih =>
    intro s h
    obtain ⟨t, ht⟩ := h
    have h1 : (readByte s).1 = (b.val : Int) := by simp [readByte, ← ht]
    have h2 : p <+: (readByte s).2.rx := ⟨t, by simp [readByte, ← ht]⟩
    simp [readBytes, h1, ih _ h2]

/-- C3 (page-pair ordering): when the page frames `# 2 P id` of the ids `ids` are
buffered one after the other, then for every `k < ids.length` the state `sk` after
`k` calls of `listen` (the starting state for `k = 0`) and the state `sk'` after
one more call satisfy: the last page id of `sk'` is the current page id of `sk`,
and the current page id of `sk'` is the `k`-th id. -/
theorem page_pair_ordering (fuel : Nat) (k : Nat) :
    ∀ (ids : List Byte) (hk : k < ids.length) (s : Nextion) (tail : List Byte),
      s.rx = pageFrames ids ++ tail →
      ∃ sk sk', listenN fuel k s = some sk ∧ listenN fuel (k + 1) s = some sk' ∧
        getLastPage sk' = getCurrentPage sk ∧
        getCurrentPage sk' = ((ids.get ⟨k, hk⟩).val : Int) := by
  induction k with
  | zero =>
    intro ids hk s tail hrx
    cases ids with
    | nil => simp at hk
    | cons id ids =>
      obtain ⟨s1, h1, -, hc, hl⟩ :=
        listen_page fuel s id (pageFrames ids ++ tail) (by simpa [pageFrames] using hrx)
      exact ⟨s, s1, rfl, by simp [listenN, h1], hl, hc⟩
  | succ k ih =>
    intro ids hk s tail hrx
    cases ids with
    | nil => simp at hk
    | cons id ids =>
      obtain ⟨s1, h1, ⟨extra, hx⟩, -, -⟩ :=
        listen_page fuel s id (pageFrames ids ++ tail) (by simpa [pageFrames] using hrx)
      have hk' : k < ids.length := by simpa using hk
      obtain ⟨sk, sk', e1, e2, e3, e4⟩ :=
        ih ids hk' s1 (tail ++ extra) (by rw [← hx, List.append_assoc])
      refine ⟨sk, sk', ?_, ?_, e3, ?_⟩
      · rw [listenN, h1]; exact e1
      · rw [listenN, h1]; exact e2
      · simpa using e4

/-- The page frames of the ids 4, 9, 7 from the initial state: the third event. -/
theorem page_pair_ordering_witness :
    ∃ sk sk', listenN 0 2 { initial with rx := pageFrames [4, 9, 7] } = some sk ∧
      listenN 0 3 { initial with rx := pageFrames [4, 9, 7] } = some sk' ∧
      getLastPage sk' = getCurrentPage sk ∧ getCurrentPage sk' = 7 :=
  page_pair_ordering 0 2 [4, 9, 7] (by decide) { initial with rx := pageFrames [4, 9, 7] } []
    (by simp)

/-- C4 as stated fails: after the custom frame `# 3 L 1 1` has been handled and
its payload read, the trigger frame `# 2 T 5` leaves `getCmdLen()` at 3, not at
its own declared length 2. -/
theorem trigger_length_counterexample :
    ∃ s1 s2, listen 0 { initial with rx := [35, 3, 76, 1, 1, 35, 2, 84, 5] } = some s1 ∧
      listen 0 (readBytes 2 s1).2 = some s2 ∧
      (cmdAvail s2).1 = true ∧ getCmd s2 = 84 ∧ getSubCmd s2 = 5 ∧
      getCmdLen s2 = 3 ∧ getCmdLen s2 ≠ 2 := by
  refine ⟨_, _, rfl, rfl, ?_⟩
  decide

/-- C4 (amended): a trigger frame `# L T t` whose declared length is covered by
the buffer sets the pending flag, the group `'T'` and the sub-command `t`, and
leaves the stored command length as it was. -/
theorem trigger_event (fuel : Nat) (s : Nextion) (L t : Byte) (rest : List Byte)
    (hrx : s.rx = 35 :: L :: 84 :: t :: rest) (hL : L.val ≤ rest.length + 2) :
    ∃ s', listen fuel s = some s' ∧ (cmdAvail s').1 = true ∧ getCmd s' = 84 ∧
      getSubCmd s' = (t.val : Int) ∧ getCmdLen s' = getCmdLen s := by
  obtain ⟨s', h, -, ha, hg, hs, hl, -⟩ := listen_trigger fuel s L t rest hrx hL
  exact ⟨s', h, ha, by rw [getCmd, hg]; rfl, hs, by simp [getCmdLen, hl]⟩

/-- The trigger frame `# 2 T 5` from the initial state. -/
theorem trigger_event_witness :
    ∃ s', listen 0 { initial with rx := [35, 2, 84, 5] } = some s' ∧ (cmdAvail s').1 = true ∧
      getCmd s' = 84 ∧ getSubCmd s' = 5 ∧ getCmdLen s' = 0 :=
  trigger_event 0 { initial with rx := [35, 2, 84, 5] } 2 5 [] rfl (by decide)

/-- C5 (custom event): for a group byte `g` other than `'P'` and `'T'` and a
declared length `L ≥ 1`, one `listen` on the buffered frame `# L g` followed by
`L - 1` payload bytes sets the pending command to `(true, g, L)`, removes exactly
the three header bytes from the stream, and leaves the payload at the front of
the buffer, where `L - 1` calls of `readByte` return it in order. -/
theorem custom_event (fuel : Nat) (s : Nextion) (L g : Byte) (payload tail : List Byte)
    (hP : g ≠ 80) (hT : g ≠ 84) (hL : payload.length + 1 = L.val)
    (hrx : s.rx = 35 :: L :: g :: payload ++ tail) :
    ∃ s', listen fuel s = some s' ∧
      (cmdAvail s').1 = true ∧ getCmd s' = (g.val : Int) ∧ getCmdLen s' = (L.val : Int) ∧
      stream s' = (stream s).drop 3 ∧ (payload ++ tail) <+: s'.rx ∧
      (readBytes (L.val - 1) s').1 = payload.map fun b => (b.val : Int) := by
  obtain ⟨s', h, hp, hs, ha, hg, hl, -⟩ :=
    listen_custom fuel s L g (payload ++ tail) hrx (by simp; omega) hP hT
  refine ⟨s', h, ha, by simp [getCmd, hg], by simp [getCmdLen, hl], ?_, hp, ?_⟩
  · rw [hs]; simp [stream, hrx]
  · have : L.val - 1 = payload.length := by omega
    rw [this]
    exact readBytes_front payload s' ((List.prefix_append payload tail).trans hp)

/-- The custom frame `# 3 L 1 1` of the spec from the initial state. -/
theorem custom_event_witness :
    ∃ s', listen 0 { initial with rx := [35, 3, 76, 1, 1] } = some s' ∧
      (cmdAvail s').1 = true ∧ getCmd s' = 76 ∧ getCmdLen s' = 3 ∧
      stream s' = [1, 1] ∧ [1, 1] <+: s'.rx ∧ (readBytes 2 s').1 = [1, 1] :=
  custom_event 0 { initial with rx := [35, 3, 76, 1, 1] } 3 76 [1, 1] [] (by decide) (by decide)
    (by decide) rfl

/-- C6 (consume on read): `cmdAvail()` returns the pending flag, leaves it
false, so that a second call returns false, and changes no other part of the
state. -/
theorem cmdAvail_consumes (s : Nextion) :
    (cmdAvail s).1 = s._cmdAvail ∧ (cmdAvail s).2._cmdAvail = false ∧
      (cmdAvail (cmdAvail s).2).1 = false ∧ (cmdAvail s).2 = { s with _cmdAvail := false } :=
  ⟨rfl, rfl, rfl, rfl⟩

theorem trigger_subCmd_overwritten (y : Nextion) (v : Int) (L t : Byte) (rest : List Byte)
    (hrx : y.rx = 35 :: L :: 84 :: t :: rest) :
    readCommand (afterHeader { y with _subCmd := v }) = readCommand (afterHeader y) := by
  apply Nextion.ext <;> simp [readCommand, afterHeader, hrx, toByte_val]

theorem trigger_id_only_in_subCmd (s : Nextion) (L u u' : Byte) (rest : List Byte)
    (hrx : s.rx = 35 :: L :: 84 :: u :: rest) :
    readCommand (afterHeader { s with rx := 35 :: L :: 84 :: u' :: rest }) =
      { readCommand (afterHeader s) with _subCmd := (u'.val : Int) } := by
  apply Nextion.ext <;> simp [readCommand, afterHeader, hrx, toByte_val]

/-- C7 (single slot): when two trigger frames `# 2 T t1`, `# 2 T t2` are handled
by two calls of `listen` with no poll in between, `cmdAvail()` then returns true
once and false afterwards, `getCmd()` is `'T'`, `getSubCmd()` is `t2`, and the
whole resulting state is the same whatever `t1` was. -/
theorem single_slot (fuel : Nat) (s : Nextion) (t1 t2 : Byte) (tail : List Byte)
    (hrx : s.rx = triggerFrame t1 ++ triggerFrame t2 ++ tail) :
    ∃ s2, (listen fuel s).bind (listen fuel) = some s2 ∧
      (cmdAvail s2).1 = true ∧ (cmdAvail (cmdAvail s2).2).1 = false ∧
      getCmd s2 = 84 ∧ getSubCmd s2 = (t2.val : Int) ∧
      ∀ t1' : Byte,
        (listen fuel { s with rx := triggerFrame t1' ++ triggerFrame t2 ++ tail }).bind
          (listen fuel) = some s2 := by
  have key : ∀ (u : Byte) (x : Nextion), x.rx = triggerFrame u ++ triggerFrame t2 ++ tail →
      ∃ x1 e, listen fuel x = some x1 ∧ x1 = readCommand (afterHeader x) ∧
        x1.rx = 35 :: 2 :: 84 :: t2 :: (tail ++ e) ∧
        (listen fuel x).bind (listen fuel) = some (readCommand (afterHeader x1)) := by
    intro u x hx
    have hx' : x.rx = 35 :: 2 :: 84 :: (u :: (triggerFrame t2 ++ tail)) := by
      simpa [triggerFrame] using hx
    have h1 := listen_buffered fuel x 2 84 _ hx' (by simp)
    have h2 : (35 :: 2 :: 84 :: (t2 :: tail)) <+: (readCommand (afterHeader x)).rx := by
      simp [readCommand, afterHeader, hx', toByte_val, triggerFrame]
    obtain ⟨e, he⟩ := h2
    refine ⟨_, e, h1, rfl, by simpa using he.symm, ?_⟩
    rw [h1]
    simp only [Option.bind]
    exact listen_buffered fuel _ 2 84 (t2 :: tail ++ e) (by simpa using he.symm) (by simp)
  obtain ⟨x1, e, h1, hx1, hr1, h12⟩ := key t1 s hrx
  have hrx' : s.rx = 35 :: 2 :: 84 :: t1 :: (triggerFrame t2 ++ tail) := by
    simpa [triggerFrame] using hrx
  refine ⟨_, h12, ?_, rfl, ?_, ?_, ?_⟩
  · simp [cmdAvail, readCommand, afterHeader, hr1, toByte_val]
  · simp [getCmd, readCommand, afterHeader, hr1, toByte_val]; rfl
  · simp [getSubCmd, readCommand, afterHeader, hr1, toByte_val]
  · intro t1'
    obtain ⟨y1, e', g1, hy1, -, g12⟩ := key t1' { s with rx := triggerFrame t1' ++ triggerFrame t2 ++ tail } rfl
    rw [g12]
    have : y1 = { x1 with _subCmd := (t1'.val : Int) } := by
      rw [hy1, hx1]
      exact trigger_id_only_in_subCmd s 2 t1 t1' _ hrx'
    rw [this]
    exact congrArg some (trigger_subCmd_overwritten x1 _ 2 t2 _ hr1)

/-- The trigger frames with ids 1 and 2 from the initial state. -/
theorem single_slot_witness :
    ∃ s2, (listen 0 { initial with rx := triggerFrame 1 ++ triggerFrame 2 ++ [] }).bind
        (listen 0) = some s2 ∧
      (cmdAvail s2).1 = true ∧ (cmdAvail (cmdAvail s2).2).1 = false ∧
      getCmd s2 = 84 ∧ getSubCmd s2 = 2 ∧
      ∀ t1' : Byte,
        (listen 0 { { initial with rx := triggerFrame 1 ++ triggerFrame 2 ++ [] } with
            rx := triggerFrame t1' ++ triggerFrame 2 ++ [] }).bind (listen 0) = some s2 :=
  single_slot 0 { initial with rx := triggerFrame 1 ++ triggerFrame 2 ++ [] } 1 2 [] rfl

/-! ## Wait loops -/

theorem pollLoop_inv (cond : Nextion → Bool) (body : Nextion → Nextion × Bool) (budget : Nat)
    (onTimeout : Nextion → Nextion) (P : Nextion → Prop)
    (hstep : ∀ x, P x → cond x = true → (body x).2 = false →
      elapsed (millis (body x).1).1 (millis (body x).1).2._tmr1 ≤ budget →
      P (millis (body x).1).2) :
    ∀ (fuel : Nat) (s r : Nextion), P s → pollLoop cond body budget onTimeout fuel s = some r →
      (P r ∧ cond r = false) ∨
      (∃ x, P x ∧ cond x = true ∧ (body x).2 = true ∧ r = (body x).1) ∨
      (∃ x, P x ∧ cond x = true ∧ (body x).2 = false ∧
        budget < elapsed (millis (body x).1).1 (millis (body x).1).2._tmr1 ∧
        r = onTimeout (millis (body x).1).2) := by
  intro fuel
  induction fuel with
  | zero =>
    intro s r hP h
    unfold pollLoop at h
    by_cases hc : cond s = true
    · simp [hc] at h
    · simp only [hc] at h
      simp at h
      subst h
      exact Or.inl ⟨hP, by simpa using hc⟩
  | succ n ih =>
    intro s r hP h
    unfold pollLoop at h
    by_cases hc : cond s = true
    · simp only [hc, if_true] at h
      by_cases hb : (body s).2 = true
      · simp only [hb, if_true] at h
        exact Or.inr (Or.inl ⟨s, hP, hc, hb, (Option.some.inj h).symm⟩)
      · have hb' : (body s).2 = false := by simpa using hb
        simp only [hb'] at h
        by_cases ht : elapsed (millis (body s).1).1 (millis (body s).1).2._tmr1 > budget
        · simp only [ht, if_true] at h
          exact Or.inr (Or.inr ⟨s, hP, hc, hb', ht, (Option.some.inj h).symm⟩)
        · simp only [ht, if_false] at h
          exact ih _ r (hstep s hP hc hb' (by omega)) (by simpa using h)
    · simp only [hc] at h
      simp at h
      subst h
      exact Or.inl ⟨hP, by simpa using hc⟩

theorem fuelFor_le (budget : Nat) (x : Nextion) : fuelFor budget x ≤ x.ticks.length + budget + 2 := by
  unfold fuelFor need
  split_ifs <;> omega

theorem fuelFor_pos (budget : Nat) (x : Nextion) : 0 < fuelFor budget x := by
  unfold fuelFor need
  split_ifs <;> omega

theorem fuelFor_step (budget : Nat) (hb : budget + 1 < ULONG) (y : Nextion)
    (ht : ¬ elapsed (millis y).1 (millis y).2._tmr1 > budget) :
    fuelFor budget (millis y).2 + 1 ≤ fuelFor budget y := by
  have h1 : (millis y).2._tmr1 = y._tmr1 := rfl
  have h2 : (millis y).1 = (millis y).2.now % ULONG := rfl
  have h3 : (millis y).2.now = y.now + y.ticks.head?.getD 1 := rfl
  have h4 : (millis y).2.ticks = y.ticks.tail := rfl
  rw [h1, h2] at ht
  cases hy : y.ticks with
  | nil =>
    have e1 : fuelFor budget y = need budget y := by simp [fuelFor, hy]
    have e2 : fuelFor budget (millis y).2 = need budget (millis y).2 := by
      simp [fuelFor, h4, hy]
    rw [e1, e2]
    unfold need
    rw [h1, h3, hy]
    simp only [h3, hy, List.head?_nil, Option.getD_none] at ht
    simp only [List.head?_nil, Option.getD_none]
    unfold elapsed ULONG at *
    split_ifs <;> omega
  | cons t ts =>
    have e1 : fuelFor budget y = ts.length + 1 + budget + 2 := by simp [fuelFor, hy]
    have e2 := fuelFor_le budget (millis y).2
    rw [h4, hy] at e2
    simp only [List.tail_cons] at e2
    omega

theorem pollLoop_isSome (cond : Nextion → Bool) (body : Nextion → Nextion × Bool) (budget : Nat)
    (onTimeout : Nextion → Nextion) (hb : budget + 1 < ULONG)
    (hbody : ∀ x, (body x).1.now = x.now ∧ (body x).1.ticks = x.ticks ∧
      (body x).1._tmr1 = x._tmr1) :
    ∀ (fuel : Nat) (s : Nextion), fuelFor budget s ≤ fuel →
      ∃ r, pollLoop cond body budget onTimeout fuel s = some r := by
  have hf : ∀ x, fuelFor budget (body x).1 = fuelFor budget x := by
    intro x
    obtain ⟨h1, h2, h3⟩ := hbody x
    simp [fuelFor, need, h1, h2, h3]
  intro fuel
  induction fuel with
  | zero =>
    intro s hs
    exfalso
    have := fuelFor_pos budget s
    omega
  | succ n ih =>
    intro s hs
    unfold pollLoop
    by_cases hc : cond s = true
    · simp only [hc, if_true]
      by_cases hbk : (body s).2 = true
      · exact ⟨(body s).1, by simp [hbk]⟩
      · simp only [hbk]
        by_cases ht : elapsed (millis (body s).1).1 (millis (body s).1).2._tmr1 > budget
        · exact ⟨onTimeout (millis (body s).1).2, if_pos ht⟩
        · simp only [ht, if_false]
          have := fuelFor_step budget hb (body s).1 ht
          rw [hf] at this
          exact ih _ (by omega)
    · exact ⟨s, by simp [hc]⟩

/-! ## The clock and the bytes in flight -/

theorem takeWhile_dropWhile_of_head {α : Type} (p : α → Bool) (l : List α)
    (h : ∀ e ∈ l.head?, p e = false) : l.takeWhile p = [] ∧ l.dropWhile p = l := by
  cases l with
  | nil => simp
  | cons a l =>
    have : p a = false := h a (by simp)
    simp [List.takeWhile, List.dropWhile, this]

theorem millis_quiet (s : Nextion) (h : ∀ e ∈ s.wire.head?, s.now + s.ticks.head?.getD 1 < e.1) :
    (millis s).2.rx = s.rx ∧ (millis s).2.wire = s.wire := by
  have := takeWhile_dropWhile_of_head (fun e : Nat × Byte => decide (e.1 ≤ s.now + s.ticks.head?.getD 1))
    s.wire (by intro e he; have := h e he; simp; omega)
  simp only [millis_snd_rx, millis_snd_wire]
  rw [this.1, this.2]
  simp

theorem millis_wire_subset (s : Nextion) : ∀ e ∈ (millis s).2.wire, e ∈ s.wire :=
  fun _ he => (List.dropWhile_sublist _).subset he

theorem millis_wire_fresh (s : Nextion) :
    ∀ e ∈ (millis s).2.wire.head?, (millis s).2.now < e.1 := by
  intro e he
  have := List.head?_dropWhile_not (fun e : Nat × Byte => decide (e.1 ≤ s.now + s.ticks.head?.getD 1))
    s.wire
  simp only [millis_snd_wire, millis_snd_now] at he ⊢
  rw [Option.mem_def] at he
  rw [he] at this
  simpa using this

theorem millis_ticks_mem (s : Nextion) : ∀ t ∈ (millis s).2.ticks, t ∈ s.ticks :=
  fun _ ht => List.mem_of_mem_tail ht

theorem millis_ticks_length (s : Nextion) : (millis s).2.ticks.length ≤ s.ticks.length := by
  simp

theorem headD_le_of_forall (l : List Nat) (B : Nat) (hB : 1 ≤ B) (h : ∀ t ∈ l, t ≤ B) :
    l.head?.getD 1 ≤ B := by
  cases l with
  | nil => simpa using hB
  | cons a l => simpa using h a (by simp)

theorem elapsed_gt {n T b : Nat} (hT : T ≤ n) (h : b < elapsed (n % ULONG) (T % ULONG)) :
    T + b < n := by
  unfold elapsed ULONG at h
  omega

theorem elapsed_eq {n T : Nat} (hT : T ≤ n) (h : n - T < ULONG) :
    elapsed (n % ULONG) (T % ULONG) = n - T := by
  unfold elapsed ULONG at *
  omega

theorem drainLoop_done (onTimeout : Nextion → Nextion) (lf fuel : Nat) (s : Nextion)
    (h : available s = 0) : drainLoop onTimeout lf fuel s = some s := by
  unfold drainLoop
  simp [h]

/-! ## A read that starts on a silent link -/

theorem startTimer_quiet (s : Nextion) (hquiet : ∀ e ∈ s.wire, pollTime s 1 < e.1) :
    (startTimer s).rx = s.rx ∧ (startTimer s).wire = s.wire :=
  millis_quiet s (fun e he => hquiet e (List.mem_of_mem_head? he))

/-- When nothing is buffered and nothing arrives before the first poll of the
clock, the drain of `readNum` does nothing. -/
theorem readNumDrain_quiet (fuel : Nat) (component : List Byte) (s : Nextion)
    (hrx : s.rx = []) (hquiet : ∀ e ∈ s.wire, pollTime s 1 < e.1) :
    ∃ a, readNumDrain fuel component s = some a ∧ a.rx = [] ∧ a.wire = s.wire ∧
      a.now = pollTime s 1 ∧ a.ticks = s.ticks.tail ∧ a._endOfCommandFound = false := by
  have hq := startTimer_quiet (readNumInit component s) hquiet
  refine ⟨_, drainLoop_done _ _ _ _ ?_, ?_, hq.2, rfl, rfl, rfl⟩
  · rw [available, hq.1]; simp [hrx]
  · rw [hq.1]; simp [hrx]

/-- When nothing is buffered and nothing arrives before the first poll of the
clock, the drain of `readStr` does nothing. -/
theorem readStrDrain_quiet (fuel : Nat) (s : Nextion)
    (hrx : s.rx = []) (hquiet : ∀ e ∈ s.wire, pollTime s 1 < e.1) :
    ∃ a, readStrDrain fuel s = some a ∧ a.rx = [] ∧ a.wire = s.wire ∧
      a.now = pollTime s 1 ∧ a.ticks = s.ticks.tail ∧ a._endOfCommandFound = false := by
  have hq := startTimer_quiet (readStrInit s) hquiet
  refine ⟨_, drainLoop_done _ _ _ _ ?_, ?_, hq.2, rfl, rfl, rfl⟩
  · rw [available, hq.1]; simp [hrx]
  · rw [hq.1]; simp [hrx]

theorem rx_of_stream_full (x : Nextion) (l : List Byte) (hs : stream x = l)
    (hl : l.length ≤ x.rx.length) : x.rx = l ∧ x.wire = [] := by
  unfold stream at hs
  have h1 : (x.rx ++ x.wire.map Prod.snd).length = l.length := by rw [hs]
  simp only [List.length_append, List.length_map] at h1
  have h2 : x.wire = [] := List.eq_nil_of_length_eq_zero (by omega)
  rw [h2] at hs
  exact ⟨by simpa using hs, h2⟩

theorem millis_ticks_suffix (s : Nextion) : (millis s).2.ticks <:+ s.ticks :=
  List.tail_suffix s.ticks

/-- The response wait of `readNum` and `readStr` ends, keeps the stream and the
flag of the terminator search, and only uses up ticks. -/
theorem wait_reply (n fuel : Nat) (onTimeout : Nextion → Nextion) (s2 : Nextion)
    (hon : ∀ x, stream (onTimeout x) = stream x ∧
      (onTimeout x)._endOfCommandFound = x._endOfCommandFound ∧
      (onTimeout x).ticks = x.ticks ∧ (onTimeout x).rx = x.rx)
    (hfuel : s2.ticks.length + 402 ≤ fuel) :
    ∃ r, pollLoop (fun x => decide (available x < n)) (fun x => (x, false)) 400 onTimeout
        fuel s2 = some r ∧ stream r = stream s2 ∧
      r._endOfCommandFound = s2._endOfCommandFound ∧ r.ticks <:+ s2.ticks := by
  obtain ⟨r, hr⟩ := pollLoop_isSome (fun x => decide (available x < n))
    (fun x => (x, false)) 400 onTimeout (by decide)
    (fun x => ⟨rfl, rfl, rfl⟩) fuel s2 (by have := fuelFor_le 400 s2; omega)
  refine ⟨r, hr, ?_⟩
  have hP := pollLoop_inv (fun x => decide (available x < n)) (fun x => (x, false)) 400 onTimeout
    (fun x => stream x = stream s2 ∧ x._endOfCommandFound = s2._endOfCommandFound ∧
      x.ticks <:+ s2.ticks)
    (fun x hx _ _ _ => ⟨by rw [stream_millis]; exact hx.1, hx.2.1,
      (millis_ticks_suffix x).trans hx.2.2⟩) fuel s2 r ⟨rfl, rfl, List.suffix_refl _⟩ hr
  rcases hP with ⟨h, -⟩ | ⟨x, -, -, hb, -⟩ | ⟨x, hx, -, -, -, rfl⟩
  · exact h
  · simp at hb
  · obtain ⟨h1, h2, h3, -⟩ := hon (millis x).2
    refine ⟨by rw [h1, stream_millis]; exact hx.1, by rw [h2]; exact hx.2.1, ?_⟩
    rw [h3]
    exact (millis_ticks_suffix x).trans hx.2.2

/-- When every byte in flight is due within the budget of the response wait,
the wait ends with the whole stream in the buffer. -/
theorem wait_reply_arrived (n fuel : Nat) (onTimeout : Nextion → Nextion) (s2 r : Nextion)
    (hon : ∀ x, (onTimeout x).rx = x.rx ∧ (onTimeout x).wire = x.wire)
    (hn : (stream s2).length ≤ n) (htmr : s2._tmr1 = s2.now % ULONG)
    (hdue : ∀ e ∈ s2.wire, e.1 ≤ s2.now + 400)
    (hr : pollLoop (fun x => decide (available x < n)) (fun x => (x, false)) 400 onTimeout
        fuel s2 = some r) :
    r.rx = stream s2 ∧ r.wire = [] := by
  have hP := pollLoop_inv (fun x => decide (available x < n)) (fun x => (x, false)) 400 onTimeout
    (fun x => stream x = stream s2 ∧ (∀ e ∈ x.wire, e.1 ≤ s2.now + 400) ∧
      x._tmr1 = s2.now % ULONG ∧ s2.now ≤ x.now)
    (fun x hx _ _ _ => ⟨by rw [stream_millis]; exact hx.1,
      fun e he => hx.2.1 e (millis_wire_subset x e he), hx.2.2.1,
      hx.2.2.2.trans (by simp)⟩) fuel s2 r ⟨rfl, hdue, htmr, le_rfl⟩ hr
  rcases hP with ⟨h, hc⟩ | ⟨x, -, -, hb, -⟩ | ⟨x, hx, -, -, ht, rfl⟩
  · refine rx_of_stream_full r _ h.1 ?_
    simp only [available, decide_eq_false_iff_not, not_lt] at hc
    omega
  · simp at hb
  · have ht' : s2.now + 400 < (millis x).2.now := by
      apply elapsed_gt (hx.2.2.2.trans (by simp))
      have : (millis x).2._tmr1 = s2.now % ULONG := hx.2.2.1
      rw [← this]
      exact ht
    have hw : (millis x).2.wire = [] := by
      cases hw : (millis x).2.wire with
      | nil => rfl
      | cons e l =>
        exfalso
        have h1 := millis_wire_fresh x e (by rw [hw]; simp)
        have h2 := hx.2.1 e (millis_wire_subset x e (by rw [hw]; simp))
        omega
    obtain ⟨g1, g2⟩ := hon (millis x).2
    rw [g1, g2]
    refine ⟨?_, hw⟩
    have := hx.1
    rw [← stream_millis x] at this
    rw [← this, stream, hw]
    simp

/-! ## The terminator loop of `readNum` -/

theorem countTerminator_fields (x : Nextion) :
    (countTerminator x).rx = x.rx ∧ (countTerminator x).wire = x.wire ∧
      (countTerminator x)._endBytes = x._endBytes + 1 ∧
      (countTerminator x)._endOfCommandFound =
        (if x._endBytes + 1 = 3 then true else x._endOfCommandFound) ∧
      (countTerminator x)._numericBuffer = x._numericBuffer ∧
      (countTerminator x)._readString = x._readString ∧
      (countTerminator x).now = x.now ∧
      (countTerminator x).ticks = x.ticks ∧ (countTerminator x)._tmr1 = x._tmr1 := by
  unfold countTerminator
  by_cases h : x._endBytes + 1 = 3
  · simp [h]
  · simp [h]

theorem numStep_ff (x : Nextion) (rest : List Byte) (hrx : x.rx = 255 :: rest) :
    (numStep x).2 = false ∧ (numStep x).1.rx = rest ∧ (numStep x).1.wire = x.wire ∧
      (numStep x).1._endBytes = x._endBytes + 1 ∧
      (numStep x).1._endOfCommandFound =
        (if x._endBytes + 1 = 3 then true else x._endOfCommandFound) ∧
      (numStep x).1._numericBuffer = x._numericBuffer ∧ (numStep x).1.now = x.now ∧
      (numStep x).1.ticks = x.ticks ∧ (numStep x).1._tmr1 = x._tmr1 := by
  have h : (readTempChar x)._tempChar = 255 := by simp [hrx, toByte_val]
  obtain ⟨h1, h2, h3, h4, h5, -, h6, h7, h8⟩ := countTerminator_fields (readTempChar x)
  unfold numStep
  simp only [h, if_true]
  refine ⟨trivial, ?_, ?_, ?_, ?_, ?_, ?_, ?_, ?_⟩
  · rw [h1]; simp [hrx]
  · rw [h2]; rfl
  · rw [h3]; rfl
  · rw [h4]; rfl
  · rw [h5]; rfl
  · rw [h6]; rfl
  · rw [h7]; rfl
  · rw [h8]; rfl

theorem numStep_other (x : Nextion) (b : Byte) (rest : List Byte) (hrx : x.rx = b :: rest)
    (hb : b ≠ 255) :
    (numStep x).2 = true ∧ (numStep x).1._endOfCommandFound = x._endOfCommandFound := by
  have h : (readTempChar x)._tempChar = b := by simp [hrx, toByte_val]
  rw [numStep, h, if_neg hb]
  exact ⟨rfl, rfl⟩

theorem numStep_clock (x : Nextion) :
    (numStep x).1.now = x.now ∧ (numStep x).1.ticks = x.ticks ∧
      (numStep x).1._tmr1 = x._tmr1 := by
  obtain ⟨-, -, -, -, -, -, h6, h7, h8⟩ := countTerminator_fields (readTempChar x)
  unfold numStep
  split_ifs
  · exact ⟨h6, h7, h8⟩
  · simp

theorem millis_wire_nil (x : Nextion) (h : x.wire = []) :
    (millis x).2.rx = x.rx ∧ (millis x).2.wire = [] := by
  have := millis_quiet x (by simp [h])
  exact ⟨this.1, this.2.trans h⟩

/-- A terminator that is not three `0xFF` bytes leaves the terminator loop of
`readNum` with the flag still false. -/
theorem terminator_malformed (fuel : Nat) (b1 b2 b3 : Byte) (s6 : Nextion)
    (hbad : ¬ (b1 = 255 ∧ b2 = 255 ∧ b3 = 255))
    (hrx : s6.rx = [b1, b2, b3]) (hwire : s6.wire = []) (hend : s6._endBytes = 0)
    (hfound : s6._endOfCommandFound = false) (hfuel : s6.ticks.length + 1002 ≤ fuel) :
    ∃ r, pollLoop (fun x => x._endOfCommandFound == false) numStep 1000 setFail fuel s6 = some r ∧
      r._endOfCommandFound = false := by
  obtain ⟨r, hr⟩ := pollLoop_isSome (fun x => x._endOfCommandFound == false) numStep 1000 setFail
    (by decide) numStep_clock fuel s6 (by have := fuelFor_le 1000 s6; omega)
  refine ⟨r, hr, ?_⟩
  have key : ∀ x, (x._endOfCommandFound = false ∧ x.wire = [] ∧
      ((x._endBytes = 0 ∧ x.rx = [b1, b2, b3]) ∨ (x._endBytes = 1 ∧ x.rx = [b2, b3] ∧ b1 = 255) ∨
        (x._endBytes = 2 ∧ x.rx = [b3] ∧ b1 = 255 ∧ b2 = 255))) →
      (numStep x).1._endOfCommandFound = false ∧
      ((numStep x).2 = false → (numStep x).1.wire = [] ∧
        (((numStep x).1._endBytes = 1 ∧ (numStep x).1.rx = [b2, b3] ∧ b1 = 255) ∨
        ((numStep x).1._endBytes = 2 ∧ (numStep x).1.rx = [b3] ∧ b1 = 255 ∧ b2 = 255))) := by
    rintro x ⟨hf, hw, ⟨he, hx⟩ | ⟨he, hx, h1⟩ | ⟨he, hx, h1, h2⟩⟩
    · by_cases hb : b1 = 255
      · subst hb
        obtain ⟨-, g2, g3, g4, g5, -⟩ := numStep_ff x _ hx
        exact ⟨by rw [g5, he]; simpa using hf, fun _ => ⟨by rw [g3, hw],
          Or.inl ⟨by rw [g4, he], g2, rfl⟩⟩⟩
      · obtain ⟨g1, g2⟩ := numStep_other x b1 _ hx hb
        exact ⟨by rw [g2, hf], fun h => by simp [g1] at h⟩
    · by_cases hb : b2 = 255
      · subst hb
        obtain ⟨-, g2, g3, g4, g5, -⟩ := numStep_ff x _ hx
        exact ⟨by rw [g5, he]; simpa using hf, fun _ => ⟨by rw [g3, hw],
          Or.inr ⟨by rw [g4, he], g2, h1, rfl⟩⟩⟩
      · obtain ⟨g1, g2⟩ := numStep_other x b2 _ hx hb
        exact ⟨by rw [g2, hf], fun h => by simp [g1] at h⟩
    · have hb : b3 ≠ 255 := fun h => hbad ⟨h1, h2, h⟩
      obtain ⟨g1, g2⟩ := numStep_other x b3 _ hx hb
      exact ⟨by rw [g2, hf], fun h => by simp [g1] at h⟩
  have hP := pollLoop_inv (fun x => x._endOfCommandFound == false) numStep 1000 setFail
    (fun x => x._endOfCommandFound = false ∧ x.wire = [] ∧
      ((x._endBytes = 0 ∧ x.rx = [b1, b2, b3]) ∨ (x._endBytes = 1 ∧ x.rx = [b2, b3] ∧ b1 = 255) ∨
        (x._endBytes = 2 ∧ x.rx = [b3] ∧ b1 = 255 ∧ b2 = 255)))
    (fun x hx _ hb _ => by
      obtain ⟨k1, k2⟩ := key x hx
      obtain ⟨k3, k4⟩ := k2 hb
      obtain ⟨m1, m2⟩ := millis_wire_nil _ k3
      refine ⟨k1, m2, Or.inr ?_⟩
      rw [m1]
      exact k4)
    fuel s6 r ⟨hfound, hwire, Or.inl ⟨hend, hrx⟩⟩ hr
  rcases hP with ⟨h, -⟩ | ⟨x, hx, -, -, rfl⟩ | ⟨x, hx, -, -, -, rfl⟩
  · exact h.1
  · exact (key x hx).1
  · exact (key x hx).1

theorem readNumParse_malformed (fuel : Nat) (v0 v1 v2 v3 b1 b2 b3 : Byte) (s3 : Nextion)
    (hbad : ¬ (b1 = 255 ∧ b2 = 255 ∧ b3 = 255))
    (hrx : s3.rx = [113, v0, v1, v2, v3, b1, b2, b3]) (hwire : s3.wire = [])
    (hfound : s3._endOfCommandFound = false) (hfuel : s3.ticks.length + 1002 ≤ fuel) :
    ∃ r, readNumParse fuel s3 = some r ∧ r._endOfCommandFound = false := by
  have h0 : available s3 > 7 := by simp [available, hrx]
  have h1 : (startTimer (readStartChar s3))._start_char = 113 := by simp [hrx, toByte_val]
  simp only [readNumParse, if_pos h0]
  rw [pollLoop_done (by simpa using h1)]
  simp only [Option.bind, if_pos h1]
  apply terminator_malformed fuel b1 b2 b3 _ hbad
  · simp [hrx, hwire]
  · simp [hwire]
  · simp
  · simp [hfound]
  · simp; omega

theorem readNumResult_fail (s7 : Nextion) (h : s7._endOfCommandFound = false) :
    (readNumResult s7)._numberValue = 777777 := by
  simp [readNumResult, h]

/-- C8 (malformed numeric reply): when `readNum` is called on a silent link and
the reply `0x71 v0 v1 v2 v3 b1 b2 b3` follows the `get` request with a terminator
`b1 b2 b3` other than `0xFF 0xFF 0xFF`, `readNum` returns 777777, however the
bytes are timed. -/
theorem malformed_numeric_reply (fuel : Nat) (component : List Byte) (s : Nextion)
    (v0 v1 v2 v3 b1 b2 b3 : Byte) (hbad : ¬ (b1 = 255 ∧ b2 = 255 ∧ b3 = 255))
    (hrx : s.rx = []) (hwire : s.wire.map Prod.snd = [113, v0, v1, v2, v3, b1, b2, b3])
    (hquiet : ∀ e ∈ s.wire, pollTime s 1 < e.1) (hfuel : s.ticks.length + 1002 ≤ fuel) :
    ∃ s', readNum fuel component s = some (777777, s') := by
  obtain ⟨a, ha, harx, hawire, -, haticks, hafound⟩ :=
    readNumDrain_quiet fuel component s hrx hquiet
  have hlen : a.ticks.length ≤ s.ticks.length := by rw [haticks]; simp
  obtain ⟨r3, h3, hs3, hf3, ht3⟩ := wait_reply 8 fuel setFail
    (startTimer (print TERM (print a._comp (print GET a))))
    (fun x => ⟨rfl, rfl, rfl, rfl⟩)
    (by have := millis_ticks_length (print TERM (print a._comp (print GET a)))
        simp only [startTimer_ticks, print_ticks] at this ⊢; omega)
  have hs3' : stream r3 = [113, v0, v1, v2, v3, b1, b2, b3] := by
    rw [hs3, stream_startTimer]
    simp [stream, harx, hawire, hwire]
  have hf3' : r3._endOfCommandFound = false := by rw [hf3]; simpa using hafound
  have ht3' : r3.ticks.length + 1002 ≤ fuel := by
    have := millis_ticks_length (print TERM (print a._comp (print GET a)))
    have := ht3.length_le
    simp only [startTimer_ticks, print_ticks] at *; omega
  have hparse : ∃ r7, readNumParse fuel r3 = some r7 ∧ r7._endOfCommandFound = false := by
    by_cases hav : available r3 > 7
    · obtain ⟨e1, e2⟩ := rx_of_stream_full r3 _ hs3' (by simpa [available] using hav)
      exact readNumParse_malformed fuel v0 v1 v2 v3 b1 b2 b3 r3 hbad e1 e2 hf3' ht3'
    · exact ⟨r3, by simp only [readNumParse, if_neg hav], hf3'⟩
  obtain ⟨r7, h7, hf7⟩ := hparse
  refine ⟨readNumResult r7, ?_⟩
  simp only [readNum, ha, Option.bind, readNumReply, h3, h7, readNumResult_fail r7 hf7]

/-- The reply with the terminator `0xFF 0xFF 0x00` of the spec. -/
theorem malformed_numeric_reply_witness :
    ∃ s', readNum 1002 [110, 48, 46, 118, 97, 108]
      { initial with
        wire := [(5, 113), (5, 1), (5, 2), (5, 3), (5, 4), (6, 255), (6, 255), (6, 0)] } =
        some (777777, s') :=
  malformed_numeric_reply 1002 [110, 48, 46, 118, 97, 108]
    { initial with
      wire := [(5, 113), (5, 1), (5, 2), (5, 3), (5, 4), (6, 255), (6, 255), (6, 0)] }
    1 2 3 4 255 255 0 (by decide) rfl rfl (by decide) (by decide)

theorem shl8_or (a b : Nat) (ha : a < 16777216) (hb : b < 256) :
    shl8 a ||| b = a * 256 + b := by
  unfold shl8 ULONG
  rw [Nat.shiftLeft_eq]
  have h1 : a * 2 ^ 8 % 4294967296 = 2 ^ 8 * a := by
    norm_num
    omega
  rw [h1, ← Nat.mul_add_lt_is_or (by simpa using hb) a]
  norm_num
  omega

theorem assemble_leBytes (V : Nat) (hV : V < ULONG) :
    assemble ((Fin.ofNat (V % 256) : Byte), (Fin.ofNat (V / 256 % 256) : Byte),
      (Fin.ofNat (V / 65536 % 256) : Byte), (Fin.ofNat (V / 16777216 % 256) : Byte)) = V := by
  unfold ULONG at hV
  have e0 : ((Fin.ofNat (V % 256) : Byte) : Nat) = V % 256 := by
    show V % 256 % 256 = V % 256; omega
  have e1 : ((Fin.ofNat (V / 256 % 256) : Byte) : Nat) = V / 256 % 256 := by
    show V / 256 % 256 % 256 = V / 256 % 256; omega
  have e2 : ((Fin.ofNat (V / 65536 % 256) : Byte) : Nat) = V / 65536 % 256 := by
    show V / 65536 % 256 % 256 = V / 65536 % 256; omega
  have e3 : ((Fin.ofNat (V / 16777216 % 256) : Byte) : Nat) = V / 16777216 % 256 := by
    show V / 16777216 % 256 % 256 = V / 16777216 % 256; omega
  simp only [assemble, e0, e1, e2, e3]
  rw [shl8_or (V / 16777216 % 256) (V / 65536 % 256) (by omega) (by omega),
    shl8_or (V / 16777216 % 256 * 256 + V / 65536 % 256) (V / 256 % 256) (by omega) (by omega),
    shl8_or ((V / 16777216 % 256 * 256 + V / 65536 % 256) * 256 + V / 256 % 256) (V % 256)
      (by omega) (by omega)]
  omega

/-- Three buffered `0xFF` bytes end the terminator loop of `readNum` with the
flag set, when the clock is polled at least every 500 ms. -/
theorem terminator_wellformed (fuel : Nat) (s6 : Nextion)
    (hrx : s6.rx = [255, 255, 255]) (hwire : s6.wire = []) (hend : s6._endBytes = 0)
    (htmr : s6._tmr1 = s6.now % ULONG)
    (hticks : ∀ t ∈ s6.ticks, t ≤ 500) (hfuel : s6.ticks.length + 1002 ≤ fuel) :
    ∃ r, pollLoop (fun x => x._endOfCommandFound == false) numStep 1000 setFail fuel s6 = some r ∧
      r._endOfCommandFound = true ∧ r._numericBuffer = s6._numericBuffer := by
  obtain ⟨r, hr⟩ := pollLoop_isSome (fun x => x._endOfCommandFound == false) numStep 1000 setFail
    (by decide) numStep_clock fuel s6 (by have := fuelFor_le 1000 s6; omega)
  refine ⟨r, hr, ?_⟩
  have key : ∀ x, (x.wire = [] ∧ x._numericBuffer = s6._numericBuffer ∧
      x._tmr1 = s6.now % ULONG ∧ (∀ t ∈ x.ticks, t ≤ 500) ∧ s6.now ≤ x.now ∧
      (x._endOfCommandFound = false → x._endBytes ≤ 2 ∧
        x.rx = List.replicate (3 - x._endBytes) 255 ∧ x.now ≤ s6.now + 500 * x._endBytes)) →
      x._endOfCommandFound = false →
      (numStep x).2 = false ∧ (numStep x).1._numericBuffer = s6._numericBuffer ∧
      ((numStep x).1._endOfCommandFound = false → x._endBytes ≤ 1) ∧
      (x._endBytes = 2 → (numStep x).1._endOfCommandFound = true) ∧
      (millis (numStep x).1).2.now ≤ s6.now + 500 * (x._endBytes + 1) ∧
      (millis (numStep x).1).2.wire = [] ∧
      (millis (numStep x).1).2._numericBuffer = s6._numericBuffer ∧
      (millis (numStep x).1).2._tmr1 = s6.now % ULONG ∧
      (∀ t ∈ (millis (numStep x).1).2.ticks, t ≤ 500) ∧
      s6.now ≤ (millis (numStep x).1).2.now ∧
      ((millis (numStep x).1).2._endOfCommandFound = false →
        (millis (numStep x).1).2._endBytes ≤ 2 ∧
        (millis (numStep x).1).2.rx =
          List.replicate (3 - (millis (numStep x).1).2._endBytes) 255 ∧
        (millis (numStep x).1).2.now ≤ s6.now + 500 * (millis (numStep x).1).2._endBytes) := by
    rintro x ⟨hw, hbuf, ht, htk, hnow, hcase⟩ hf
    obtain ⟨hk, hx, hn⟩ := hcase hf
    have hx' : x.rx = 255 :: List.replicate (2 - x._endBytes) 255 := by
      rw [hx, show 3 - x._endBytes = (2 - x._endBytes) + 1 by omega, List.replicate_succ]
    obtain ⟨g1, g2, g3, g4, g5, g6, g7, g8, g9⟩ := numStep_ff x _ hx'
    obtain ⟨m1, m2⟩ := millis_wire_nil (numStep x).1 (by rw [g3, hw])
    have hstepnow : (millis (numStep x).1).2.now ≤ s6.now + 500 * (x._endBytes + 1) := by
      have := headD_le_of_forall (numStep x).1.ticks 500 (by decide) (by rw [g8]; exact htk)
      simp only [millis_snd_now, g7]
      omega
    have hfound' : (millis (numStep x).1).2._endOfCommandFound =
        (numStep x).1._endOfCommandFound := rfl
    have hend' : (millis (numStep x).1).2._endBytes = (numStep x).1._endBytes := rfl
    refine ⟨g1, by rw [g6, hbuf], ?_, ?_, hstepnow, m2, ?_, ?_, ?_, ?_, ?_⟩
    · intro h
      rw [g5] at h
      by_cases h3 : x._endBytes + 1 = 3
      · simp [h3] at h
      · omega
    · intro h
      rw [g5]
      simp [h]
    · show (numStep x).1._numericBuffer = _
      rw [g6, hbuf]
    · show (numStep x).1._tmr1 = _
      rw [g9, ht]
    · intro t htm
      exact htk t (by rw [← g8]; exact millis_ticks_mem _ t htm)
    · simp only [millis_snd_now, g7]
      omega
    · intro h
      rw [hfound', g5] at h
      have h3 : ¬ x._endBytes + 1 = 3 := by
        intro h3
        simp [h3] at h
      rw [hend', g4, m1, g2]
      refine ⟨by omega, ?_, hstepnow⟩
      rw [show 3 - (x._endBytes + 1) = 2 - x._endBytes by omega]
  have hP := pollLoop_inv (fun x => x._endOfCommandFound == false) numStep 1000 setFail
    (fun x => x.wire = [] ∧ x._numericBuffer = s6._numericBuffer ∧
      x._tmr1 = s6.now % ULONG ∧ (∀ t ∈ x.ticks, t ≤ 500) ∧ s6.now ≤ x.now ∧
      (x._endOfCommandFound = false → x._endBytes ≤ 2 ∧
        x.rx = List.replicate (3 - x._endBytes) 255 ∧ x.now ≤ s6.now + 500 * x._endBytes))
    (fun x hx hc _ _ => by
      obtain ⟨-, -, -, -, -, k1, k2, k3, k4, k5, k6⟩ := key x hx (by simpa using hc)
      exact ⟨k1, k2, k3, k4, k5, k6⟩)
    fuel s6 r ⟨hwire, rfl, htmr, hticks, le_rfl, fun _ => ⟨by omega, by rw [hrx, hend]; rfl,
      by omega⟩⟩ hr
  rcases hP with ⟨h, hc⟩ | ⟨x, hx, hc, hb, rfl⟩ | ⟨x, hx, hc, -, ht, rfl⟩
  · exact ⟨by simpa using hc, h.2.1⟩
  · have := (key x hx (by simpa using hc)).1
    rw [this] at hb
    exact absurd hb (by decide)
  · obtain ⟨-, k0, k1, k2, k3, -, k4, k5, -, k6, -⟩ := key x hx (by simpa using hc)
    rw [k5] at ht
    have hgt := elapsed_gt k6 ht
    have h2 : x._endBytes = 2 := by
      by_contra hne
      have hle : x._endBytes ≤ 2 := (hx.2.2.2.2.2 (by simpa using hc)).1
      have : x._endBytes ≤ 1 := by omega
      have : 500 * (x._endBytes + 1) ≤ 1000 := by omega
      omega
    exact ⟨k2 h2, k4⟩

theorem readNumParse_wellformed (fuel : Nat) (v0 v1 v2 v3 : Byte) (s3 : Nextion)
    (hrx : s3.rx = [113, v0, v1, v2, v3, 255, 255, 255]) (hwire : s3.wire = [])
    (hticks : ∀ t ∈ s3.ticks, t ≤ 500) (hfuel : s3.ticks.length + 1002 ≤ fuel) :
    ∃ r, readNumParse fuel s3 = some r ∧ r._endOfCommandFound = true ∧
      r._numericBuffer = (v0, v1, v2, v3) := by
  have h0 : available s3 > 7 := by simp [available, hrx]
  have h1 : (startTimer (readStartChar s3))._start_char = 113 := by simp [hrx, toByte_val]
  simp only [readNumParse, if_pos h0]
  rw [pollLoop_done (by simpa using h1)]
  simp only [Option.bind, if_pos h1]
  have hbuf : Nextion._numericBuffer
      (startTimer (clearEndBytes (readNumericBuffer (startTimer (readStartChar s3))))) =
        (v0, v1, v2, v3) := by
    simp [hrx, hwire, toByte_val]
  rw [← hbuf]
  apply terminator_wellformed fuel _
  · simp [hrx, hwire]
  · simp [hwire]
  · simp
  · rfl
  · intro t ht
    exact hticks t (List.mem_of_mem_tail (List.mem_of_mem_tail ht))
  · simp; omega

/-- C1 (numeric round trip): when `readNum` is called on a silent link, the clock
is polled at least every 500 ms, and the reply `0x71`, the four bytes of
`V < 2 ^ 32` in little endian order, `0xFF 0xFF 0xFF` arrives after the `get`
request and within the 400 ms of the response wait, `readNum` returns `V`. -/
theorem numeric_round_trip (fuel : Nat) (component : List Byte) (s : Nextion) (V : Nat)
    (hV : V < ULONG) (hrx : s.rx = []) (hwire : s.wire.map Prod.snd = numReply V)
    (hquiet : ∀ e ∈ s.wire, pollTime s 1 < e.1)
    (hbudget : ∀ e ∈ s.wire, e.1 ≤ pollTime s 2 + 400)
    (hticks : ∀ t ∈ s.ticks, t ≤ 500) (hfuel : s.ticks.length + 1002 ≤ fuel) :
    ∃ s', readNum fuel component s = some (V, s') := by
  obtain ⟨a, ha, harx, hawire, hanow, haticks, -⟩ :=
    readNumDrain_quiet fuel component s hrx hquiet
  have hlen : a.ticks.length ≤ s.ticks.length := by rw [haticks]; simp
  have hs2now : (startTimer (print TERM (print a._comp (print GET a)))).now = pollTime s 2 := by
    simp only [startTimer_now, millis_snd_now, print_now, print_ticks, hanow, haticks]
    simp [pollTime]
  obtain ⟨r3, h3, hs3, -, ht3⟩ := wait_reply 8 fuel setFail
    (startTimer (print TERM (print a._comp (print GET a))))
    (fun x => ⟨rfl, rfl, rfl, rfl⟩)
    (by have := millis_ticks_length (print TERM (print a._comp (print GET a)))
        simp only [startTimer_ticks, print_ticks] at this ⊢; omega)
  have hstream : stream (startTimer (print TERM (print a._comp (print GET a)))) = numReply V := by
    rw [stream_startTimer]
    simp [stream, harx, hawire, hwire]
  obtain ⟨e1, e2⟩ := wait_reply_arrived 8 fuel setFail _ r3 (fun x => ⟨rfl, rfl⟩)
    (by rw [hstream]; simp [numReply, leBytes, TERM]) rfl
    (by
      intro e he
      rw [hs2now]
      apply hbudget e
      rw [← hawire]
      exact millis_wire_subset _ e he)
    h3
  rw [hstream] at e1
  have htk3 : ∀ t ∈ r3.ticks, t ≤ 500 := by
    intro t ht
    have h1 := ht3.subset ht
    have h2 := millis_ticks_mem _ t h1
    simp only [print_ticks, haticks] at h2
    exact hticks t (List.mem_of_mem_tail h2)
  have ht3' : r3.ticks.length + 1002 ≤ fuel := by
    have := millis_ticks_length (print TERM (print a._comp (print GET a)))
    have := ht3.length_le
    simp only [startTimer_ticks, print_ticks] at *; omega
  obtain ⟨r7, h7, hf7, hb7⟩ := readNumParse_wellformed fuel (Fin.ofNat (V % 256))
    (Fin.ofNat (V / 256 % 256)) (Fin.ofNat (V / 65536 % 256)) (Fin.ofNat (V / 16777216 % 256)) r3
    (by rw [e1]; rfl) e2 htk3 ht3'
  refine ⟨readNumResult r7, ?_⟩
  have hval : (readNumResult r7)._numberValue = V := by
    simp only [readNumResult, hf7, if_true, hb7]
    exact assemble_leBytes V hV
  simp only [readNum, ha, Option.bind, readNumReply, h3, h7, hval]

/-- The value 777777 itself is read back from a reply that arrives after 150 ms. -/
theorem numeric_round_trip_witness :
    ∃ s', readNum 1002 [110, 48, 46, 118, 97, 108]
      { initial with wire := (numReply 777777).map fun b => (150, b) } = some (777777, s') :=
  numeric_round_trip 1002 [110, 48, 46, 118, 97, 108]
    { initial with wire := (numReply 777777).map fun b => (150, b) } 777777 (by decide) rfl
    (by decide) (by decide) (by decide) (by decide) (by decide)

/-! ## The accumulation loop of `readStr` -/

theorem strStep_idle (x : Nextion) (hrx : x.rx = []) : strStep x = x := by
  simp [strStep, available, hrx]

theorem strStep_ff (x : Nextion) (rest : List Byte) (hrx : x.rx = 255 :: rest) :
    (strStep x).rx = rest ∧ (strStep x).wire = x.wire ∧
      (strStep x)._readString = x._readString ∧
      (strStep x)._endBytes = x._endBytes + 1 ∧
      (strStep x)._endOfCommandFound =
        (if x._endBytes + 1 = 3 then true else x._endOfCommandFound) := by
  have h0 : available x ≠ 0 := by simp [available, hrx]
  have h : (readTempChar x)._tempChar = 255 := by simp [hrx, toByte_val]
  obtain ⟨h1, h2, h3, h4, -, h5, -⟩ := countTerminator_fields (readTempChar x)
  rw [strStep, if_pos h0, if_pos h]
  refine ⟨?_, ?_, ?_, ?_, ?_⟩
  · rw [h1]; simp [hrx]
  · rw [h2]; rfl
  · rw [h5]; rfl
  · rw [h3]; rfl
  · rw [h4]; rfl

theorem strStep_other (x : Nextion) (b : Byte) (rest : List Byte) (hrx : x.rx = b :: rest)
    (hb : b ≠ 255) :
    (strStep x).rx = rest ∧ (strStep x).wire = x.wire ∧
      (strStep x)._readString = x._readString ++ [b] ∧
      (strStep x)._endBytes = x._endBytes ∧
      (strStep x)._endOfCommandFound = x._endOfCommandFound := by
  have h0 : available x ≠ 0 := by simp [available, hrx]
  have h : (readTempChar x)._tempChar = b := by simp [hrx, toByte_val]
  rw [strStep, if_pos h0, h, if_neg hb]
  simp [hrx, toByte_val]

theorem strStep_clock (x : Nextion) :
    (strStep x).now = x.now ∧ (strStep x).ticks = x.ticks ∧ (strStep x)._tmr1 = x._tmr1 := by
  obtain ⟨-, -, -, -, -, -, h6, h7, h8⟩ := countTerminator_fields (readTempChar x)
  unfold strStep
  split_ifs
  · exact ⟨h6, h7, h8⟩
  · simp
  · simp

theorem prefix_with_three_ff (str p q : List Byte) (hstr : (255 : Byte) ∉ str)
    (hpq : p ++ q = str ++ [255, 255, 255]) (hc : p.count 255 = 3) : q = [] := by
  have h1 : (p ++ q).count 255 = 3 := by
    rw [hpq, List.count_append, List.count_eq_zero_of_not_mem hstr]
    rfl
  rw [List.count_append, hc] at h1
  have hq0 : q.count 255 = 0 := by omega
  have hq : (255 : Byte) ∉ q := List.count_eq_zero.mp hq0
  by_contra hne
  have hlast : (p ++ q).getLast? = some 255 := by rw [hpq]; simp
  rw [List.getLast?_append_of_ne_nil _ hne] at hlast
  exact hq (List.mem_of_getLast?_eq_some hlast)

theorem filter_reply (str : List Byte) (hstr : (255 : Byte) ∉ str) :
    (str ++ [255, 255, 255]).filter (fun b => decide (b ≠ 255)) = str := by
  rw [List.filter_append]
  have : str.filter (fun b => decide (b ≠ 255)) = str := by
    rw [List.filter_eq_self]
    intro b hb
    have : b ≠ 255 := fun h => hstr (h ▸ hb)
    simpa using this
  rw [this]
  simp

theorem accumulated_step (full : List Byte) (T D B M0 : Nat) (hM0 : D + B ≤ M0)
    (hfull : 3 ≤ full.count 255) (x : Nextion)
    (hx : Accumulated full T D B M0 0 x) (hfresh : ∀ e ∈ x.wire.head?, x.now < e.1)
    (hfound : x._endOfCommandFound = false) :
    Accumulated full T D B M0 B (strStep x) := by
  obtain ⟨p, hp, hread, hend, hf, hc, hnow, htmr, hT, hdue, hticks⟩ := hx
  obtain ⟨c1, c2, c3⟩ := strStep_clock x
  have hcount : p.count 255 < 3 := by
    rcases Nat.lt_or_ge (p.count 255) 3 with h | h
    · exact h
    · have : p.count 255 = 3 := by omega
      rw [hf.mpr this] at hfound
      exact absurd hfound (by decide)
  cases hrx : x.rx with
  | nil =>
    rw [strStep_idle x hrx]
    have hwne : x.wire ≠ [] := by
      intro hw
      have : stream x = [] := by simp [stream, hrx, hw]
      rw [this, List.append_nil] at hp
      rw [hp] at hcount
      omega
    obtain ⟨e, l, hw⟩ := List.exists_cons_of_ne_nil hwne
    have h1 := hfresh e (by rw [hw]; simp)
    have h2 := hdue e (by rw [hw]; simp)
    exact ⟨p, hp, hread, hend, hf, hc, by omega, htmr, hT, hdue, hticks⟩
  | cons b rest =>
    have hstream : stream x = b :: stream { x with rx := rest } := by
      simp [stream, hrx]
    have hnow' : (strStep x).now + B ≤ M0 + (p ++ [b]).length * B := by
      rw [c1, List.length_append, List.length_singleton, Nat.add_mul]
      omega
    by_cases hb : b = 255
    · subst hb
      obtain ⟨g1, g2, g3, g4, g5⟩ := strStep_ff x rest hrx
      refine ⟨p ++ [255], ?_, ?_, ?_, ?_, ?_, hnow', by rw [c3, htmr], by rw [c1]; exact hT,
        by rw [g2]; exact hdue, by rw [c2]; exact hticks⟩
      · rw [← hp, hstream]; simp [stream, g1, g2]
      · rw [g3, hread]; simp
      · rw [g4, hend]; simp
      · rw [g5, hend, List.count_append]
        simp only [List.count_singleton_self]
        by_cases h3 : List.count 255 p + 1 = 3
        · simp [h3]
        · simp [h3, hfound]
      · rw [List.count_append]; simp; omega
    · obtain ⟨g1, g2, g3, g4, g5⟩ := strStep_other x b rest hrx hb
      have hcb : List.count 255 [b] = 0 := by
        rw [List.count_eq_zero]
        simpa using Ne.symm hb
      refine ⟨p ++ [b], ?_, ?_, ?_, ?_, ?_, hnow', by rw [c3, htmr], by rw [c1]; exact hT,
        by rw [g2]; exact hdue, by rw [c2]; exact hticks⟩
      · rw [← hp, hstream]; simp [stream, g1, g2]
      · rw [g3, hread]; simp [hb]
      · rw [g4, hend, List.count_append, hcb]; rfl
      · rw [g5, List.count_append, hcb]; exact hf
      · rw [List.count_append, hcb]; exact hc

theorem accumulated_millis (full : List Byte) (T D B M0 : Nat) (hB : 1 ≤ B) (y : Nextion)
    (hy : Accumulated full T D B M0 B y) : Accumulated full T D B M0 0 (millis y).2 := by
  obtain ⟨p, hp, hread, hend, hf, hc, hnow, htmr, hT, hdue, hticks⟩ := hy
  have := headD_le_of_forall y.ticks B hB hticks
  exact ⟨p, by rw [stream_millis]; exact hp, hread, hend, hf, hc,
    by simp only [millis_snd_now]; omega, htmr, by simp only [millis_snd_now]; omega,
    fun e he => hdue e (millis_wire_subset y e he),
    fun t ht => hticks t (millis_ticks_mem y t ht)⟩

/-- The accumulation loop of `readStr` returns the text of a reply whose bytes
are all due by `D`, when the loop can finish within its 1000 ms. -/
theorem accumulate_reply (fuel : Nat) (str : List Byte) (D B M0 : Nat) (s6 : Nextion)
    (hstr : (255 : Byte) ∉ str) (hstream : stream s6 = str ++ [255, 255, 255])
    (hread : s6._readString = []) (hend : s6._endBytes = 0)
    (hfound : s6._endOfCommandFound = false) (htmr : s6._tmr1 = s6.now % ULONG)
    (hdue : ∀ e ∈ s6.wire, e.1 ≤ D) (hfresh : ∀ e ∈ s6.wire.head?, s6.now < e.1)
    (hticks : ∀ t ∈ s6.ticks, t ≤ B) (hB : 1 ≤ B) (h1 : s6.now ≤ M0) (h2 : D + B ≤ M0)
    (h3 : M0 + (str.length + 3) * B ≤ s6.now + 1000) (hfuel : s6.ticks.length + 1002 ≤ fuel) :
    ∃ r, pollLoop (fun x => x._endOfCommandFound == false) (fun x => (strStep x, false)) 1000
        setError fuel s6 = some r ∧ r._readString = str := by
  obtain ⟨r, hr⟩ := pollLoop_isSome (fun x => x._endOfCommandFound == false)
    (fun x => (strStep x, false)) 1000 setError (by decide) strStep_clock fuel s6
    (by have := fuelFor_le 1000 s6; omega)
  refine ⟨r, hr, ?_⟩
  have hfull : (str ++ [255, 255, 255]).count 255 = 3 := by
    rw [List.count_append, List.count_eq_zero_of_not_mem hstr]; rfl
  have hP := pollLoop_inv (fun x => x._endOfCommandFound == false)
    (fun x => (strStep x, false)) 1000 setError
    (fun x => Accumulated (str ++ [255, 255, 255]) s6.now D B M0 0 x ∧
      ∀ e ∈ x.wire.head?, x.now < e.1)
    (fun x hx hc _ _ =>
      ⟨accumulated_millis _ _ _ _ _ hB _
        (accumulated_step _ _ _ _ _ h2 hfull.ge x hx.1 hx.2 (by simpa using hc)),
        millis_wire_fresh _⟩)
    fuel s6 r
    ⟨⟨[], hstream, by simpa using hread, by simpa using hend, by simp [hfound], by simp,
      by simpa using h1, htmr, le_rfl, hdue, hticks⟩, hfresh⟩ hr
  rcases hP with ⟨⟨⟨p, hp, hrd, -, hf, -⟩, -⟩, hc⟩ | ⟨x, -, -, hb, -⟩ | ⟨x, hx, hc, -, ht, rfl⟩
  · have hcnt : p.count 255 = 3 := hf.mp (by simpa using hc)
    have hq := prefix_with_three_ff str p (stream r) hstr hp hcnt
    rw [hq, List.append_nil] at hp
    rw [hrd, hp]
    exact filter_reply str hstr
  · simp at hb
  · exfalso
    obtain ⟨p, hp, -, -, -, -, hnow, htm, hT, -, hticks'⟩ :=
      accumulated_step _ _ _ _ _ h2 hfull.ge x hx.1 hx.2 (by simpa using hc)
    have hlen : p.length ≤ str.length + 3 := by
      have := congrArg List.length hp
      simp only [List.length_append, List.length_cons, List.length_nil] at this
      omega
    have htick := headD_le_of_forall (strStep x).ticks B hB hticks'
    have hgt : s6.now + 1000 < (millis (strStep x)).2.now := by
      apply elapsed_gt (by simp only [millis_snd_now]; omega)
      have : (millis (strStep x)).2._tmr1 = s6.now % ULONG := htm
      rw [← this]
      exact ht
    simp only [millis_snd_now] at hgt
    have : p.length * B ≤ (str.length + 3) * B := Nat.mul_le_mul_right B hlen
    omega

/-- When every byte in flight is due within the budget of the response wait and
at least `n` bytes are to come, the wait ends with `n` bytes buffered, at most
one tick after the budget. -/
theorem wait_reply_timely (n fuel : Nat) (onTimeout : Nextion → Nextion) (s2 r : Nextion)
    (B : Nat)
    (hon : ∀ x, (onTimeout x).rx = x.rx ∧ (onTimeout x).wire = x.wire ∧
      (onTimeout x).now = x.now)
    (hn : n ≤ (stream s2).length) (htmr : s2._tmr1 = s2.now % ULONG)
    (hdue : ∀ e ∈ s2.wire, e.1 ≤ s2.now + 400)
    (hfresh : ∀ e ∈ s2.wire.head?, s2.now < e.1)
    (hticks : ∀ t ∈ s2.ticks, t ≤ B) (hB : 1 ≤ B) (hB' : B + 400 < ULONG)
    (hr : pollLoop (fun x => decide (available x < n)) (fun x => (x, false)) 400 onTimeout
        fuel s2 = some r) :
    n ≤ r.rx.length ∧ r.now ≤ s2.now + 400 + B ∧ s2.now ≤ r.now ∧
      (∀ e ∈ r.wire, e.1 ≤ s2.now + 400) ∧ (∀ e ∈ r.wire.head?, r.now < e.1) := by
  have hP := pollLoop_inv (fun x => decide (available x < n)) (fun x => (x, false)) 400 onTimeout
    (fun x => stream x = stream s2 ∧ (∀ e ∈ x.wire, e.1 ≤ s2.now + 400) ∧
      (∀ e ∈ x.wire.head?, x.now < e.1) ∧
      x._tmr1 = s2.now % ULONG ∧ s2.now ≤ x.now ∧ x.now ≤ s2.now + 400 ∧ ∀ t ∈ x.ticks, t ≤ B)
    (fun x hx _ _ he => by
      dsimp only at he ⊢
      obtain ⟨k1, k2, -, k4, k5, k6, k7⟩ := hx
      have htick := headD_le_of_forall x.ticks B hB k7
      have hnow : (millis x).2.now = x.now + x.ticks.head?.getD 1 := rfl
      refine ⟨by rw [stream_millis]; exact k1, fun e he => k2 e (millis_wire_subset x e he),
        millis_wire_fresh x, k4, by omega, ?_, fun t ht => k7 t (millis_ticks_mem x t ht)⟩
      have e1 : (millis x).1 = (millis x).2.now % ULONG := rfl
      have e2 : (millis x).2._tmr1 = s2.now % ULONG := k4
      rw [e1, e2, elapsed_eq (by omega) (by unfold ULONG at *; omega)] at he
      omega)
    fuel s2 r ⟨rfl, hdue, hfresh, htmr, le_rfl, by omega, hticks⟩ hr
  rcases hP with ⟨h, hc⟩ | ⟨x, -, -, hb, -⟩ | ⟨x, hx, -, -, ht, rfl⟩
  · simp only [available, decide_eq_false_iff_not, not_lt] at hc
    exact ⟨hc, by omega, h.2.2.2.2.1, h.2.1, h.2.2.1⟩
  · simp at hb
  · dsimp only at ht ⊢
    obtain ⟨k1, k2, -, k4, k5, k6, k7⟩ := hx
    have htick := headD_le_of_forall x.ticks B hB k7
    have hnow : (millis x).2.now = x.now + x.ticks.head?.getD 1 := rfl
    have ht' : s2.now + 400 < (millis x).2.now := by
      apply elapsed_gt (by omega)
      have : (millis x).2._tmr1 = s2.now % ULONG := k4
      rw [← this]
      exact ht
    have hw : (millis x).2.wire = [] := by
      cases hw : (millis x).2.wire with
      | nil => rfl
      | cons e l =>
        exfalso
        have h1 := millis_wire_fresh x e (by rw [hw]; simp)
        have h2 := k2 e (millis_wire_subset x e (by rw [hw]; simp))
        omega
    obtain ⟨g1, g2, g3⟩ := hon (millis x).2
    rw [g1, g2, g3, hw]
    have hs : stream (millis x).2 = stream s2 := by rw [stream_millis]; exact k1
    have hrx : (millis x).2.rx = stream s2 := by
      rw [← hs, stream, hw]; simp
    refine ⟨by rw [hrx]; exact hn, by omega, by omega, by simp, by simp⟩

theorem stream_readStartChar (x : Nextion) (hrx : x.rx ≠ []) :
    stream (readStartChar x) = (stream x).tail := by
  obtain ⟨b, l, h⟩ := List.exists_cons_of_ne_nil hrx
  simp [stream, h]

theorem readStrParse_reply (fuel : Nat) (str : List Byte) (D B : Nat) (s3 : Nextion)
    (hstr : (255 : Byte) ∉ str) (hstream : stream s3 = strReply str)
    (hav : 4 ≤ s3.rx.length) (hfound : s3._endOfCommandFound = false)
    (hdue : ∀ e ∈ s3.wire, e.1 ≤ D) (hticks : ∀ t ∈ s3.ticks, t ≤ B) (hB : 1 ≤ B)
    (htime : D + (str.length + 4) * B ≤ s3.now + 1000) (htime' : (str.length + 3) * B ≤ 1000)
    (hfuel : s3.ticks.length + 1002 ≤ fuel) :
    ∃ r, readStrParse fuel s3 = some r ∧ r._readString = str := by
  have hne : s3.rx ≠ [] := by
    intro h; rw [h] at hav; simp at hav
  obtain ⟨b, l, hrx⟩ := List.exists_cons_of_ne_nil hne
  have hb : b = 112 := by
    have := hstream
    simp only [stream, hrx, strReply, List.cons_append, List.cons.injEq] at this
    exact this.1
  subst hb
  have h0 : available s3 > 3 := by simpa [available] using hav
  have h1 : (startTimer (readStartChar s3))._start_char = 112 := by simp [hrx, toByte_val]
  simp only [readStrParse, if_pos h0]
  rw [pollLoop_done (by simpa using h1)]
  simp only [Option.bind, if_pos h1]
  have hs4 : stream (startTimer (clearReadString (startTimer (readStartChar s3)))) =
      str ++ [255, 255, 255] := by
    rw [stream_startTimer]
    show stream (startTimer (readStartChar s3)) = _
    rw [stream_startTimer, stream_readStartChar s3 hne, hstream]
    rfl
  have hnow1 : s3.now ≤ (startTimer (clearReadString (startTimer (readStartChar s3)))).now := by
    simp only [startTimer_now, millis_snd_now, clearReadString_now, clearReadString_ticks,
      startTimer_ticks, millis_snd_ticks, readStartChar_now, readStartChar_ticks, read_snd_now,
      read_snd_ticks]
    omega
  have hmul : (str.length + 4) * B = (str.length + 3) * B + B := by
    rw [show str.length + 4 = (str.length + 3) + 1 by omega, Nat.add_mul, Nat.one_mul]
  obtain ⟨M0, hM1, hM2, hM3⟩ : ∃ M0,
      (startTimer (clearReadString (startTimer (readStartChar s3)))).now ≤ M0 ∧ D + B ≤ M0 ∧
      M0 + (str.length + 3) * B ≤
        (startTimer (clearReadString (startTimer (readStartChar s3)))).now + 1000 := by
    by_cases hle : (startTimer (clearReadString (startTimer (readStartChar s3)))).now ≤ D + B
    · exact ⟨D + B, hle, le_rfl, by omega⟩
    · exact ⟨_, le_rfl, by omega, by omega⟩
  apply accumulate_reply fuel str D B M0 _ hstr hs4
  · simp
  · simp
  · simp [hfound]
  · rfl
  · intro e he
    apply hdue e
    have h1 := millis_wire_subset _ e he
    have h2 := millis_wire_subset _ e h1
    simpa using h2
  · exact millis_wire_fresh _
  · intro t ht
    apply hticks t
    have h1 := millis_ticks_mem _ t ht
    have h2 := millis_ticks_mem _ t h1
    simpa using h2
  · exact hB
  · exact hM1
  · exact hM2
  · exact hM3
  · simp; omega

/-- C2 (text round trip): when `readStr` is called on a silent link and the reply
`0x70`, the bytes of `str` (none of them `0xFF`), `0xFF 0xFF 0xFF` arrives after
the `get` request and within the 400 ms of the response wait, and the clock is
polled often enough for the `str.length + 4` polls of the parsing to fit into the
1000 ms of the terminator search (each poll advances the clock by at most `B` ms
with `400 + (str.length + 4) * B ≤ 1000`), `readStr` returns `str`. -/
theorem text_round_trip (fuel : Nat) (TextComponent : List Byte) (s : Nextion)
    (str : List Byte) (B : Nat) (hstr : (255 : Byte) ∉ str) (hrx : s.rx = [])
    (hwire : s.wire.map Prod.snd = strReply str)
    (hquiet : ∀ e ∈ s.wire, pollTime s 1 < e.1)
    (hbudget : ∀ e ∈ s.wire, e.1 ≤ pollTime s 2 + 400)
    (hB : 1 ≤ B) (hticks : ∀ t ∈ s.ticks, t ≤ B)
    (htime : 400 + (str.length + 4) * B ≤ 1000) (hfuel : s.ticks.length + 1002 ≤ fuel) :
    ∃ s', readStr fuel TextComponent s = some (str, s') := by
  obtain ⟨a, ha, harx, hawire, hanow, haticks, hafound⟩ :=
    readStrDrain_quiet fuel s hrx hquiet
  have hs2now : (startTimer (print TERM (print TextComponent (print GET a)))).now =
      pollTime s 2 := by
    simp only [startTimer_now, millis_snd_now, print_now, print_ticks, hanow, haticks]
    simp [pollTime]
  have hs2ticks : ∀ t ∈ (startTimer (print TERM (print TextComponent (print GET a)))).ticks,
      t ≤ B := by
    intro t ht
    have h2 := millis_ticks_mem _ t ht
    simp only [print_ticks, haticks] at h2
    exact hticks t (List.mem_of_mem_tail h2)
  have hs2len : (startTimer (print TERM (print TextComponent (print GET a)))).ticks.length ≤
      s.ticks.length := by
    have := millis_ticks_length (print TERM (print TextComponent (print GET a)))
    simp only [startTimer_ticks, print_ticks, haticks, List.length_tail] at this ⊢
    omega
  obtain ⟨r3, h3, hs3, hf3, ht3⟩ := wait_reply 4 fuel setError
    (startTimer (print TERM (print TextComponent (print GET a))))
    (fun x => ⟨rfl, rfl, rfl, rfl⟩) (by omega)
  have hstream : stream (startTimer (print TERM (print TextComponent (print GET a)))) =
      strReply str := by
    rw [stream_startTimer]
    simp [stream, harx, hawire, hwire]
  have hmulB : B ≤ (str.length + 4) * B := Nat.le_mul_of_pos_left B (by omega)
  obtain ⟨e1, e2, e3, e4, -⟩ := wait_reply_timely 4 fuel setError
    (startTimer (print TERM (print TextComponent (print GET a)))) r3 B
    (fun x => ⟨rfl, rfl, rfl⟩)
    (by rw [hstream]; simp [strReply, TERM]) rfl
    (by
      intro e he
      rw [hs2now]
      apply hbudget e
      rw [← hawire]
      exact millis_wire_subset _ e he)
    (fun e he => millis_wire_fresh (print TERM (print TextComponent (print GET a))) e he)
    hs2ticks hB (by unfold ULONG; omega) h3
  rw [hs2now] at e2 e3 e4
  have hmul : (str.length + 3) * B ≤ (str.length + 4) * B :=
    Nat.mul_le_mul_right B (by omega)
  obtain ⟨r7, h7, hr7⟩ := readStrParse_reply fuel str (pollTime s 2 + 400) B r3 hstr
    (by rw [hs3, hstream]) e1 (by rw [hf3]; simpa using hafound) e4
    (fun t ht => hs2ticks t (ht3.subset ht)) hB (by omega) (by omega)
    (by have := ht3.length_le; omega)
  refine ⟨r7, ?_⟩
  simp only [readStr, ha, Option.bind, readStrReply, h3, h7, hr7]

/-- The replies for `"abc"` and for the empty string, arriving after 150 ms. -/
theorem text_round_trip_witness :
    (∃ s', readStr 1002 [116, 48, 46, 116, 120, 116]
        { initial with wire := (strReply [97, 98, 99]).map fun b => (150, b) } =
        some ([97, 98, 99], s')) ∧
    ∃ s', readStr 1002 [116, 48, 46, 116, 120, 116]
        { initial with wire := (strReply []).map fun b => (150, b) } = some ([], s') :=
  ⟨text_round_trip 1002 [116, 48, 46, 116, 120, 116]
      { initial with wire := (strReply [97, 98, 99]).map fun b => (150, b) } [97, 98, 99] 1
      (by decide) rfl rfl (by decide) (by decide) (by decide) (by decide) (by decide)
      (by decide),
    text_round_trip 1002 [116, 48, 46, 116, 120, 116]
      { initial with wire := (strReply []).map fun b => (150, b) } [] 1
      (by decide) rfl rfl (by decide) (by decide) (by decide) (by decide) (by decide)
      (by decide)⟩

/-! ## Every call of `listen` and every drain ends -/

theorem stream_read_le (x : Nextion) : (stream (read x).2).length ≤ (stream x).length := by
  simp [stream]

theorem stream_read_lt (x : Nextion) (h : 0 < available x) :
    (stream (read x).2).length < (stream x).length := by
  have : x.rx ≠ [] := by
    intro h0; simp [available, h0] at h
  obtain ⟨b, l, hb⟩ := List.exists_cons_of_ne_nil this
  simp [stream, hb]

theorem stream_readCommand_le (x : Nextion) :
    (stream (readCommand x)).length ≤ (stream x).length := by
  unfold readCommand
  split_ifs <;> simp [stream]

theorem readCommand_ticks (x : Nextion) : (readCommand x).ticks = x.ticks := by
  unfold readCommand
  split_ifs <;> simp

/-- A wait loop whose body only reads bytes does not lengthen the stream or the
list of ticks. -/
theorem pollLoop_le (cond : Nextion → Bool) (body : Nextion → Nextion × Bool) (budget : Nat)
    (onTimeout : Nextion → Nextion)
    (hbody : ∀ x, (stream (body x).1).length ≤ (stream x).length ∧
      (body x).1.ticks = x.ticks)
    (hon : ∀ x, stream (onTimeout x) = stream x ∧ (onTimeout x).ticks = x.ticks)
    (fuel : Nat) (s r : Nextion) (hr : pollLoop cond body budget onTimeout fuel s = some r) :
    (stream r).length ≤ (stream s).length ∧ r.ticks.length ≤ s.ticks.length := by
  have hm : ∀ x, (stream x).length ≤ (stream s).length ∧ x.ticks.length ≤ s.ticks.length →
      (stream (millis (body x).1).2).length ≤ (stream s).length ∧
      (millis (body x).1).2.ticks.length ≤ s.ticks.length := by
    intro x hx
    obtain ⟨b1, b2⟩ := hbody x
    have := millis_ticks_length (body x).1
    rw [stream_millis]
    rw [b2] at this
    exact ⟨b1.trans hx.1, this.trans hx.2⟩
  have hP := pollLoop_inv cond body budget onTimeout
    (fun x => (stream x).length ≤ (stream s).length ∧ x.ticks.length ≤ s.ticks.length)
    (fun x hx _ _ _ => hm x hx) fuel s r ⟨le_rfl, le_rfl⟩ hr
  rcases hP with ⟨h, -⟩ | ⟨x, hx, -, -, rfl⟩ | ⟨x, hx, -, -, -, rfl⟩
  · exact h
  · obtain ⟨b1, b2⟩ := hbody x
    exact ⟨b1.trans hx.1, by rw [b2]; exact hx.2⟩
  · obtain ⟨o1, o2⟩ := hon (millis (body x).1).2
    rw [o1, o2]
    exact hm x hx

/-- Every call of `listen` ends when its fuel covers the ticks and its two
budgets of 100 ms; it never lengthens the stream, it changes nothing when at
most two bytes are buffered and it consumes at least one byte otherwise. -/
theorem listen_isSome (fuel : Nat) (s : Nextion) (hfuel : s.ticks.length + 102 ≤ fuel) :
    ∃ r, listen fuel s = some r ∧ r.ticks.length ≤ s.ticks.length ∧
      (available s ≤ 2 → r = s) ∧
      (2 < available s → (stream r).length < (stream s).length) := by
  by_cases h0 : available s > 2
  · have hlt : (stream (startTimer (readStartChar s))).length < (stream s).length := by
      rw [stream_startTimer]
      exact stream_read_lt s (by omega)
    have ht1 : (startTimer (readStartChar s)).ticks.length ≤ s.ticks.length := by
      simp
    obtain ⟨s2, h2⟩ := pollLoop_isSome (fun x => x._start_char != 35)
      (fun x => (readStartChar x, false)) 100 id (by decide) (fun x => ⟨rfl, rfl, rfl⟩) fuel
      (startTimer (readStartChar s))
      (by have := fuelFor_le 100 (startTimer (readStartChar s)); omega)
    obtain ⟨l2, t2⟩ := pollLoop_le (fun x => x._start_char != 35)
      (fun x => (readStartChar x, false)) 100 id (fun x => ⟨stream_read_le x, rfl⟩)
      (fun x => ⟨rfl, rfl⟩) fuel _ s2 h2
    simp only [listen, if_pos h0, h2, Option.bind]
    by_cases hc : s2._start_char = 35
    · simp only [if_pos hc]
      have ht4 : (setCmdFound true (startTimer (readLen s2))).ticks.length ≤ s2.ticks.length := by
        simp
      have hl4 : (stream (setCmdFound true (startTimer (readLen s2)))).length ≤
          (stream s2).length := by
        show (stream (startTimer (readLen s2))).length ≤ _
        rw [stream_startTimer]
        exact stream_read_le s2
      obtain ⟨s5, h5⟩ := pollLoop_isSome (fun x => decide (available x < x._len.val))
        (fun x => (x, false)) 100 (setCmdFound false) (by decide) (fun x => ⟨rfl, rfl, rfl⟩) fuel
        (setCmdFound true (startTimer (readLen s2)))
        (by have := fuelFor_le 100 (setCmdFound true (startTimer (readLen s2))); omega)
      obtain ⟨l5, t5⟩ := pollLoop_le (fun x => decide (available x < x._len.val))
        (fun x => (x, false)) 100 (setCmdFound false) (fun x => ⟨le_rfl, rfl⟩)
        (fun x => ⟨rfl, rfl⟩) fuel _ s5 h5
      rw [h5]
      by_cases hf : s5._cmdFound = true
      · refine ⟨readCommand (readCmd1 s5), by simp only [if_pos hf], ?_,
          fun h => absurd h0 (by omega), fun _ => ?_⟩
        · rw [readCommand_ticks]
          show s5.ticks.length ≤ _
          omega
        · have h1 := stream_readCommand_le (readCmd1 s5)
          have h2 : (stream (readCmd1 s5)).length ≤ (stream s5).length := stream_read_le s5
          omega
      · exact ⟨s5, by simp only [if_neg hf], by omega, fun h => absurd h0 (by omega),
          fun _ => by omega⟩
    · exact ⟨s2, by simp only [if_neg hc], by omega, fun h => absurd h0 (by omega),
        fun _ => by omega⟩
  · exact ⟨s, by simp only [listen, if_neg h0], le_rfl, fun _ => rfl,
      fun h => absurd h h0⟩

theorem drainFuel_le (x : Nextion) :
    drainFuel x ≤ ((stream x).length + 1) * (x.ticks.length + 1003) := by
  have := fuelFor_le 1000 x
  unfold drainFuel
  rw [Nat.add_mul]
  omega

/-- Every drain ends: a call of `listen` that restarts the timer consumes a byte. -/
theorem drainLoop_isSome (onTimeout : Nextion → Nextion) (lf : Nat)
    (hon : ∀ x, stream (onTimeout x) = stream x ∧ (onTimeout x).ticks = x.ticks) :
    ∀ (fuel : Nat) (s : Nextion), drainFuel s ≤ fuel → s.ticks.length + 102 ≤ lf →
      ∃ r, drainLoop onTimeout lf fuel s = some r ∧
        (stream r).length ≤ (stream s).length ∧ r.ticks.length ≤ s.ticks.length := by
  intro fuel
  induction fuel with
  | zero =>
    intro s hs _
    have := fuelFor_pos 1000 s
    unfold drainFuel at hs
    omega
  | succ n ih =>
    intro s hs hlf
    unfold drainLoop
    by_cases hav : available s ≠ 0
    · simp only [if_pos hav]
      have hmt := millis_ticks_length s
      by_cases ht : elapsed (millis s).1 (millis s).2._tmr1 > 1000
      · obtain ⟨o1, o2⟩ := hon (millis s).2
        exact ⟨_, if_pos ht, by rw [o1, stream_millis], by rw [o2]; exact hmt⟩
      · simp only [if_neg ht]
        obtain ⟨y, hy, hyt, hsame, hless⟩ := listen_isSome lf (millis s).2 (by omega)
        have hstep := fuelFor_step 1000 (by decide) s ht
        have hfy := fuelFor_le 1000 y
        have hdec : drainFuel y + 1 ≤ drainFuel s := by
          by_cases h2 : available (millis s).2 ≤ 2
          · rw [hsame h2]
            unfold drainFuel
            rw [stream_millis]
            have : (stream s).length * ((millis s).2.ticks.length + 1003) ≤
                (stream s).length * (s.ticks.length + 1003) :=
              Nat.mul_le_mul_left _ (by omega)
            omega
          · have hl := hless (by omega)
            rw [stream_millis] at hl
            unfold drainFuel
            have h1 : (stream y).length * (y.ticks.length + 1003) ≤
                ((stream s).length - 1) * (s.ticks.length + 1003) :=
              Nat.mul_le_mul (by omega) (by omega)
            have h3 : ((stream s).length - 1) * (s.ticks.length + 1003) +
                (s.ticks.length + 1003) = (stream s).length * (s.ticks.length + 1003) := by
              have : (stream s).length = ((stream s).length - 1) + 1 := by omega
              conv_rhs => rw [this, Nat.add_mul, Nat.one_mul]
            omega
        obtain ⟨r, hr, hr1, hr2⟩ := ih y (by omega) (by omega)
        refine ⟨r, by rw [hy]; exact hr, ?_, by omega⟩
        have hsy : (stream y).length ≤ (stream s).length := by
          by_cases h2 : available (millis s).2 ≤ 2
          · rw [hsame h2, stream_millis]
          · have := hless (by omega)
            rw [stream_millis] at this
            omega
        omega
    · exact ⟨s, by simp only [hav, if_false], le_rfl, le_rfl⟩

/-! ## A response wait that is starved -/

theorem takeWhile_split {α : Type} (p q : α → Bool) (hpq : ∀ a, p a = true → q a = true) :
    ∀ l : List α, (l.takeWhile p).length + ((l.dropWhile p).takeWhile q).length =
      (l.takeWhile q).length := by
  intro l
  induction l with
  | nil => simp
  | cons a l ih =>
    by_cases hp : p a = true
    · have hq := hpq a hp
      simp only [List.takeWhile_cons, List.dropWhile_cons, hp, hq, if_true, List.length_cons]
      omega
    · have hp' : p a = false := by simpa using hp
      simp [List.takeWhile_cons, List.dropWhile_cons, hp']

theorem dueBy_millis (x : Nextion) (D : Nat) (h : (millis x).2.now ≤ D) :
    dueBy (millis x).2 D = dueBy x D := by
  have := takeWhile_split (fun e : Nat × Byte => decide (e.1 ≤ x.now + x.ticks.head?.getD 1))
    (fun e => decide (e.1 ≤ D))
    (by
      intro a ha
      simp only [millis_snd_now] at h
      simp only [decide_eq_true_eq] at ha ⊢
      omega) x.wire
  simp only [dueBy, millis_snd_rx, millis_snd_wire, List.length_append, List.length_map]
  omega

theorem available_le_dueBy (x : Nextion) (D : Nat) : available x ≤ dueBy x D := by
  simp [available, dueBy]

theorem millis_rx_front (x : Nextion) : x.rx <+: (millis x).2.rx := by
  simp

/-- When fewer than `n` bytes are due up to one tick after the budget of the
response wait, the wait ends by its timeout with fewer than `n` bytes buffered
and none consumed. -/
theorem wait_reply_starved (n fuel : Nat) (onTimeout : Nextion → Nextion) (s2 r : Nextion)
    (B : Nat) (htmr : s2._tmr1 = s2.now % ULONG)
    (hticks : ∀ t ∈ s2.ticks, t ≤ B) (hB : 1 ≤ B) (hB' : B + 400 < ULONG)
    (hfew : dueBy s2 (s2.now + 400 + B) < n)
    (hr : pollLoop (fun x => decide (available x < n)) (fun x => (x, false)) 400 onTimeout
        fuel s2 = some r) :
    ∃ x, r = onTimeout x ∧ available x < n ∧ s2.rx <+: x.rx ∧ stream x = stream s2 := by
  have hm : ∀ x, (stream x = stream s2 ∧ s2.rx <+: x.rx ∧
      dueBy x (s2.now + 400 + B) = dueBy s2 (s2.now + 400 + B) ∧
      x._tmr1 = s2.now % ULONG ∧ s2.now ≤ x.now ∧ x.now ≤ s2.now + 400 ∧
      ∀ t ∈ x.ticks, t ≤ B) →
      stream (millis x).2 = stream s2 ∧ s2.rx <+: (millis x).2.rx ∧
      dueBy (millis x).2 (s2.now + 400 + B) = dueBy s2 (s2.now + 400 + B) ∧
      (millis x).2._tmr1 = s2.now % ULONG ∧ s2.now ≤ (millis x).2.now ∧
      (millis x).2.now ≤ s2.now + 400 + B ∧ ∀ t ∈ (millis x).2.ticks, t ≤ B := by
    rintro x ⟨k1, k2, k3, k4, k5, k6, k7⟩
    have htick := headD_le_of_forall x.ticks B hB k7
    have hnow : (millis x).2.now = x.now + x.ticks.head?.getD 1 := rfl
    exact ⟨by rw [stream_millis]; exact k1, k2.trans (millis_rx_front x),
      by rw [dueBy_millis x _ (by omega)]; exact k3, k4, by omega, by omega,
      fun t ht => k7 t (millis_ticks_mem x t ht)⟩
  have hP := pollLoop_inv (fun x => decide (available x < n)) (fun x => (x, false)) 400 onTimeout
    (fun x => stream x = stream s2 ∧ s2.rx <+: x.rx ∧
      dueBy x (s2.now + 400 + B) = dueBy s2 (s2.now + 400 + B) ∧
      x._tmr1 = s2.now % ULONG ∧ s2.now ≤ x.now ∧ x.now ≤ s2.now + 400 ∧
      ∀ t ∈ x.ticks, t ≤ B)
    (fun x hx _ _ he => by
      dsimp only at he ⊢
      obtain ⟨m1, m2, m3, m4, m5, m6, m7⟩ := hm x hx
      refine ⟨m1, m2, m3, m4, m5, ?_, m7⟩
      have e1 : (millis x).1 = (millis x).2.now % ULONG := rfl
      rw [e1, m4, elapsed_eq m5 (by unfold ULONG at *; omega)] at he
      omega)
    fuel s2 r ⟨rfl, List.prefix_refl _, rfl, htmr, le_rfl, by omega, hticks⟩ hr
  rcases hP with ⟨h, hc⟩ | ⟨x, -, -, hb, -⟩ | ⟨x, hx, -, -, -, rfl⟩
  · exfalso
    simp only [available, decide_eq_false_iff_not, not_lt] at hc
    have := available_le_dueBy r (s2.now + 400 + B)
    rw [h.2.2.1, available] at this
    omega
  · simp at hb
  · dsimp only
    obtain ⟨m1, m2, m3, -⟩ := hm x hx
    refine ⟨(millis x).2, rfl, ?_, m2, m1⟩
    have := available_le_dueBy (millis x).2 (s2.now + 400 + B)
    rw [m3] at this
    omega

theorem readStrDrain_isSome (fuel : Nat) (s : Nextion)
    (hfuel : ((stream s).length + 1) * (s.ticks.length + 1003) ≤ fuel) :
    ∃ s1, readStrDrain fuel s = some s1 ∧ s1.ticks.length ≤ s.ticks.length := by
  have hst : stream (startTimer (readStrInit s)) = stream s := by
    rw [stream_startTimer]; rfl
  have htk : (startTimer (readStrInit s)).ticks.length ≤ s.ticks.length := by simp
  have hle := drainFuel_le (startTimer (readStrInit s))
  rw [hst] at hle
  have hmono : ((stream s).length + 1) * ((startTimer (readStrInit s)).ticks.length + 1003) ≤
      ((stream s).length + 1) * (s.ticks.length + 1003) :=
    Nat.mul_le_mul_left _ (by omega)
  have hbig : s.ticks.length + 1003 ≤ ((stream s).length + 1) * (s.ticks.length + 1003) :=
    Nat.le_mul_of_pos_left _ (by omega)
  obtain ⟨r, hr, -, hr2⟩ := drainLoop_isSome setError fuel (fun x => ⟨rfl, rfl⟩) fuel
    (startTimer (readStrInit s)) (by omega) (by omega)
  exact ⟨r, hr, by omega⟩

/-- A response wait of `readStr` that starves: in every state the drain of
`readStr` ends, in a state `s1` in which the `get` request is sent.  The
response wait starts at the next poll of the clock and ends at the first poll
that shows more than 400 ms, at most `B` ms after the 400 ms when the clock
advances by at most `B` ms per poll.  When fewer than 4 bytes are buffered or
due up to that poll, `readStr` returns `"ERROR"`, whatever `_readString` held
before, and between `s1` and the return no byte is consumed.  The bound reaches
past the 400 ms because the block after the wait tests `available()` anew. -/
theorem text_response_timeout (fuel : Nat) (TextComponent : List Byte) (s : Nextion) (B : Nat)
    (hfuel : ((stream s).length + 1) * (s.ticks.length + 1003) ≤ fuel) :
    ∃ s1, readStrDrain fuel s = some s1 ∧
      (1 ≤ B → B + 400 < ULONG → (∀ t ∈ s1.ticks, t ≤ B) →
        dueBy s1 (pollTime s1 1 + 400 + B) < 4 →
        ∃ s', readStr fuel TextComponent s = some (ERROR, s') ∧ stream s' = stream s1 ∧
          s1.rx <+: s'.rx) := by
  obtain ⟨s1, h1, ht1⟩ := readStrDrain_isSome fuel s hfuel
  refine ⟨s1, h1, fun hB hB' hticks hfew => ?_⟩
  have hbig : s.ticks.length + 1003 ≤ ((stream s).length + 1) * (s.ticks.length + 1003) :=
    Nat.le_mul_of_pos_left _ (by omega)
  have hs2len : (startTimer (print TERM (print TextComponent (print GET s1)))).ticks.length ≤
      s1.ticks.length := by simp
  obtain ⟨r3, h3, -, -, -⟩ := wait_reply 4 fuel setError
    (startTimer (print TERM (print TextComponent (print GET s1))))
    (fun x => ⟨rfl, rfl, rfl, rfl⟩) (by omega)
  have hnow : (startTimer (print TERM (print TextComponent (print GET s1)))).now =
      pollTime s1 1 := rfl
  have hdue : dueBy (startTimer (print TERM (print TextComponent (print GET s1))))
      (pollTime s1 1 + 400 + B) = dueBy s1 (pollTime s1 1 + 400 + B) :=
    dueBy_millis (print TERM (print TextComponent (print GET s1))) _
      (by show pollTime s1 1 ≤ _; omega)
  obtain ⟨x, hx, hav, hpre, hst⟩ := wait_reply_starved 4 fuel setError
    (startTimer (print TERM (print TextComponent (print GET s1)))) r3 B rfl
    (fun t ht => hticks t (millis_ticks_mem _ t ht)) hB hB'
    (by rw [hnow, hdue]; exact hfew) h3
  have hav3 : ¬ available r3 > 3 := by
    rw [hx]
    show ¬ available x > 3
    omega
  have hparse : readStrParse fuel r3 = some r3 := by
    simp only [readStrParse, if_neg hav3]
  refine ⟨r3, ?_, ?_, ?_⟩
  · have hres : r3._readString = ERROR := by rw [hx]; rfl
    simp only [readStr, h1, Option.bind, readStrReply, h3, hparse, hres]
  · rw [hx]
    show stream x = _
    rw [hst, stream_startTimer]
    rfl
  · rw [hx]
    show s1.rx <+: x.rx
    exact (millis_rx_front (print TERM (print TextComponent (print GET s1)))).trans hpre

/-- Three bytes of a reply arrive in time and the rest only after 3000 ms: the
result is `"ERROR"` although `_readString` held `"old"`, and the six bytes are
all still in the stream. -/
theorem text_response_timeout_witness :
    ∃ s', readStr 7021 [116, 48, 46, 116, 120, 116]
        { initial with
          _readString := [111, 108, 100]
          wire := [(50, 112), (50, 104), (50, 105), (3000, 255), (3000, 255), (3000, 255)] } =
        some (ERROR, s') ∧ stream s' = [112, 104, 105, 255, 255, 255] := by
  obtain ⟨s1, h1, h2⟩ := text_response_timeout 7021 [116, 48, 46, 116, 120, 116]
    { initial with
      _readString := [111, 108, 100]
      wire := [(50, 112), (50, 104), (50, 105), (3000, 255), (3000, 255), (3000, 255)] } 1
    (by decide)
  have e : readStrDrain 7021
      { initial with
        _readString := [111, 108, 100]
        wire := [(50, 112), (50, 104), (50, 105), (3000, 255), (3000, 255), (3000, 255)] } =
      some (startTimer (readStrInit
        { initial with
          _readString := [111, 108, 100]
          wire := [(50, 112), (50, 104), (50, 105), (3000, 255), (3000, 255), (3000, 255)] })) :=
    drainLoop_done _ _ _ _ (by decide)
  rw [e] at h1
  cases h1
  obtain ⟨s', g1, g2, -⟩ := h2 (by decide) (by decide) (by decide) (by decide)
  exact ⟨s', g1, g2.trans (by decide)⟩

/-! ## A drain that times out -/

/-- C10 on a concrete run: one stray byte is buffered when the read is called,
the clock advances by 1 ms per poll, and a well-formed reply arrives 1100 ms
later.  The drain of `readNum` and of `readStr` ends by its timeout (a byte is
still available and more than 1000 ms have passed since `_tmr1`), yet `readNum`
goes on, sends its `get` request and returns the value 1 of the reply, not
777777, and `readStr` sends its request and returns `"hi"`, not `"ERROR"`. -/
theorem drain_timeout_proceeds :
    ((readNumDrain 1100 [110, 48, 46, 118, 97, 108]
        { initial with rx := [0], wire := (numReply 1).map fun b => (1100, b) }).map
      fun r => (available r, decide (1000 < elapsed (r.now % ULONG) r._tmr1))) =
        some (1, true) ∧
    ((readNum 1100 [110, 48, 46, 118, 97, 108]
        { initial with rx := [0], wire := (numReply 1).map fun b => (1100, b) }).map
      fun r => (r.1, r.2.tx)) = some (1, GET ++ [110, 48, 46, 118, 97, 108] ++ TERM) ∧
    ((readStrDrain 1100
        { initial with rx := [0], wire := (strReply [104, 105]).map fun b => (1100, b) }).map
      fun r => (available r, decide (1000 < elapsed (r.now % ULONG) r._tmr1))) =
        some (1, true) ∧
    ((readStr 1100 [116, 48, 46, 116, 120, 116]
        { initial with rx := [0], wire := (strReply [104, 105]).map fun b => (1100, b) }).map
      fun r => (r.1, r.2.tx)) = some ([104, 105], GET ++ [116, 48, 46, 116, 120, 116] ++ TERM) := by
  decide!

/-! ## The entry check of `listen` -/

/-- C13 (entry condition of `listen`): in every state with fewer than 3 bytes
available, `listen` returns at once, whatever the fuel, and the state after the
call is the state before it: no byte is consumed and the page ids, the pending
command (available, group, length, sub-command) and the argument queue are as
they were. -/
theorem listen_entry_condition (fuel : Nat) (s : Nextion) (h : available s < 3) :
    listen fuel s = some s := by
  have h2 : ¬ available s > 2 := by omega
  simp only [listen, if_neg h2]

theorem listen_entry_condition_witness :
    listen 0 { initial with rx := [35, 2] } = some { initial with rx := [35, 2] } :=
  listen_entry_condition 0 { initial with rx := [35, 2] } (by decide)

/-! ## Reads that `listen` and `readCommand` make on an empty buffer -/

/-- C15 (no partial event), evaluated: with the three bytes `# 1 P` buffered,
`listen` records a page change whose id is -1, the value a read of the empty
buffer returns; with a noise byte followed by `# 0` buffered, it flags a pending
command of group 255, the same value stored in a byte. -/
theorem event_from_empty_source :
    (listen 1 { initial with rx := [35, 1, 80] }).map
        (fun r => (r._currentPageId, r._lastCurrentPageId, r.rx)) = some (-1, 0, []) ∧
      (listen 1 { initial with rx := [0, 35, 0] }).map
        (fun r => (r._cmdAvail, r._cmdGroup, r._cmdLength, r.rx)) = some (true, 255, 0, []) := by
  constructor <;> decide

/-! ## A drain during a burst of events -/

/-- C11 (overall drain bound), evaluated: the drain of `readNum` that starts at
time 0 with one custom frame buffered and three more arriving 900 ms apart ends
at 3705 ms, with the timer last set at 2704 ms by a call of `listen`, and the
drain of `readStr` does the same. -/
theorem drain_restarted_by_listen :
    (readNumDrain 4000 [110] storm).map (fun r => (r.now, r._tmr1, r.rx, r._numberValue)) =
        some (3705, 2704, [1, 1], 777777) ∧
      (readStrDrain 4000 storm).map (fun r => (r.now, r._tmr1, r.rx, r._readString)) =
        some (3705, 2704, [1, 1], ERROR) := by
  constructor <;> decide!

/-! ## Three 0xFF bytes that are not adjacent -/

/-- C12 (text terminator is three consecutive 0xFF bytes), evaluated: for the
reply `0x70 a FF b FF FF c FF FF FF` the call `readStr` returns `ab` and leaves
`c FF FF FF` unread: it stops at the third 0xFF byte after the marker, although
that one follows only one other 0xFF directly, instead of reading up to the
three adjacent 0xFF bytes at the end of the reply. -/
theorem scattered_terminator :
    (readStr 20 [116] scattered).map (fun r => (r.1, stream r.2)) =
      some ([97, 98], [99, 255, 255, 255]) := by
  decide!

/-! ## One frame per call -/

/-- One call of `listen` on a buffer that starts with a complete frame, with
nothing in flight, removes that frame and produces its event. -/
theorem listen_frame (fuel : Nat) (f : Frame) (hwf : f.wellFormed = true) (s : Nextion)
    (rest : List Byte) (hrx : s.rx = f.bytes ++ rest) (hwire : s.wire = []) :
    ∃ r, listen fuel s = some r ∧ r.rx = rest ∧ r.wire = [] ∧ Produced f s r = true := by
  cases f with
  | page id =>
    have hrx' : s.rx = 35 :: 2 :: 80 :: (id :: rest) := by simpa [Frame.bytes] using hrx
    refine ⟨_, listen_buffered fuel s 2 80 (id :: rest) hrx' (by simp), ?_, ?_, ?_⟩ <;>
      simp [Produced, readCommand, afterHeader, hrx', hwire, toByte_val]
  | trigger id =>
    have hrx' : s.rx = 35 :: 2 :: 84 :: (id :: rest) := by simpa [Frame.bytes] using hrx
    refine ⟨_, listen_buffered fuel s 2 84 (id :: rest) hrx' (by simp), ?_, ?_, ?_⟩ <;>
      simp [Produced, readCommand, afterHeader, hrx', hwire, toByte_val]
  | custom g =>
    have hrx' : s.rx = 35 :: 1 :: g :: rest := by simpa [Frame.bytes] using hrx
    have hg : g ≠ 80 ∧ g ≠ 84 := by simpa [Frame.wellFormed] using hwf
    have h1 : (afterHeader s)._cmd1 = g := by simp [afterHeader, hrx', toByte_val]
    have hc : readCommand (afterHeader s) =
        { afterHeader s with _cmdGroup := g, _cmdLength := (afterHeader s)._len,
                             _cmdAvail := true } := by
      simp [readCommand, h1, hg.1, hg.2]
    refine ⟨_, listen_buffered fuel s 1 g rest hrx' (by simp), ?_, ?_, ?_⟩
    · rw [hc]; simp [afterHeader, hrx', hwire]
    · rw [hc]; simp [afterHeader, hrx', hwire]
    · rw [hc]; simp [Produced, afterHeader, hrx', hwire, toByte_val]
      decide

/-- C16 (one frame per call): when the buffer holds exactly the bytes of the
well-formed frames `fs` (page `# 2 P id`, trigger `# 2 T id`, custom `# 1 g`
with `g` not `P` or `T`) and nothing is in flight, then for every
`k < fs.length` the state `sk` after `k` calls of `listen` holds the frames from
the `k`-th on, the state `sk'` after one more call holds the frames after the
`k`-th, and the step from `sk` to `sk'` is the event of the `k`-th frame; after
`fs.length` calls no byte is left. -/
theorem one_frame_per_call (fuel : Nat) (fs : List Frame) (hwf : ∀ f ∈ fs, f.wellFormed = true)
    (s : Nextion) (hrx : s.rx = frames fs) (hwire : s.wire = []) :
    (∀ (k : Nat) (hk : k < fs.length), ∃ sk sk', listenN fuel k s = some sk ∧
        listenN fuel (k + 1) s = some sk' ∧ sk.rx = frames (fs.drop k) ∧
        sk'.rx = frames (fs.drop (k + 1)) ∧ Produced (fs.get ⟨k, hk⟩) sk sk' = true) ∧
      ∃ sn, listenN fuel fs.length s = some sn ∧ stream sn = [] := by
  induction fs generalizing s with
  | nil =>
    refine ⟨fun k hk => absurd hk (by simp), s, rfl, ?_⟩
    simp [stream, hrx, hwire, frames]
  | cons f fs ih =>
    obtain ⟨r, hr, hrrx, hrwire, hprod⟩ :=
      listen_frame fuel f (hwf f (List.mem_cons_self f fs)) s (frames fs) (by simpa [frames] using hrx)
        hwire
    obtain ⟨ih1, sn, hsn, hempty⟩ :=
      ih (fun g hg => hwf g (List.mem_cons_of_mem f hg)) r hrrx hrwire
    refine ⟨?_, sn, by simpa [listenN, hr] using hsn, hempty⟩
    intro k hk
    cases k with
    | zero =>
      exact ⟨s, r, rfl, by simp [listenN, hr], by simpa using hrx, by simpa using hrrx,
        by simpa using hprod⟩
    | succ k =>
      obtain ⟨sk, sk', h1, h2, h3, h4, h5⟩ := ih1 k (by simpa using hk)
      exact ⟨sk, sk', by simpa [listenN, hr] using h1, by simpa [listenN, hr] using h2,
        by simpa using h3, by simpa using h4, by simpa using h5⟩

/-- A page, a trigger and a custom frame from the initial state: the second call
and the state after the third. -/
theorem one_frame_per_call_witness :
    (∃ sk sk',
        listenN 0 1 { initial with rx := [35, 2, 80, 7, 35, 2, 84, 5, 35, 1, 76] } = some sk ∧
        listenN 0 2 { initial with rx := [35, 2, 80, 7, 35, 2, 84, 5, 35, 1, 76] } = some sk' ∧
        sk.rx = [35, 2, 84, 5, 35, 1, 76] ∧ sk'.rx = [35, 1, 76] ∧
        Produced (Frame.trigger 5) sk sk' = true) ∧
      ∃ sn, listenN 0 3 { initial with rx := [35, 2, 80, 7, 35, 2, 84, 5, 35, 1, 76] } = some sn ∧
        stream sn = [] :=
  ⟨(one_frame_per_call 0 [Frame.page 7, Frame.trigger 5, Frame.custom 76] (by decide)
      { initial with rx := [35, 2, 80, 7, 35, 2, 84, 5, 35, 1, 76] } rfl rfl).1 1 (by decide),
    (one_frame_per_call 0 [Frame.page 7, Frame.trigger 5, Frame.custom 76] (by decide)
      { initial with rx := [35, 2, 80, 7, 35, 2, 84, 5, 35, 1, 76] } rfl rfl).2⟩

/-! ## A frame whose payload does not arrive -/

theorem stream_read_suffix (x : Nextion) : stream (read x).2 <:+ stream x := by
  cases h : x.rx with
  | nil => simp [stream, h]
  | cons b t => simp [stream, h]

/-- The search for the marker only drops bytes from the front of the stream and
leaves the page ids and the pending command alone. -/
theorem seek_frame (fuel : Nat) (s1 s2 : Nextion)
    (h : pollLoop (fun x => x._start_char != 35) (fun x => (readStartChar x, false)) 100 id
      fuel s1 = some s2) :
    stream s2 <:+ stream s1 ∧ observed s2 = observed s1 := by
  have hm : ∀ x, (stream x <:+ stream s1 ∧ observed x = observed s1) →
      stream (millis (readStartChar x)).2 <:+ stream s1 ∧
      observed (millis (readStartChar x)).2 = observed s1 := by
    rintro x ⟨k1, k2⟩
    refine ⟨?_, k2⟩
    rw [stream_millis]
    exact (stream_read_suffix x).trans k1
  have hP := pollLoop_inv (fun x => x._start_char != 35) (fun x => (readStartChar x, false)) 100 id
    (fun x => stream x <:+ stream s1 ∧ observed x = observed s1)
    (fun x hx _ _ _ => hm x hx) fuel s1 s2 ⟨List.suffix_refl _, rfl⟩ h
  rcases hP with ⟨h, -⟩ | ⟨x, -, -, hb, -⟩ | ⟨x, hx, -, -, -, rfl⟩
  · exact h
  · simp at hb
  · exact hm x hx

/-- When fewer bytes than the declared length are due by the end of the 100 ms
of the payload wait, the wait ends by its timeout, with the frame marked as not
found and nothing else changed but the clock and the buffer. -/
theorem payload_starved (fuel : Nat) (s4 r : Nextion) (B : Nat)
    (htmr : s4._tmr1 = s4.now % ULONG) (hticks : ∀ t ∈ s4.ticks, t ≤ B)
    (hB1 : 1 ≤ B) (hB : B + 100 < ULONG) (hfew : dueBy s4 (s4.now + 100) < s4._len.val)
    (hr : pollLoop (fun x => decide (available x < x._len.val)) (fun x => (x, false)) 100
        (setCmdFound false) fuel s4 = some r) :
    r._cmdFound = false ∧ stream r = stream s4 ∧ observed r = observed s4 := by
  have hm : ∀ x, (stream x = stream s4 ∧ observed x = observed s4 ∧ x._len = s4._len ∧
      dueBy x (s4.now + 100) = dueBy s4 (s4.now + 100) ∧
      x._tmr1 = s4.now % ULONG ∧ s4.now ≤ x.now ∧ x.now ≤ s4.now + 100 ∧
      ∀ t ∈ x.ticks, t ≤ B) →
      stream (millis x).2 = stream s4 ∧ observed (millis x).2 = observed s4 ∧
      (millis x).2._len = s4._len ∧
      (millis x).2._tmr1 = s4.now % ULONG ∧ s4.now ≤ (millis x).2.now ∧
      (millis x).2.now ≤ s4.now + 100 + B ∧ (∀ t ∈ (millis x).2.ticks, t ≤ B) ∧
      ((millis x).2.now ≤ s4.now + 100 →
        dueBy (millis x).2 (s4.now + 100) = dueBy s4 (s4.now + 100)) := by
    rintro x ⟨k1, k2, k3, k4, k5, k6, k7, k8⟩
    have htick := headD_le_of_forall x.ticks B hB1 k8
    have hnow : (millis x).2.now = x.now + x.ticks.head?.getD 1 := rfl
    exact ⟨by rw [stream_millis]; exact k1, k2, k3, k5, by omega, by omega,
      fun t ht => k8 t (millis_ticks_mem x t ht),
      fun hle => by rw [dueBy_millis x _ hle]; exact k4⟩
  have hP := pollLoop_inv (fun x => decide (available x < x._len.val)) (fun x => (x, false)) 100
    (setCmdFound false)
    (fun x => stream x = stream s4 ∧ observed x = observed s4 ∧ x._len = s4._len ∧
      dueBy x (s4.now + 100) = dueBy s4 (s4.now + 100) ∧
      x._tmr1 = s4.now % ULONG ∧ s4.now ≤ x.now ∧ x.now ≤ s4.now + 100 ∧
      ∀ t ∈ x.ticks, t ≤ B)
    (fun x hx _ _ he => by
      dsimp only at he ⊢
      obtain ⟨m1, m2, m3, m4, m5, m6, m7, m8⟩ := hm x hx
      have e1 : (millis x).1 = (millis x).2.now % ULONG := rfl
      rw [e1, m4, elapsed_eq m5 (by unfold ULONG at *; omega)] at he
      exact ⟨m1, m2, m3, m8 (by omega), m4, m5, by omega, m7⟩)
    fuel s4 r ⟨rfl, rfl, rfl, rfl, htmr, le_rfl, by omega, hticks⟩ hr
  rcases hP with ⟨h, hc⟩ | ⟨x, -, -, hb, -⟩ | ⟨x, hx, -, -, -, rfl⟩
  · exfalso
    simp only [decide_eq_false_iff_not, not_lt] at hc
    have := available_le_dueBy r (s4.now + 100)
    rw [h.2.2.2.1] at this
    rw [h.2.2.1] at hc
    omega
  · simp at hb
  · dsimp only
    obtain ⟨m1, m2, -⟩ := hm x hx
    exact ⟨rfl, m1, m2⟩

/-- C14 (incomplete frame): take a call of `listen` with more than two bytes
buffered and enough fuel, whose search for the marker ends in the state `s2`
with the marker found and the byte `L`, read next as the length, in the buffer.
When fewer than `L` bytes are due by the end of the 100 ms that start with the
poll after that read (ticks at most `B`, no wrap of the clock within the
budget), the call returns a state with the page ids and the pending command
(available, group, length, sub-command) of the state before the call; the search
has only dropped bytes from the front of the stream, and the stream the call
leaves is that of `s2` without the length byte. -/
theorem incomplete_frame (fuel : Nat) (s s2 : Nextion) (L : Byte) (rest : List Byte) (B : Nat)
    (h3 : 2 < available s) (hfuel : s.ticks.length + 102 ≤ fuel)
    (hseek : pollLoop (fun x => x._start_char != 35) (fun x => (readStartChar x, false)) 100 id
      fuel (startTimer (readStartChar s)) = some s2)
    (hc : s2._start_char = 35) (hrx : s2.rx = L :: rest)
    (hticks : ∀ t ∈ s2.ticks, t ≤ B) (hB1 : 1 ≤ B) (hB : B + 100 < ULONG)
    (hfew : dueBy (readLen s2) (pollTime s2 1 + 100) < L.val) :
    ∃ r, listen fuel s = some r ∧ observed r = observed s ∧
      stream s2 <:+ stream s ∧ stream s2 = L :: stream r := by
  have h0 : available s > 2 := h3
  obtain ⟨hsuf, hobs⟩ := seek_frame fuel _ s2 hseek
  obtain ⟨-, t2⟩ := pollLoop_le (fun x => x._start_char != 35)
    (fun x => (readStartChar x, false)) 100 id (fun x => ⟨stream_read_le x, rfl⟩)
    (fun x => ⟨rfl, rfl⟩) fuel _ s2 hseek
  have ht1 : (startTimer (readStartChar s)).ticks.length ≤ s.ticks.length := by simp
  obtain ⟨s5, h5⟩ := pollLoop_isSome (fun x => decide (available x < x._len.val))
    (fun x => (x, false)) 100 (setCmdFound false) (by decide) (fun x => ⟨rfl, rfl, rfl⟩) fuel
    (setCmdFound true (startTimer (readLen s2)))
    (by have := fuelFor_le 100 (setCmdFound true (startTimer (readLen s2)))
        have : (setCmdFound true (startTimer (readLen s2))).ticks.length ≤ s2.ticks.length := by
          simp
        omega)
  have hnow : (setCmdFound true (startTimer (readLen s2))).now = pollTime s2 1 := rfl
  have hlen : (setCmdFound true (startTimer (readLen s2)))._len = L := by
    simp [hrx, toByte_val]
  obtain ⟨hf, hstr, hob⟩ := payload_starved fuel (setCmdFound true (startTimer (readLen s2))) s5 B
    rfl (fun t ht => hticks t (millis_ticks_mem (readLen s2) t ht)) hB1 hB
    (by
      rw [hnow, hlen]
      have : dueBy (setCmdFound true (startTimer (readLen s2))) (pollTime s2 1 + 100) =
          dueBy (millis (readLen s2)).2 (pollTime s2 1 + 100) := rfl
      rw [this, dueBy_millis (readLen s2) _ (by
        have : (millis (readLen s2)).2.now = pollTime s2 1 := rfl
        omega)]
      exact hfew) h5
  refine ⟨s5, ?_, ?_, ?_, ?_⟩
  · simp only [listen, if_pos h0, hseek, Option.bind, if_pos hc, h5]
    simp [hf]
  · rw [hob]
    exact hobs
  · rw [stream_startTimer] at hsuf
    exact hsuf.trans (stream_read_suffix s)
  · rw [hstr]
    show stream s2 = L :: stream (startTimer (readLen s2))
    rw [stream_startTimer]
    simp [stream, hrx]

/-- The frame `# 5 P` with nothing to follow, from the initial state: the call
waits its 100 ms and leaves the byte `P`. -/
theorem incomplete_frame_witness :
    ∃ r, listen 102 { initial with rx := [35, 5, 80] } = some r ∧
      observed r = observed { initial with rx := [35, 5, 80] } ∧
      stream (startTimer (readStartChar { initial with rx := [35, 5, 80] })) <:+
        stream { initial with rx := [35, 5, 80] } ∧
      stream (startTimer (readStartChar { initial with rx := [35, 5, 80] })) = 5 :: stream r :=
  incomplete_frame 102 { initial with rx := [35, 5, 80] }
    (startTimer (readStartChar { initial with rx := [35, 5, 80] })) 5 [80] 1 (by decide)
    (by decide) (pollLoop_done (by decide) 102) (by decide) (by decide) (by decide) (by decide)
    (by decide) (by decide)

/-! ## The third 0xFF byte ends the text -/

theorem short_of_count (p q p0 rest : List Byte) (h : p ++ q = p0 ++ rest)
    (hc : p.count 255 < p0.count 255) : p.length < p0.length := by
  by_contra hle
  have h1 : p0 <+: p ++ q := ⟨rest, h.symm⟩
  have h2 : p <+: p ++ q := List.prefix_append p q
  have h3 : p0 <+: p := List.prefix_of_prefix_length_le h1 h2 (by omega)
  have := h3.sublist.count_le (255 : Byte)
  omega

theorem eq_of_count (p q p0 rest : List Byte) (h : p ++ q = p0 ++ rest)
    (hlen : p.length ≤ p0.length) (hc : p.count 255 = p0.count 255)
    (hlast : p0.getLast? = some 255) : p = p0 ∧ q = rest := by
  have h1 : p0 <+: p ++ q := ⟨rest, h.symm⟩
  have h2 : p <+: p ++ q := List.prefix_append p q
  obtain ⟨t, ht⟩ := List.prefix_of_prefix_length_le h2 h1 hlen
  have ht0 : t = [] := by
    by_contra hne
    rw [← ht, List.getLast?_append_of_ne_nil _ hne] at hlast
    have hmem := List.mem_of_getLast?_eq_some hlast
    have hcnt : 0 < t.count 255 := List.count_pos_iff.mpr hmem
    rw [← ht, List.count_append] at hc
    omega
  rw [ht0, List.append_nil] at ht
  subst ht
  exact ⟨rfl, List.append_cancel_left h⟩

theorem stream_strStep_le (x : Nextion) : (stream x).length ≤ (stream (strStep x)).length + 1 := by
  cases hrx : x.rx with
  | nil => rw [strStep_idle x hrx]; omega
  | cons b rest =>
    by_cases hb : b = 255
    · subst hb
      obtain ⟨g1, g2, -⟩ := strStep_ff x rest hrx
      simp [stream, g1, g2, hrx]
    · obtain ⟨g1, g2, -⟩ := strStep_other x b rest hrx hb
      simp [stream, g1, g2, hrx]

/-- The accumulation loop of `readStr` stops after the shortest run `p0` of
bytes that holds three 0xFF bytes, stores the other bytes of `p0` and leaves the
bytes behind `p0` unread, when every byte is due by `D` and the loop can finish
within its 1000 ms. -/
theorem accumulate_upto (fuel : Nat) (p0 rest : List Byte) (D B M0 : Nat) (s6 : Nextion)
    (hcount : p0.count 255 = 3) (hlast : p0.getLast? = some 255)
    (hstream : stream s6 = p0 ++ rest)
    (hread : s6._readString = []) (hend : s6._endBytes = 0)
    (hfound : s6._endOfCommandFound = false) (htmr : s6._tmr1 = s6.now % ULONG)
    (hdue : ∀ e ∈ s6.wire, e.1 ≤ D) (hfresh : ∀ e ∈ s6.wire.head?, s6.now < e.1)
    (hticks : ∀ t ∈ s6.ticks, t ≤ B) (hB : 1 ≤ B) (h1 : s6.now ≤ M0) (h2 : D + B ≤ M0)
    (h3 : M0 + p0.length * B ≤ s6.now + 1000) (hfuel : s6.ticks.length + 1002 ≤ fuel) :
    ∃ r, pollLoop (fun x => x._endOfCommandFound == false) (fun x => (strStep x, false)) 1000
        setError fuel s6 = some r ∧
      r._readString = p0.filter (fun b => decide (b ≠ 255)) ∧ stream r = rest := by
  obtain ⟨r, hr⟩ := pollLoop_isSome (fun x => x._endOfCommandFound == false)
    (fun x => (strStep x, false)) 1000 setError (by decide) strStep_clock fuel s6
    (by have := fuelFor_le 1000 s6; omega)
  refine ⟨r, hr, ?_⟩
  have hfull : 3 ≤ (p0 ++ rest).count 255 := by
    rw [List.count_append, hcount]; omega
  have hkeep : ∀ x, Accumulated (p0 ++ rest) s6.now D B M0 0 x →
      x._endOfCommandFound = false → rest.length ≤ (stream (strStep x)).length := by
    intro x hx hc
    obtain ⟨p, hp, -, -, hf, hle, -⟩ := hx
    have hne : p.count 255 ≠ 3 := by
      intro h
      rw [hf.mpr h] at hc
      exact absurd hc (by decide)
    have hlt := short_of_count p (stream x) p0 rest hp (by omega)
    have hlen := congrArg List.length hp
    simp only [List.length_append] at hlen
    have := stream_strStep_le x
    omega
  have hP := pollLoop_inv (fun x => x._endOfCommandFound == false)
    (fun x => (strStep x, false)) 1000 setError
    (fun x => Accumulated (p0 ++ rest) s6.now D B M0 0 x ∧
      (∀ e ∈ x.wire.head?, x.now < e.1) ∧ rest.length ≤ (stream x).length)
    (fun x hx hc _ _ =>
      ⟨accumulated_millis _ _ _ _ _ hB _
        (accumulated_step _ _ _ _ _ h2 hfull x hx.1 hx.2.1 (by simpa using hc)),
        millis_wire_fresh _, by rw [stream_millis]; exact hkeep x hx.1 (by simpa using hc)⟩)
    fuel s6 r
    ⟨⟨[], hstream, by simpa using hread, by simpa using hend, by simp [hfound], by simp,
      by simpa using h1, htmr, le_rfl, hdue, hticks⟩, hfresh, by rw [hstream]; simp⟩ hr
  rcases hP with ⟨⟨⟨p, hp, hrd, -, hf, -⟩, -, hk⟩, hc⟩ | ⟨x, -, -, hb, -⟩ |
    ⟨x, hx, hc, -, ht, rfl⟩
  · have hcnt : p.count 255 = 3 := hf.mp (by simpa using hc)
    have hlen := congrArg List.length hp
    simp only [List.length_append] at hlen
    obtain ⟨e1, e2⟩ := eq_of_count p (stream r) p0 rest hp (by omega) (by omega) hlast
    rw [hrd, e1]
    exact ⟨rfl, e2⟩
  · simp at hb
  · exfalso
    have hk := hkeep x hx.1 (by simpa using hc)
    obtain ⟨p, hp, -, -, -, -, hnow, htm, hT, -, hticks'⟩ :=
      accumulated_step _ _ _ _ _ h2 hfull x hx.1 hx.2.1 (by simpa using hc)
    have hlen : p.length ≤ p0.length := by
      have := congrArg List.length hp
      simp only [List.length_append] at this
      omega
    have htick := headD_le_of_forall (strStep x).ticks B hB hticks'
    have hgt : s6.now + 1000 < (millis (strStep x)).2.now := by
      apply elapsed_gt (by simp only [millis_snd_now]; omega)
      have : (millis (strStep x)).2._tmr1 = s6.now % ULONG := htm
      rw [← this]
      exact ht
    simp only [millis_snd_now] at hgt
    have : p.length * B ≤ p0.length * B := Nat.mul_le_mul_right B hlen
    omega

theorem readStrParse_upto (fuel : Nat) (p0 rest : List Byte) (D B : Nat) (s3 : Nextion)
    (hcount : p0.count 255 = 3) (hlast : p0.getLast? = some 255)
    (hstream : stream s3 = 112 :: p0 ++ rest)
    (hav : 4 ≤ s3.rx.length) (hfound : s3._endOfCommandFound = false)
    (hdue : ∀ e ∈ s3.wire, e.1 ≤ D) (hticks : ∀ t ∈ s3.ticks, t ≤ B) (hB : 1 ≤ B)
    (htime : D + (p0.length + 1) * B ≤ s3.now + 1000) (htime' : p0.length * B ≤ 1000)
    (hfuel : s3.ticks.length + 1002 ≤ fuel) :
    ∃ r, readStrParse fuel s3 = some r ∧
      r._readString = p0.filter (fun b => decide (b ≠ 255)) ∧ stream r = rest := by
  have hne : s3.rx ≠ [] := by
    intro h; rw [h] at hav; simp at hav
  obtain ⟨b, l, hrx⟩ := List.exists_cons_of_ne_nil hne
  have hb : b = 112 := by
    have := hstream
    simp only [stream, hrx, List.cons_append, List.cons.injEq] at this
    exact this.1
  subst hb
  have h0 : available s3 > 3 := by simpa [available] using hav
  have h1 : (startTimer (readStartChar s3))._start_char = 112 := by simp [hrx, toByte_val]
  simp only [readStrParse, if_pos h0]
  rw [pollLoop_done (by simpa using h1)]
  simp only [Option.bind, if_pos h1]
  have hs4 : stream (startTimer (clearReadString (startTimer (readStartChar s3)))) =
      p0 ++ rest := by
    rw [stream_startTimer]
    show stream (startTimer (readStartChar s3)) = _
    rw [stream_startTimer, stream_readStartChar s3 hne, hstream]
    rfl
  have hnow1 : s3.now ≤ (startTimer (clearReadString (startTimer (readStartChar s3)))).now := by
    simp only [startTimer_now, millis_snd_now, clearReadString_now, clearReadString_ticks,
      startTimer_ticks, millis_snd_ticks, readStartChar_now, readStartChar_ticks, read_snd_now,
      read_snd_ticks]
    omega
  have hmul : (p0.length + 1) * B = p0.length * B + B := by
    rw [Nat.add_mul, Nat.one_mul]
  obtain ⟨M0, hM1, hM2, hM3⟩ : ∃ M0,
      (startTimer (clearReadString (startTimer (readStartChar s3)))).now ≤ M0 ∧ D + B ≤ M0 ∧
      M0 + p0.length * B ≤
        (startTimer (clearReadString (startTimer (readStartChar s3)))).now + 1000 := by
    by_cases hle : (startTimer (clearReadString (startTimer (readStartChar s3)))).now ≤ D + B
    · exact ⟨D + B, hle, le_rfl, by omega⟩
    · exact ⟨_, le_rfl, by omega, by omega⟩
  apply accumulate_upto fuel p0 rest D B M0 _ hcount hlast hs4
  · simp
  · simp
  · simp [hfound]
  · rfl
  · intro e he
    apply hdue e
    have h1 := millis_wire_subset _ e he
    have h2 := millis_wire_subset _ e h1
    simpa using h2
  · exact millis_wire_fresh _
  · intro t ht
    apply hticks t
    have h1 := millis_ticks_mem _ t ht
    have h2 := millis_ticks_mem _ t h1
    simpa using h2
  · exact hB
  · exact hM1
  · exact hM2
  · exact hM3
  · simp; omega

/-- What the accumulation loop of `readStr` does on a general reply body: take
`readStr` called on a silent link, and a reply that
arrives after the `get` request and within the 400 ms of the response wait and
consists of `0x70`, a run `p0` of bytes that holds exactly three 0xFF bytes, the
last of them at its end, and any bytes `rest`; the clock is polled often enough
(each poll advances it by at most `B` ms with
`400 + (p0.length + 1) * B ≤ 1000`). Then `readStr` returns the bytes of `p0`
other than 0xFF and leaves exactly `rest` unread: the accumulation ends at the
third 0xFF byte after the marker, whether or not the three are adjacent. -/
theorem text_terminator_count (fuel : Nat) (TextComponent : List Byte) (s : Nextion)
    (p0 rest : List Byte) (B : Nat) (hcount : p0.count 255 = 3)
    (hlast : p0.getLast? = some 255) (hrx : s.rx = [])
    (hwire : s.wire.map Prod.snd = 112 :: p0 ++ rest)
    (hquiet : ∀ e ∈ s.wire, pollTime s 1 < e.1)
    (hbudget : ∀ e ∈ s.wire, e.1 ≤ pollTime s 2 + 400)
    (hB : 1 ≤ B) (hticks : ∀ t ∈ s.ticks, t ≤ B)
    (htime : 400 + (p0.length + 1) * B ≤ 1000) (hfuel : s.ticks.length + 1002 ≤ fuel) :
    ∃ r, readStr fuel TextComponent s = some (p0.filter (fun b => decide (b ≠ 255)), r) ∧
      stream r = rest := by
  obtain ⟨a, ha, harx, hawire, hanow, haticks, hafound⟩ :=
    readStrDrain_quiet fuel s hrx hquiet
  have hs2now : (startTimer (print TERM (print TextComponent (print GET a)))).now =
      pollTime s 2 := by
    simp only [startTimer_now, millis_snd_now, print_now, print_ticks, hanow, haticks]
    simp [pollTime]
  have hs2ticks : ∀ t ∈ (startTimer (print TERM (print TextComponent (print GET a)))).ticks,
      t ≤ B := by
    intro t ht
    have h2 := millis_ticks_mem _ t ht
    simp only [print_ticks, haticks] at h2
    exact hticks t (List.mem_of_mem_tail h2)
  have hs2len : (startTimer (print TERM (print TextComponent (print GET a)))).ticks.length ≤
      s.ticks.length := by
    have := millis_ticks_length (print TERM (print TextComponent (print GET a)))
    simp only [startTimer_ticks, print_ticks, haticks, List.length_tail] at this ⊢
    omega
  obtain ⟨r3, h3, hs3, hf3, ht3⟩ := wait_reply 4 fuel setError
    (startTimer (print TERM (print TextComponent (print GET a))))
    (fun x => ⟨rfl, rfl, rfl, rfl⟩) (by omega)
  have hstream : stream (startTimer (print TERM (print TextComponent (print GET a)))) =
      112 :: p0 ++ rest := by
    rw [stream_startTimer]
    simp [stream, harx, hawire, hwire]
  have hp0 : 3 ≤ p0.length := by
    have := List.count_le_length (255 : Byte) p0
    omega
  have hmulB : B ≤ (p0.length + 1) * B := Nat.le_mul_of_pos_left B (by omega)
  obtain ⟨e1, e2, e3, e4, -⟩ := wait_reply_timely 4 fuel setError
    (startTimer (print TERM (print TextComponent (print GET a)))) r3 B
    (fun x => ⟨rfl, rfl, rfl⟩)
    (by rw [hstream]; simp; omega) rfl
    (by
      intro e he
      rw [hs2now]
      apply hbudget e
      rw [← hawire]
      exact millis_wire_subset _ e he)
    (fun e he => millis_wire_fresh (print TERM (print TextComponent (print GET a))) e he)
    hs2ticks hB (by unfold ULONG; omega) h3
  rw [hs2now] at e2 e3 e4
  have hmul : p0.length * B ≤ (p0.length + 1) * B :=
    Nat.mul_le_mul_right B (by omega)
  obtain ⟨r7, h7, hr7, hrest⟩ := readStrParse_upto fuel p0 rest (pollTime s 2 + 400) B r3 hcount
    hlast (by rw [hs3, hstream]) e1 (by rw [hf3]; simpa using hafound) e4
    (fun t ht => hs2ticks t (ht3.subset ht)) hB (by omega) (by omega)
    (by have := ht3.length_le; omega)
  refine ⟨r7, ?_, hrest⟩
  simp only [readStr, ha, Option.bind, readStrReply, h3, h7, hr7]

/-- The reply `0x70 a FF b FF FF c FF FF FF`, arriving after 5 ms: the call
returns `ab` and leaves `c FF FF FF`. -/
theorem text_terminator_count_witness :
    ∃ r, readStr 1002 [116] scattered = some ([97, 98], r) ∧ stream r = [99, 255, 255, 255] :=
  text_terminator_count 1002 [116] scattered [97, 255, 98, 255, 255] [99, 255, 255, 255] 1
    (by decide) (by decide) rfl rfl (by decide) (by decide) (by decide) (by decide) (by decide)
    (by decide)

/-! ## The argument queue -/

theorem advance_val (i : Byte) (h : i.val < 16) : (advance i).val = i.val + 1 := by
  have h1 : ¬ i.val > 15 := by omega
  rw [advance, if_neg h1, Fin.val_add]
  show (i.val + 1) % 256 = i.val + 1
  omega

theorem printArg_fields (x : Nat) (s : Nextion) :
    (printArg x s).tx =
        s.tx ++ (if x > 0 then [44] else []) ++ decimal (s._cmdFifo.getD s._cmdFifoTail.val 0) ∧
      (printArg x s)._cmdFifoTail = advance s._cmdFifoTail ∧
      (printArg x s)._cmdFifoHead = s._cmdFifoHead ∧ (printArg x s)._cmdFifo = s._cmdFifo := by
  unfold printArg
  split_ifs <;> simp

/-- Pushes that stay inside the array: the head counts them, the tail, the
output and the words below the old head are untouched, and the arguments lie
in the words from the old head on, in push order. -/
theorem pushArgs_inside (args : List Nat) :
    ∀ s : Nextion, s._cmdFifoHead.val + args.length ≤ 16 → s._cmdFifo.length = 16 →
      ∃ r, pushArgs args s = some r ∧ r._cmdFifoHead.val = s._cmdFifoHead.val + args.length ∧
        r._cmdFifoTail = s._cmdFifoTail ∧ r.tx = s.tx ∧ r._cmdFifo.length = 16 ∧
        (∀ i, i < s._cmdFifoHead.val → r._cmdFifo.getD i 0 = s._cmdFifo.getD i 0) ∧
        ∀ i, i < args.length →
          r._cmdFifo.getD (s._cmdFifoHead.val + i) 0 = args.getD i 0 % ULONG := by
  induction args with
  | nil =>
    intro s _ hlen
    exact ⟨s, rfl, rfl, rfl, rfl, hlen, fun _ _ => rfl, fun i hi => absurd hi (by simp)⟩
  | cons a args ih =>
    intro s hh hlen
    simp only [List.length_cons] at hh
    have h16 : s._cmdFifoHead.val < 16 := by omega
    have hv := advance_val s._cmdFifoHead h16
    obtain ⟨r, hr, e1, e2, e3, e4, e5, e6⟩ := ih (storeArg a s)
      (by simp only [storeArg__cmdFifoHead, hv]; omega) (by simp [hlen])
    simp only [storeArg__cmdFifoHead, storeArg__cmdFifo, storeArg__cmdFifoTail, storeArg_tx,
      hv] at e1 e2 e3 e5 e6
    refine ⟨r, ?_, by simp only [List.length_cons]; omega, e2, e3, e4, ?_, ?_⟩
    · simp only [pushArgs, List.map_cons, run, pushCmdArg, if_pos h16, Option.bind]
      exact hr
    · intro i hi
      rw [e5 i (by omega)]
      simp only [List.getD_eq_getElem?_getD]
      rw [List.getElem?_set_ne (by omega)]
    · intro i hi
      cases i with
      | zero =>
        rw [Nat.add_zero, e5 _ (by omega)]
        simp only [List.getD_eq_getElem?_getD]
        rw [List.getElem?_set_self (by omega)]
        simp
      | succ i =>
        have := e6 i (by simpa using hi)
        rw [show s._cmdFifoHead.val + (i + 1) = s._cmdFifoHead.val + 1 + i by omega, this]
        simp

/-- The loop of `sendCmd` once its counter is positive: every argument is
printed behind a comma, and the tail advances past it. -/
theorem sendArgs_inside (entries : List Nat) :
    ∀ (x : Nat) (s : Nextion), 0 < x → s._cmdFifoTail.val + entries.length ≤ 16 →
      (∀ i, i < entries.length → s._cmdFifo.getD (s._cmdFifoTail.val + i) 0 = entries.getD i 0) →
      ∃ r, sendArgs entries.length x s = some r ∧
        r.tx = s.tx ++ (entries.map fun a => 44 :: decimal a).flatten ∧
        r._cmdFifoTail.val = s._cmdFifoTail.val + entries.length ∧
        r._cmdFifoHead = s._cmdFifoHead := by
  induction entries with
  | nil =>
    intro x s _ _ _
    exact ⟨s, rfl, by simp, rfl, rfl⟩
  | cons a entries ih =>
    intro x s hx ht hget
    simp only [List.length_cons] at ht
    have h16 : s._cmdFifoTail.val < 16 := by omega
    have hv := advance_val s._cmdFifoTail h16
    have ha : s._cmdFifo.getD s._cmdFifoTail.val 0 = a := by
      simpa using hget 0 (by simp)
    obtain ⟨f1, f2, f3, f4⟩ := printArg_fields x s
    obtain ⟨r, hr, e1, e2, e3⟩ := ih (x + 1) (printArg x s) (by omega)
      (by rw [f2, hv]; omega)
      (by
        intro i hi
        have := hget (i + 1) (by simpa using hi)
        rw [f2, f4, hv, show s._cmdFifoTail.val + 1 + i = s._cmdFifoTail.val + (i + 1) by omega]
        simpa using this)
    rw [f1, f2, f3, hv, ha, if_pos hx] at *
    refine ⟨r, ?_, ?_, ?_, e3⟩
    · simp only [List.length_cons, sendArgs, if_pos h16]
      exact hr
    · rw [e1]
      simp
    · rw [e2]
      simp only [List.length_cons]
      omega

theorem intercalate_comma (d : List Byte) (ds : List (List Byte)) :
    List.intercalate [44] (d :: ds) = d ++ (ds.map fun a => 44 :: a).flatten := by
  induction ds generalizing d with
  | nil => simp [List.intercalate]
  | cons e ds ih =>
    have := ih e
    simp only [List.intercalate] at this ⊢
    simp [List.intersperse, this]

/-- From a state with head and tail at 0, pushing at most 16 arguments, each an
`uint32_t`, and calling `sendCmd(c)` appends to the output the bytes of `c`,
then, when there is an argument, one space and the decimal renderings of the
arguments in push order separated by single commas, then three 0xFF bytes. -/
theorem encoding_from_zero (c : List Byte) (args : List Nat) (s : Nextion)
    (hk : args.length ≤ 16) (hargs : ∀ a ∈ args, a < ULONG)
    (hhead : s._cmdFifoHead = 0) (htail : s._cmdFifoTail = 0) (hlen : s._cmdFifo.length = 16) :
    ∃ s1 r, pushArgs args s = some s1 ∧ sendCmd c s1 = some r ∧
      r.tx = s.tx ++ c ++
        (if args = [] then [] else 32 :: List.intercalate [44] (args.map decimal)) ++
        [255, 255, 255] := by
  have hh0 : s._cmdFifoHead.val = 0 := by rw [hhead]; rfl
  have ht0 : s._cmdFifoTail.val = 0 := by rw [htail]; rfl
  obtain ⟨s1, h1, e1, e2, e3, e4, -, e6'⟩ :=
    pushArgs_inside args s (by omega) hlen
  have e6 : ∀ i, i < args.length →
      s1._cmdFifo.getD (s._cmdFifoHead.val + i) 0 = args.getD i 0 := by
    intro i hi
    rw [e6' i hi]
    apply Nat.mod_eq_of_lt
    rw [List.getD_eq_getElem?_getD, List.getElem?_eq_getElem hi]
    exact hargs _ (List.getElem_mem hi)
  rw [hh0, Nat.zero_add] at e1
  have ht1 : s1._cmdFifoTail.val = 0 := by rw [e2]; exact ht0
  have hcount : argCount s1 = args.length := by
    have : ¬ s1._cmdFifoHead.val < s1._cmdFifoTail.val := by omega
    rw [argCount, if_neg this, e1, ht1]
    omega
  refine ⟨s1, ?_⟩
  cases args with
  | nil =>
    have h0 : ¬ argCount s1 > 0 := by rw [hcount]; simp
    refine ⟨print TERM (print c (setComponent c s1)), h1, ?_, ?_⟩
    · simp only [sendCmd, if_neg h0, Option.map]
    · simp [e3, TERM]
  | cons a args =>
    have hpos : argCount s1 > 0 := by rw [hcount]; simp
    have h16 : s1._cmdFifoTail.val < 16 := by omega
    obtain ⟨f1, f2, f3, f4⟩ := printArg_fields 0 (print [32] (print c (setComponent c s1)))
    simp only [print__cmdFifo, print__cmdFifoTail, print__cmdFifoHead, print_tx,
      setComponent__cmdFifo, setComponent__cmdFifoTail, setComponent__cmdFifoHead,
      setComponent_tx] at f1 f2 f3 f4
    have hv := advance_val s1._cmdFifoTail h16
    have ha : s1._cmdFifo.getD s1._cmdFifoTail.val 0 = a := by
      have := e6 0 (by simp)
      rw [hh0] at this
      rw [ht1]
      simpa using this
    obtain ⟨r, hr, g1, -, -⟩ := sendArgs_inside args 1
      (printArg 0 (print [32] (print c (setComponent c s1)))) (by omega)
      (by rw [f2, hv, ht1]; simp only [List.length_cons] at hk; omega)
      (by
        intro i hi
        have := e6 (i + 1) (by simpa using hi)
        rw [hh0] at this
        rw [f2, f4, hv, ht1]
        simpa [Nat.add_comm] using this)
    refine ⟨print TERM r, h1, ?_, ?_⟩
    · simp only [sendCmd, if_pos hpos, hcount, List.length_cons, sendArgs]
      have h16' : (print [32] (print c (setComponent c s1)))._cmdFifoTail.val < 16 := h16
      rw [if_pos h16', hr]
      simp
    · rw [ha] at f1
      rw [List.map_cons, intercalate_comma]
      simp [g1, f1, e3, TERM, List.map_map, Function.comp_def]

theorem pushCmdArg_bounds (a : Nat) (s r : Nextion) (h : pushCmdArg a s = some r) :
    r._cmdFifoHead.val ≤ 16 ∧ r._cmdFifoTail = s._cmdFifoTail := by
  unfold pushCmdArg at h
  by_cases h16 : s._cmdFifoHead.val < 16
  · rw [if_pos h16] at h
    have hr := (Option.some.inj h).symm
    subst hr
    have := advance_val s._cmdFifoHead h16
    refine ⟨?_, rfl⟩
    rw [storeArg__cmdFifoHead]
    omega
  · rw [if_neg h16] at h
    exact absurd h (by simp)

theorem sendArgs_bounds (n : Nat) :
    ∀ (x : Nat) (s r : Nextion), s._cmdFifoTail.val ≤ 16 → sendArgs n x s = some r →
      r._cmdFifoTail.val ≤ 16 ∧ r._cmdFifoHead = s._cmdFifoHead := by
  induction n with
  | zero =>
    intro x s r ht h
    have hr := (Option.some.inj h).symm
    subst hr
    exact ⟨ht, rfl⟩
  | succ n ih =>
    intro x s r _ h
    unfold sendArgs at h
    by_cases h16 : s._cmdFifoTail.val < 16
    · rw [if_pos h16] at h
      obtain ⟨-, f2, f3, -⟩ := printArg_fields x s
      have hv := advance_val s._cmdFifoTail h16
      obtain ⟨g1, g2⟩ := ih (x + 1) (printArg x s) r (by rw [f2, hv]; omega) h
      exact ⟨g1, by rw [g2, f3]⟩
    · rw [if_neg h16] at h
      exact absurd h (by simp)

theorem sendCmd_bounds (c : List Byte) (s r : Nextion) (ht : s._cmdFifoTail.val ≤ 16)
    (h : sendCmd c s = some r) :
    r._cmdFifoTail.val ≤ 16 ∧ r._cmdFifoHead = s._cmdFifoHead := by
  unfold sendCmd at h
  by_cases hc : argCount s > 0
  · simp only [if_pos hc, Option.map_eq_some'] at h
    obtain ⟨a, ha, rfl⟩ := h
    exact sendArgs_bounds _ 0 (print [32] (print c (setComponent c s))) a ht ha
  · simp only [if_neg hc, Option.map_some', Option.some.injEq] at h
    subst h
    exact ⟨ht, rfl⟩

theorem run_bounds (calls : List Call) :
    ∀ s r : Nextion, s._cmdFifoHead.val ≤ 16 → s._cmdFifoTail.val ≤ 16 →
      run calls s = some r → r._cmdFifoHead.val ≤ 16 ∧ r._cmdFifoTail.val ≤ 16 := by
  induction calls with
  | nil =>
    intro s r hh ht h
    have hr := (Option.some.inj h).symm
    subst hr
    exact ⟨hh, ht⟩
  | cons c calls ih =>
    intro s r hh ht h
    cases c with
    | push a =>
      simp only [run, Option.bind_eq_some] at h
      obtain ⟨s1, h1, h2⟩ := h
      obtain ⟨b1, b2⟩ := pushCmdArg_bounds a s s1 h1
      exact ih s1 r b1 (by rw [b2]; exact ht) h2
    | send c =>
      simp only [run, Option.bind_eq_some] at h
      obtain ⟨s1, h1, h2⟩ := h
      obtain ⟨b1, b2⟩ := sendCmd_bounds c s s1 ht h1
      exact ih s1 r (by rw [b2]; exact hh) b1 h2

/-- From a state with head and tail at 0, `k ≤ 16` pushes leave the head at `k`
and the tail at 0, with the arguments in the words 0 to `k - 1` of the array in
push order; and every state that calls of `pushCmdArg` and `sendCmd` reach with
all their stores and loads inside the array has head and tail at most 16. -/
theorem boundary_from_zero (args : List Nat) (calls : List Call) (s : Nextion)
    (hk : args.length ≤ 16) (hhead : s._cmdFifoHead = 0) (htail : s._cmdFifoTail = 0)
    (hlen : s._cmdFifo.length = 16) :
    (∃ r, pushArgs args s = some r ∧ r._cmdFifoHead.val = args.length % 17 ∧
      r._cmdFifoTail = 0 ∧
      ∀ i, i < args.length → r._cmdFifo.getD i 0 = args.getD i 0 % ULONG) ∧
    ∀ r, run calls s = some r → r._cmdFifoHead.val ≤ 16 ∧ r._cmdFifoTail.val ≤ 16 := by
  have hh0 : s._cmdFifoHead.val = 0 := by rw [hhead]; rfl
  have ht0 : s._cmdFifoTail.val = 0 := by rw [htail]; rfl
  constructor
  · obtain ⟨r, h1, e1, e2, -, -, -, e6⟩ := pushArgs_inside args s (by omega) hlen
    refine ⟨r, h1, by rw [e1, hh0]; omega, by rw [e2, htail], ?_⟩
    intro i hi
    have := e6 i hi
    rwa [hh0, Nat.zero_add] at this
  · intro r hr
    exact run_bounds calls s r (by omega) (by omega) hr

/-! ## Every read ends -/

/-- A wait loop whose body leaves the clock alone ends when the fuel covers the
ticks and the budget, and uses up no more ticks than there are. -/
theorem pollLoop_ends (cond : Nextion → Bool) (body : Nextion → Nextion × Bool) (budget : Nat)
    (onTimeout : Nextion → Nextion) (hb : budget + 1 < ULONG)
    (hbody : ∀ x, (body x).1.now = x.now ∧ (body x).1.ticks = x.ticks ∧
      (body x).1._tmr1 = x._tmr1)
    (hon : ∀ x, (onTimeout x).ticks = x.ticks) (fuel : Nat) (s : Nextion)
    (hfuel : s.ticks.length + budget + 2 ≤ fuel) :
    ∃ r, pollLoop cond body budget onTimeout fuel s = some r ∧
      r.ticks.length ≤ s.ticks.length := by
  obtain ⟨r, hr⟩ := pollLoop_isSome cond body budget onTimeout hb hbody fuel s
    (by have := fuelFor_le budget s; omega)
  refine ⟨r, hr, ?_⟩
  have hm : ∀ x, x.ticks.length ≤ s.ticks.length →
      (millis (body x).1).2.ticks.length ≤ s.ticks.length := by
    intro x hx
    have := millis_ticks_length (body x).1
    rw [(hbody x).2.1] at this
    omega
  have hP := pollLoop_inv cond body budget onTimeout
    (fun x => x.ticks.length ≤ s.ticks.length) (fun x hx _ _ _ => hm x hx) fuel s r le_rfl hr
  rcases hP with ⟨h, -⟩ | ⟨x, hx, -, -, rfl⟩ | ⟨x, hx, -, -, -, rfl⟩
  · exact h
  · rw [(hbody x).2.1]; exact hx
  · rw [hon]; exact hm x hx

theorem readStartCharIfAvailable_clock (x : Nextion) :
    (readStartCharIfAvailable x).now = x.now ∧ (readStartCharIfAvailable x).ticks = x.ticks ∧
      (readStartCharIfAvailable x)._tmr1 = x._tmr1 := by
  unfold readStartCharIfAvailable
  split_ifs <;> simp

theorem readStrParse_isSome (fuel : Nat) (s3 : Nextion) (hfuel : s3.ticks.length + 1002 ≤ fuel) :
    ∃ r, readStrParse fuel s3 = some r := by
  unfold readStrParse
  split_ifs with h0
  · obtain ⟨s5, h5, t5⟩ := pollLoop_ends (fun x => x._start_char != 112)
      (fun x => (readStartCharIfAvailable x, false)) 100 setError (by decide)
      readStartCharIfAvailable_clock (fun _ => rfl) fuel (startTimer (readStartChar s3))
      (by have : (startTimer (readStartChar s3)).ticks.length ≤ s3.ticks.length := by simp
          omega)
    have t4 : (startTimer (readStartChar s3)).ticks.length ≤ s3.ticks.length := by simp
    simp only [h5, Option.bind]
    split_ifs
    · have t6 : (startTimer (clearReadString s5)).ticks.length ≤ s5.ticks.length := by simp
      obtain ⟨r, hr, -⟩ := pollLoop_ends (fun x => x._endOfCommandFound == false)
        (fun x => (strStep x, false)) 1000 setError (by decide) strStep_clock (fun _ => rfl) fuel
        (startTimer (clearReadString s5)) (by omega)
      exact ⟨r, hr⟩
    · exact ⟨s5, rfl⟩
  · exact ⟨s3, rfl⟩

theorem readNumParse_isSome (fuel : Nat) (s3 : Nextion) (hfuel : s3.ticks.length + 1002 ≤ fuel) :
    ∃ r, readNumParse fuel s3 = some r := by
  unfold readNumParse
  split_ifs with h0
  · obtain ⟨s5, h5, t5⟩ := pollLoop_ends (fun x => x._start_char != 113)
      (fun x => (readStartCharIfAvailable x, false)) 100 setFail (by decide)
      readStartCharIfAvailable_clock (fun _ => rfl) fuel (startTimer (readStartChar s3))
      (by have : (startTimer (readStartChar s3)).ticks.length ≤ s3.ticks.length := by simp
          omega)
    have t4 : (startTimer (readStartChar s3)).ticks.length ≤ s3.ticks.length := by simp
    simp only [h5, Option.bind]
    split_ifs
    · have t6 : (startTimer (clearEndBytes (readNumericBuffer s5))).ticks.length ≤
          s5.ticks.length := by simp
      obtain ⟨r, hr, -⟩ := pollLoop_ends (fun x => x._endOfCommandFound == false)
        numStep 1000 setFail (by decide) numStep_clock (fun _ => rfl) fuel
        (startTimer (clearEndBytes (readNumericBuffer s5))) (by omega)
      exact ⟨r, hr⟩
    · exact ⟨s5, rfl⟩
  · exact ⟨s3, rfl⟩

theorem readNumDrain_isSome (fuel : Nat) (component : List Byte) (s : Nextion)
    (hfuel : ((stream s).length + 1) * (s.ticks.length + 1003) ≤ fuel) :
    ∃ s1, readNumDrain fuel component s = some s1 ∧ s1.ticks.length ≤ s.ticks.length := by
  have hst : stream (startTimer (readNumInit component s)) = stream s := by
    rw [stream_startTimer]; rfl
  have htk : (startTimer (readNumInit component s)).ticks.length ≤ s.ticks.length := by simp
  have hle := drainFuel_le (startTimer (readNumInit component s))
  rw [hst] at hle
  have hmono : ((stream s).length + 1) *
      ((startTimer (readNumInit component s)).ticks.length + 1003) ≤
      ((stream s).length + 1) * (s.ticks.length + 1003) :=
    Nat.mul_le_mul_left _ (by omega)
  have hbig : s.ticks.length + 1003 ≤ ((stream s).length + 1) * (s.ticks.length + 1003) :=
    Nat.le_mul_of_pos_left _ (by omega)
  obtain ⟨r, hr, -, hr2⟩ := drainLoop_isSome setFail fuel (fun x => ⟨rfl, rfl⟩) fuel
    (startTimer (readNumInit component s)) (by omega) (by omega)
  exact ⟨r, hr, by omega⟩

/-- The drain loop ends either with its condition false, no byte being
buffered, or at the first poll at which more than 1000 ms have passed since the
timer was last set. -/
theorem drainLoop_exit (onTimeout : Nextion → Nextion) (lf : Nat) :
    ∀ (fuel : Nat) (s r : Nextion), drainLoop onTimeout lf fuel s = some r →
      available r = 0 ∨
      ∃ x, 1000 < elapsed (millis x).1 (millis x).2._tmr1 ∧ r = onTimeout (millis x).2 := by
  intro fuel
  induction fuel with
  | zero =>
    intro s r h
    unfold drainLoop at h
    by_cases h0 : available s ≠ 0
    · rw [if_pos h0] at h
      exact absurd h (by simp)
    · rw [if_neg h0] at h
      have hr := (Option.some.inj h).symm
      subst hr
      exact Or.inl (by simpa using h0)
  | succ n ih =>
    intro s r h
    unfold drainLoop at h
    by_cases h0 : available s ≠ 0
    · rw [if_pos h0] at h
      by_cases ht : elapsed (millis s).1 (millis s).2._tmr1 > 1000
      · simp only [if_pos ht] at h
        exact Or.inr ⟨s, ht, (Option.some.inj h).symm⟩
      · simp only [if_neg ht, Option.bind_eq_some] at h
        obtain ⟨y, -, hy⟩ := h
        exact ih y r hy
    · rw [if_neg h0] at h
      have hr := (Option.some.inj h).symm
      subst hr
      exact Or.inl (by simpa using h0)

/-- C20 (reads never block): for every state, that is for every finite list of
bytes buffered or in flight, every arrival time of each byte and every list of
clock advances (an advance of 1 ms per poll once the list is used up), the calls
`readStr`, `readNum` and `listen` return when the fuel, which bounds the
iterations of each loop, covers the bytes, the ticks and the budgets; and every
wait loop that returns does so with its condition false, by a `break` of its
body (only the terminator loop of `readNum` has one, on a byte other than
0xFF), or at the first poll at which more than its budget has passed since its
timer was set. -/
theorem reads_terminate (fuel : Nat) (TextComponent component : List Byte) (s : Nextion)
    (hfuel : ((stream s).length + 1) * (s.ticks.length + 1003) ≤ fuel) :
    (∃ r, readStr fuel TextComponent s = some r) ∧
    (∃ r, readNum fuel component s = some r) ∧
    (∃ r, listen fuel s = some r) ∧
    (∀ (cond : Nextion → Bool) (body : Nextion → Nextion × Bool) (budget : Nat)
        (onTimeout : Nextion → Nextion) (x r : Nextion),
      pollLoop cond body budget onTimeout fuel x = some r →
        cond r = false ∨ (∃ y, (body y).2 = true ∧ r = (body y).1) ∨
        ∃ y, budget < elapsed (millis (body y).1).1 (millis (body y).1).2._tmr1 ∧
          r = onTimeout (millis (body y).1).2) ∧
    ∀ (onTimeout : Nextion → Nextion) (lf : Nat) (x r : Nextion),
      drainLoop onTimeout lf fuel x = some r →
        available r = 0 ∨
        ∃ y, 1000 < elapsed (millis y).1 (millis y).2._tmr1 ∧ r = onTimeout (millis y).2 := by
  have hbig : s.ticks.length + 1003 ≤ ((stream s).length + 1) * (s.ticks.length + 1003) :=
    Nat.le_mul_of_pos_left _ (by omega)
  refine ⟨?_, ?_, ?_, ?_, ?_⟩
  · obtain ⟨s1, h1, t1⟩ := readStrDrain_isSome fuel s hfuel
    have t2 : (startTimer (print TERM (print TextComponent (print GET s1)))).ticks.length ≤
        s1.ticks.length := by simp
    obtain ⟨s3, h3, -, -, t3⟩ := wait_reply 4 fuel setError
      (startTimer (print TERM (print TextComponent (print GET s1))))
      (fun x => ⟨rfl, rfl, rfl, rfl⟩) (by omega)
    obtain ⟨s7, h7⟩ := readStrParse_isSome fuel s3 (by have := t3.length_le; omega)
    exact ⟨(s7._readString, s7), by simp only [readStr, h1, Option.bind, readStrReply, h3, h7]⟩
  · obtain ⟨s1, h1, t1⟩ := readNumDrain_isSome fuel component s hfuel
    have t2 : (startTimer (print TERM (print s1._comp (print GET s1)))).ticks.length ≤
        s1.ticks.length := by simp
    obtain ⟨s3, h3, -, -, t3⟩ := wait_reply 8 fuel setFail
      (startTimer (print TERM (print s1._comp (print GET s1))))
      (fun x => ⟨rfl, rfl, rfl, rfl⟩) (by omega)
    obtain ⟨s7, h7⟩ := readNumParse_isSome fuel s3 (by have := t3.length_le; omega)
    exact ⟨((readNumResult s7)._numberValue, readNumResult s7),
      by simp only [readNum, h1, Option.bind, readNumReply, h3, h7]⟩
  · obtain ⟨r, hr, -⟩ := listen_isSome fuel s (by omega)
    exact ⟨r, hr⟩
  · intro cond body budget onTimeout x r hr
    have hP := pollLoop_inv cond body budget onTimeout (fun _ => True)
      (fun _ _ _ _ _ => trivial) fuel x r trivial hr
    rcases hP with ⟨-, hc⟩ | ⟨y, -, -, hb, hy⟩ | ⟨y, -, -, -, ht, hy⟩
    · exact Or.inl hc
    · exact Or.inr (Or.inl ⟨y, hb, hy⟩)
    · exact Or.inr (Or.inr ⟨y, ht, hy⟩)
  · intro onTimeout lf x r hr
    exact drainLoop_exit onTimeout lf fuel x r hr

/-- A read that finds a page frame buffered and a reply in flight that arrives
after 150 ms. -/
theorem reads_terminate_witness :
    (∃ r, readStr 12048 [116]
      { initial with rx := pageFrame 3, wire := (strReply [97]).map fun b => (150, b) } = some r) ∧
    (∃ r, readNum 12048 [110]
      { initial with rx := pageFrame 3, wire := (strReply [97]).map fun b => (150, b) } = some r) ∧
    (∃ r, listen 12048
      { initial with rx := pageFrame 3, wire := (strReply [97]).map fun b => (150, b) } = some r) :=
  ⟨(reads_terminate 12048 [116] [110]
      { initial with rx := pageFrame 3, wire := (strReply [97]).map fun b => (150, b) }
      (by decide)).1,
    (reads_terminate 12048 [116] [110]
      { initial with rx := pageFrame 3, wire := (strReply [97]).map fun b => (150, b) }
      (by decide)).2.1,
    (reads_terminate 12048 [116] [110]
      { initial with rx := pageFrame 3, wire := (strReply [97]).map fun b => (150, b) }
      (by decide)).2.2.1⟩

/-! ## The queue after `begin` -/

theorem flushLoop_queue :
    ∀ (fuel : Nat) (s r : Nextion), flushLoop fuel s = some r →
      r._cmdFifoHead = s._cmdFifoHead ∧ r._cmdFifoTail = s._cmdFifoTail ∧
        r._cmdFifo = s._cmdFifo := by
  intro fuel
  induction fuel with
  | zero =>
    intro s r h
    unfold flushLoop at h
    by_cases h0 : available s > 0
    · rw [if_pos h0] at h
      exact absurd h (by simp)
    · rw [if_neg h0] at h
      have hr := (Option.some.inj h).symm
      subst hr
      exact ⟨rfl, rfl, rfl⟩
  | succ n ih =>
    intro s r h
    unfold flushLoop at h
    by_cases h0 : available s > 0
    · rw [if_pos h0] at h
      by_cases ht : elapsed (millis s).1 (millis s).2._tmr1 > 400
      · simp only [if_pos ht] at h
        have hr := (Option.some.inj h).symm
        subst hr
        exact ⟨rfl, rfl, rfl⟩
      · simp only [if_neg ht] at h
        exact ih (read (millis s).2).2 r h
    · rw [if_neg h0] at h
      have hr := (Option.some.inj h).symm
      subst hr
      exact ⟨rfl, rfl, rfl⟩

/-- When `begin` returns, head and tail of the argument queue are at 0 and the
words of the array are those from before the call. -/
theorem begin_queue (fuel baud : Nat) (s r : Nextion) (h : begin fuel baud s = some r) :
    r._cmdFifoHead = 0 ∧ r._cmdFifoTail = 0 ∧ r._cmdFifo = s._cmdFifo := by
  obtain ⟨h1, h2, h3⟩ := flushLoop_queue fuel _ r h
  exact ⟨h1, h2, h3⟩

/-- The argument queue inside the array: from the state `s` in which `begin`
returns, `k ≤ 16` calls of `pushCmdArg` leave the head at `k` (which is `k mod 17`) and the tail at 0,
with the arguments in the words 0 to `k - 1` of the array in push order; and
every state that calls of `pushCmdArg` and `sendCmd` reach from `s` with all
their stores and loads inside the array has head and tail at most 16. -/
theorem queue_boundary (fuel baud : Nat) (s0 s : Nextion) (args : List Nat) (calls : List Call)
    (hbegin : begin fuel baud s0 = some s) (hlen : s._cmdFifo.length = 16)
    (hk : args.length ≤ 16) :
    (∃ r, pushArgs args s = some r ∧ r._cmdFifoHead.val = args.length % 17 ∧
      r._cmdFifoTail = 0 ∧
      ∀ i, i < args.length → r._cmdFifo.getD i 0 = args.getD i 0 % ULONG) ∧
    ∀ r, run calls s = some r → r._cmdFifoHead.val ≤ 16 ∧ r._cmdFifoTail.val ≤ 16 := by
  obtain ⟨h1, h2, -⟩ := begin_queue fuel baud s0 s hbegin
  exact boundary_from_zero args calls s hk h1 h2 hlen

/-- Three pushes, and a run of pushes and sends, after `begin` on a silent
link. -/
theorem queue_boundary_witness :
    (∃ r, pushArgs [5, 6, 7] { initial with now := 101, _tmr1 := 101 } = some r ∧
      r._cmdFifoHead.val = 3 ∧ r._cmdFifoTail = 0 ∧
      ∀ i, i < 3 → r._cmdFifo.getD i 0 = [5, 6, 7].getD i 0 % ULONG) ∧
    (∀ r, run [Call.push 1, Call.push 2, Call.send [112], Call.push 3]
        { initial with now := 101, _tmr1 := 101 } = some r →
      r._cmdFifoHead.val ≤ 16 ∧ r._cmdFifoTail.val ≤ 16) ∧
    (run [Call.push 1, Call.push 2, Call.send [112], Call.push 3]
      { initial with now := 101, _tmr1 := 101 }).isSome = true :=
  ⟨(queue_boundary 0 9600 initial { initial with now := 101, _tmr1 := 101 } [5, 6, 7]
      [Call.push 1, Call.push 2, Call.send [112], Call.push 3] (by decide) rfl (by decide)).1,
    (queue_boundary 0 9600 initial { initial with now := 101, _tmr1 := 101 } [5, 6, 7]
      [Call.push 1, Call.push 2, Call.send [112], Call.push 3] (by decide) rfl (by decide)).2,
    by decide⟩

/-- C19 (generic command encoding): from the state `s` in which `begin`
returns, pushing the arguments `args` (at most 16 of them, each an `uint32_t`)
and calling `sendCmd(c)` appends to the output exactly the bytes of `c`, then,
when there is an argument, one space and the decimal renderings of the arguments
in push order separated by single commas, then three 0xFF bytes; with no
argument it appends `c` and the three 0xFF bytes. -/
theorem generic_command_encoding (fuel baud : Nat) (s0 s : Nextion) (c : List Byte)
    (args : List Nat) (hbegin : begin fuel baud s0 = some s) (hlen : s._cmdFifo.length = 16)
    (hk : args.length ≤ 16) (hargs : ∀ a ∈ args, a < ULONG) :
    ∃ s1 r, pushArgs args s = some s1 ∧ sendCmd c s1 = some r ∧
      r.tx = s.tx ++ c ++
        (if args = [] then [] else 32 :: List.intercalate [44] (args.map decimal)) ++
        [255, 255, 255] := by
  obtain ⟨h1, h2, -⟩ := begin_queue fuel baud s0 s hbegin
  exact encoding_from_zero c args s hk hargs h1 h2 hlen

/-- The command `page` with the three arguments 1, 23, 456 and the command
`page` with none, after `begin` on a silent link. -/
theorem generic_command_encoding_witness :
    (∃ s1 r, pushArgs [1, 23, 456] { initial with now := 101, _tmr1 := 101 } = some s1 ∧
      sendCmd [112, 97, 103, 101] s1 = some r ∧
      r.tx = [112, 97, 103, 101, 32, 49, 44, 50, 51, 44, 52, 53, 54, 255, 255, 255]) ∧
    ∃ s1 r, pushArgs [] { initial with now := 101, _tmr1 := 101 } = some s1 ∧
      sendCmd [112, 97, 103, 101] s1 = some r ∧ r.tx = [112, 97, 103, 101, 255, 255, 255] :=
  ⟨generic_command_encoding 0 9600 initial { initial with now := 101, _tmr1 := 101 }
      [112, 97, 103, 101] [1, 23, 456] (by decide) rfl (by decide) (by decide),
    generic_command_encoding 0 9600 initial { initial with now := 101, _tmr1 := 101 }
      [112, 97, 103, 101] [] (by decide) rfl (by decide) (by decide)⟩

/-- C17 (argument-queue boundary), evaluated: the index update of `pushCmdArg`
takes 15 to 16 and only 16 back to 0, so that after `begin` and 16 pushes the
head is at 16, while the array has its 16 words, with indices 0 to 15; the 17th
push stores at index 16, outside the array, and has no defined result: there is
no slot 16 for its argument and no state with the head back at 0 follows. -/
theorem seventeenth_push_outside :
    advance 15 = 16 ∧ advance 16 = 0 ∧
      ((begin 0 9600 initial).bind (pushArgs (List.replicate 16 7))).map
        (fun r => (r._cmdFifoHead, r._cmdFifoTail, r._cmdFifo.length)) = some (16, 0, 16) ∧
      (begin 0 9600 initial).bind (pushArgs (List.replicate 17 7)) = none := by
  refine ⟨?_, ?_, ?_, ?_⟩ <;> decide

/-- C18 (overflow overwrites the oldest), evaluated: with the sixteen arguments
1 to 16 pushed after `begin` the head is at 16, the tail at 0 and the
array full; one more push stores at index 16, outside the array, and has no
defined result, instead of replacing the oldest argument in the word at the
tail index. -/
theorem overflow_push_outside :
    ((begin 0 9600 initial).bind (pushArgs sixteenArgs)).map
        (fun r => (r._cmdFifoHead, r._cmdFifoTail, r._cmdFifo)) = some (16, 0, sixteenArgs) ∧
      ((begin 0 9600 initial).bind (pushArgs sixteenArgs)).bind (pushCmdArg 99) = none := by
  constructor <;> decide

/-! ## A reply that is too short -/

/-- C25 (readNum succeeds only on a complete reply), evaluated: for the eight
bytes noise, `0x71`, 1, 2, 3, 4, `0xFF`, `0xFF` the call `readNum` returns
`0x04030201`, the third terminator byte being the result of a read of the empty
buffer; for seven noise bytes and a bare `0x71` it returns `0xFFFFFFFF`, all four
value bytes and all three terminator bytes being such reads. -/
theorem short_reply_accepted :
    (readNum 20 [110] shortReply).map (fun r => (r.1, stream r.2)) = some (67305985, []) ∧
      (readNum 20 [110] bareMarker).map (fun r => (r.1, stream r.2)) =
        some (4294967295, []) := by
  constructor <;> decide!

/-! ## Two batches of arguments -/

/-- With head and tail inside the array and the tail not past the head,
`sendCmd` returns, leaves the head where it was and moves the tail up to it. -/
theorem sendArgs_upto (n : Nat) :
    ∀ (x : Nat) (s : Nextion), s._cmdFifoTail.val + n ≤ 16 →
      ∃ r, sendArgs n x s = some r ∧ r._cmdFifoTail.val = s._cmdFifoTail.val + n ∧
        r._cmdFifoHead = s._cmdFifoHead := by
  induction n with
  | zero => intro x s _; exact ⟨s, rfl, rfl, rfl⟩
  | succ n ih =>
    intro x s h
    have h16 : s._cmdFifoTail.val < 16 := by omega
    obtain ⟨-, f2, f3, -⟩ := printArg_fields x s
    have hv := advance_val s._cmdFifoTail h16
    obtain ⟨r, hr, e1, e2⟩ := ih (x + 1) (printArg x s) (by rw [f2, hv]; omega)
    refine ⟨r, ?_, by rw [e1, f2, hv]; omega, by rw [e2, f3]⟩
    simp only [sendArgs, if_pos h16]
    exact hr

theorem sendCmd_empties (c : List Byte) (s : Nextion)
    (h1 : s._cmdFifoTail.val ≤ s._cmdFifoHead.val) (h2 : s._cmdFifoHead.val ≤ 16) :
    ∃ r, sendCmd c s = some r ∧ r._cmdFifoTail.val = r._cmdFifoHead.val ∧
      r._cmdFifoHead = s._cmdFifoHead := by
  have hcount : argCount s = s._cmdFifoHead.val - s._cmdFifoTail.val := by
    have : ¬ s._cmdFifoHead.val < s._cmdFifoTail.val := by omega
    rw [argCount, if_neg this]
    omega
  by_cases hc : argCount s > 0
  · obtain ⟨r, hr, e1, e2⟩ := sendArgs_upto (argCount s) 0
      (print [32] (print c (setComponent c s)))
      (by show s._cmdFifoTail.val + argCount s ≤ 16; omega)
    refine ⟨print TERM r, by simp only [sendCmd, if_pos hc, hr, Option.map], ?_, e2⟩
    show r._cmdFifoTail.val = r._cmdFifoHead.val
    rw [e1, e2]
    show s._cmdFifoTail.val + argCount s = s._cmdFifoHead.val
    omega
  · refine ⟨print TERM (print c (setComponent c s)),
      by simp only [sendCmd, if_neg hc, Option.map], ?_, rfl⟩
    show s._cmdFifoTail.val = s._cmdFifoHead.val
    omega

/-- C24 (sendCmd empties the argument queue), evaluated: after `begin`, ten
pushes, `sendCmd`, six pushes and `sendCmd` leave head and tail at 16, with
every argument sent once; with eight pushes in the second batch the seventh of
them is made with the head at 16 and stores outside the array, so that the run
has no defined result. -/
theorem second_batch_outside :
    ((begin 0 9600 initial).bind (run (twoBatches 6))).map
        (fun r => (r._cmdFifoHead, r._cmdFifoTail, r.tx)) =
        some (16, 16, [112, 32, 49, 44, 49, 44, 49, 44, 49, 44, 49, 44, 49, 44, 49, 44, 49, 44,
          49, 44, 49, 255, 255, 255, 112, 32, 50, 44, 50, 44, 50, 44, 50, 44, 50, 44, 50, 255,
          255, 255]) ∧
      (begin 0 9600 initial).bind (run (twoBatches 8)) = none := by
  constructor <;> decide

/-! ## A marker search that skips buffered bytes -/

theorem pollTime_congr : ∀ (k : Nat) (x y : Nextion), x.now = y.now → x.ticks = y.ticks →
    pollTime x k = pollTime y k := by
  intro k
  induction k with
  | zero => intro x y h1 _; exact h1
  | succ k ih =>
    intro x y h1 h2
    exact ih (millis x).2 (millis y).2 (by simp [h1, h2]) (by simp [h2])

theorem pollTime_le_succ : ∀ (k : Nat) (x : Nextion), pollTime x k ≤ pollTime x (k + 1) := by
  intro k
  induction k with
  | zero => intro x; simp [pollTime]
  | succ k ih => intro x; exact ih (millis x).2

theorem pollTime_mono (x : Nextion) {j k : Nat} (h : j ≤ k) : pollTime x j ≤ pollTime x k := by
  induction k with
  | zero =>
    have : j = 0 := by omega
    rw [this]
  | succ k ih =>
    rcases Nat.lt_or_ge j (k + 1) with h1 | h1
    · exact (ih (by omega)).trans (pollTime_le_succ k x)
    · have : j = k + 1 := by omega
      rw [this]

theorem pollTime_ticks : ∀ (k : Nat) (x : Nextion) (B : Nat), 1 ≤ B → (∀ t ∈ x.ticks, t ≤ B) →
    pollTime x k ≤ x.now + k * B := by
  intro k
  induction k with
  | zero => intro x B _ _; simp [pollTime]
  | succ k ih =>
    intro x B hB h
    have h1 := ih (millis x).2 B hB (fun t ht => h t (millis_ticks_mem x t ht))
    have h2 := headD_le_of_forall x.ticks B hB h
    simp only [pollTime]
    simp only [millis_snd_now] at h1
    rw [Nat.add_mul]
    omega

/-- The search for the marker `m` in a buffer that holds the bytes `pre`, none of
them `m`, then `m`, with nothing in flight and the polls of the search inside its
100 ms: the loop reads the bytes of `pre` and the marker, one poll of the clock
after each, and changes nothing else. -/
theorem seek_skips (m : Byte) (body : Nextion → Nextion × Bool) (onTimeout : Nextion → Nextion)
    (hbody : ∀ x, x.rx ≠ [] → body x = (readStartChar x, false)) (pre : List Byte) :
    ∀ (fuel : Nat) (x : Nextion) (rest : List Byte) (T : Nat), x.rx = pre ++ m :: rest →
      m ∉ pre → x._start_char ≠ m → x.wire = [] → x._tmr1 = T % ULONG → T ≤ x.now →
      pollTime x (pre.length + 1) ≤ T + 100 → pre.length + 1 ≤ fuel →
      ∃ r, pollLoop (fun y => y._start_char != m) body 100 onTimeout fuel x = some r ∧
        r.rx = rest ∧ r.wire = [] ∧ r._start_char = m ∧
        r.now = pollTime x (pre.length + 1) ∧ r.ticks = x.ticks.drop (pre.length + 1) ∧
        r._tmr1 = x._tmr1 ∧ observed r = observed x ∧
        r._endOfCommandFound = x._endOfCommandFound := by
  induction pre with
  | nil =>
    intro fuel x rest T hrx _ hsc hwire htmr hT htime hfuel
    obtain ⟨f, rfl⟩ : ∃ f, fuel = f + 1 := ⟨fuel - 1, by simp at hfuel; omega⟩
    have hne : x.rx ≠ [] := by rw [hrx]; simp
    have hcond : (fun y : Nextion => y._start_char != m) x = true := by simpa using hsc
    obtain ⟨w1, w2⟩ := millis_wire_nil (readStartChar x) (by simpa using hwire)
    have hnow : (millis (readStartChar x)).2.now = pollTime x 1 := rfl
    have hN : pollTime x 1 ≤ T + 100 := by simpa using htime
    have hTN : T ≤ pollTime x 1 := hT.trans (pollTime_mono x (Nat.zero_le 1))
    have hle : T ≤ (millis (readStartChar x)).2.now := hTN
    have hel : ¬ elapsed (millis (readStartChar x)).1 (millis (readStartChar x)).2._tmr1 > 100 := by
      have e1 : (millis (readStartChar x)).1 = pollTime x 1 % ULONG := rfl
      have e2 : (millis (readStartChar x)).2._tmr1 = T % ULONG := htmr
      rw [e1, e2, elapsed_eq hTN (by unfold ULONG; omega)]
      omega
    have hsc' : (millis (readStartChar x)).2._start_char = m := by
      simp [hrx, toByte_val]
    refine ⟨(millis (readStartChar x)).2, ?_, ?_, w2, hsc', rfl, ?_, rfl, rfl, rfl⟩
    · unfold pollLoop
      rw [if_pos hcond, hbody x hne]
      simp only [Bool.false_eq_true, if_false, if_neg hel]
      exact pollLoop_done (by simpa using hsc') f
    · rw [w1]; simp [hrx]
    · simp
  | cons b pre ih =>
    intro fuel x rest T hrx hm hsc hwire htmr hT htime hfuel
    obtain ⟨f, rfl⟩ : ∃ f, fuel = f + 1 := ⟨fuel - 1, by omega⟩
    have hne : x.rx ≠ [] := by rw [hrx]; simp
    have hb : b ≠ m := fun h => hm (by simp [h])
    have hcond : (fun y : Nextion => y._start_char != m) x = true := by simpa using hsc
    obtain ⟨w1, w2⟩ := millis_wire_nil (readStartChar x) (by simpa using hwire)
    have hnow : (millis (readStartChar x)).2.now = pollTime x 1 := rfl
    have hmono : pollTime x 1 ≤ pollTime x ((b :: pre).length + 1) :=
      pollTime_mono x (by simp)
    have hN : pollTime x 1 ≤ T + 100 := hmono.trans htime
    have hTN : T ≤ pollTime x 1 := hT.trans (pollTime_mono x (Nat.zero_le 1))
    have hle : T ≤ (millis (readStartChar x)).2.now := hTN
    have hel : ¬ elapsed (millis (readStartChar x)).1 (millis (readStartChar x)).2._tmr1 > 100 := by
      have e1 : (millis (readStartChar x)).1 = pollTime x 1 % ULONG := rfl
      have e2 : (millis (readStartChar x)).2._tmr1 = T % ULONG := htmr
      rw [e1, e2, elapsed_eq hTN (by unfold ULONG; omega)]
      omega
    have hpt : ∀ k, pollTime (millis (readStartChar x)).2 k = pollTime x (k + 1) :=
      fun k => pollTime_congr k (millis (readStartChar x)).2 (millis x).2 rfl rfl
    obtain ⟨r, hr, g1, g2, g3, g4, g5, g6, g7, g8⟩ := ih f (millis (readStartChar x)).2 rest T
      (by rw [w1]; simp [hrx]) (fun h => hm (List.mem_cons_of_mem b h))
      (by simp [hrx, toByte_val, hb]) w2 htmr hle
      (by rw [hpt]; exact htime) (by simp only [List.length_cons] at hfuel; omega)
    refine ⟨r, ?_, g1, g2, g3, ?_, ?_, g6, g7, g8⟩
    · unfold pollLoop
      rw [if_pos hcond, hbody x hne]
      simp only [Bool.false_eq_true, if_false, if_neg hel]
      exact hr
    · rw [g4, hpt]; rfl
    · rw [g5]; simp

theorem listen_sought (fuel : Nat) (s s2 : Nextion) (L : Byte) (tl : List Byte)
    (h0 : available s > 2)
    (hseek : pollLoop (fun x => x._start_char != 35) (fun x => (readStartChar x, false)) 100 id
      fuel (startTimer (readStartChar s)) = some s2)
    (hc : s2._start_char = 35) (hrx : s2.rx = L :: tl) (hL : L.val ≤ tl.length) :
    listen fuel s = some (dispatch s2) := by
  simp only [listen, if_pos h0, hseek, Option.bind, if_pos hc]
  rw [pollLoop_done]
  · rfl
  · simp [available, hrx, toByte_val]
    omega

theorem dispatch_frame (f : Frame) (hwf : f.wellFormed = true) (y : Nextion) (rest : List Byte)
    (hy : 35 :: y.rx = f.bytes ++ rest) (hw : y.wire = []) :
    (dispatch y).rx = rest ∧ (dispatch y).wire = [] ∧
      observed (dispatch y) = applyFrame f (observed y) := by
  cases f with
  | page id =>
    have hrx : y.rx = 2 :: 80 :: id :: rest := by simpa [Frame.bytes] using hy
    refine ⟨?_, ?_, ?_⟩ <;>
      simp [dispatch, observed, applyFrame, readCommand, hrx, hw, toByte_val]
  | trigger id =>
    have hrx : y.rx = 2 :: 84 :: id :: rest := by simpa [Frame.bytes] using hy
    refine ⟨?_, ?_, ?_⟩ <;>
      simp [dispatch, observed, applyFrame, readCommand, hrx, hw, toByte_val]
  | custom g =>
    have hrx : y.rx = 1 :: g :: rest := by simpa [Frame.bytes] using hy
    have hg : g ≠ 80 ∧ g ≠ 84 := by simpa [Frame.wellFormed] using hwf
    have h1 : (readCmd1 (setCmdFound true (startTimer (readLen y))))._cmd1 = g := by
      simp [hrx, toByte_val]
    have hc : ∀ z : Nextion, z._cmd1 = g →
        readCommand z = { z with _cmdGroup := g, _cmdLength := z._len, _cmdAvail := true } := by
      intro z hz
      simp [readCommand, hz, hg.1, hg.2]
    rw [dispatch, hc _ h1]
    refine ⟨?_, ?_, ?_⟩
    · simp [hrx, hw]
    · simp [hrx, hw]
    · simp [observed, applyFrame, hrx, hw, toByte_val]
      decide

theorem produced_of_applyFrame (f : Frame) (s r : Nextion)
    (h : observed r = applyFrame f (observed s)) : Produced f s r = true := by
  cases f <;> simp only [observed, applyFrame, Prod.mk.injEq] at h <;>
    simp [Produced, h]

theorem frame_bytes_cons (f : Frame) :
    ∃ L tl, f.bytes = 35 :: L :: tl ∧ L.val ≤ tl.length ∧ 0 < tl.length := by
  cases f with
  | page id => exact ⟨2, [80, id], rfl, by simp, by simp⟩
  | trigger id => exact ⟨2, [84, id], rfl, by simp, by simp⟩
  | custom g => exact ⟨1, [g], rfl, by simp, by simp⟩

/-- C21 (marker search skips noise): when the buffer holds a non-empty list of
noise bytes, none of them `#`, then a complete well-formed frame (page
`# 2 P id`, trigger `# 2 T id`, or custom `# 1 g`), with nothing in flight, and
the polls of the search stay within 100 ms of its first one, one call of
`listen` removes the noise and the frame from the buffer, produces the event of
the frame, and leaves the page ids and the pending command exactly as the call
on the same state without the noise does. -/
theorem noise_before_frame (fuel : Nat) (s : Nextion) (noise : List Byte) (f : Frame)
    (rest : List Byte) (hwf : f.wellFormed = true) (hne : noise ≠ [])
    (hnoise : (35 : Byte) ∉ noise) (hrx : s.rx = noise ++ f.bytes ++ rest) (hwire : s.wire = [])
    (hbudget : pollTime s (noise.length + 1) ≤ pollTime s 1 + 100)
    (hfuel : noise.length ≤ fuel) :
    ∃ r r0, listen fuel s = some r ∧ listen fuel { s with rx := f.bytes ++ rest } = some r0 ∧
      r.rx = rest ∧ r.wire = [] ∧ Produced f s r = true ∧ observed r = observed r0 := by
  obtain ⟨L, tl, hf, hL, htl⟩ := frame_bytes_cons f
  obtain ⟨b, pre, rfl⟩ := List.exists_cons_of_ne_nil hne
  have hb : b ≠ 35 := fun h => hnoise (by simp [h])
  have h0 : available s > 2 := by
    simp [available, hrx, hf]
    omega
  obtain ⟨w1, w2⟩ := millis_wire_nil (readStartChar s) (by simpa using hwire)
  have hpt : ∀ k, pollTime (startTimer (readStartChar s)) k = pollTime s (k + 1) :=
    fun k => pollTime_congr k (startTimer (readStartChar s)) (millis s).2 rfl rfl
  obtain ⟨s2, hseek, g1, g2, g3, -, -, -, g7, -⟩ := seek_skips 35
    (fun x => (readStartChar x, false)) id (fun _ _ => rfl) pre fuel
    (startTimer (readStartChar s)) (L :: tl ++ rest) (pollTime s 1)
    (by
      show (millis (readStartChar s)).2.rx = _
      rw [w1]; simp [hrx, hf])
    (fun h => hnoise (List.mem_cons_of_mem b h))
    (by simp [hrx, toByte_val, hb]) w2 rfl (le_refl _)
    (by rw [hpt]; simpa using hbudget) (by simpa using hfuel)
  have hobs : observed s2 = observed s := g7
  obtain ⟨d1, d2, d3⟩ := dispatch_frame f hwf s2 rest (by rw [g1, hf]; simp) g2
  have hr := listen_sought fuel s s2 L (tl ++ rest) h0 hseek g3 (by simpa using g1)
    (by simp; omega)
  -- the same frame without the noise
  have h0' : available { s with rx := f.bytes ++ rest } > 2 := by
    simp [available, hf]
    omega
  obtain ⟨v1, v2⟩ := millis_wire_nil (readStartChar { s with rx := f.bytes ++ rest })
    (by simpa using hwire)
  have hsc : (startTimer (readStartChar { s with rx := f.bytes ++ rest }))._start_char = 35 := by
    simp [hf, toByte_val]
  have hrx0 : (startTimer (readStartChar { s with rx := f.bytes ++ rest })).rx =
      L :: tl ++ rest := by
    show (millis (readStartChar { s with rx := f.bytes ++ rest })).2.rx = _
    rw [v1]; simp [hf]
  obtain ⟨c1, c2, c3⟩ := dispatch_frame f hwf
    (startTimer (readStartChar { s with rx := f.bytes ++ rest })) rest
    (by rw [hrx0, hf]; simp) v2
  have hr0 := listen_sought fuel { s with rx := f.bytes ++ rest }
    (startTimer (readStartChar { s with rx := f.bytes ++ rest })) L (tl ++ rest) h0'
    (pollLoop_done (by simpa using hsc) fuel) hsc (by simpa using hrx0) (by simp; omega)
  refine ⟨_, _, hr, hr0, d1, d2, produced_of_applyFrame f s _ (by rw [d3, hobs]), ?_⟩
  rw [d3, c3, hobs]
  rfl

/-- Three noise bytes before the page frame `# 2 P 7`, from the initial state
with the current page at 1. -/
theorem noise_before_frame_witness :
    ∃ r r0, listen 3 { initial with _currentPageId := 1, rx := [1, 2, 3, 35, 2, 80, 7] } = some r ∧
      listen 3 { ({ initial with _currentPageId := 1, rx := [1, 2, 3, 35, 2, 80, 7] } : Nextion)
        with rx := (Frame.page 7).bytes ++ [] } = some r0 ∧
      r.rx = [] ∧ r.wire = [] ∧
      Produced (Frame.page 7)
        { initial with _currentPageId := 1, rx := [1, 2, 3, 35, 2, 80, 7] } r = true ∧
      observed r = observed r0 :=
  noise_before_frame 3 { initial with _currentPageId := 1, rx := [1, 2, 3, 35, 2, 80, 7] }
    [1, 2, 3] (Frame.page 7) [] (by decide) (by decide) (by decide) rfl rfl (by decide)
    (by decide)

/-! ## What a read leaves of the page ids and of the pending command -/

theorem pollLoop_observed (cond : Nextion → Bool) (body : Nextion → Nextion × Bool) (budget : Nat)
    (onTimeout : Nextion → Nextion) (hbody : ∀ x, observed (body x).1 = observed x)
    (hon : ∀ x, observed (onTimeout x) = observed x) (fuel : Nat) (s r : Nextion)
    (hr : pollLoop cond body budget onTimeout fuel s = some r) : observed r = observed s := by
  have hm : ∀ x, observed x = observed s → observed (millis (body x).1).2 = observed s :=
    fun x hx => (hbody x).trans hx
  have hP := pollLoop_inv cond body budget onTimeout (fun x => observed x = observed s)
    (fun x hx _ _ _ => hm x hx) fuel s r rfl hr
  rcases hP with ⟨h, -⟩ | ⟨x, hx, -, -, rfl⟩ | ⟨x, hx, -, -, -, rfl⟩
  · exact h
  · exact (hbody x).trans hx
  · exact (hon _).trans (hm x hx)

theorem readStartCharIfAvailable_observed (x : Nextion) :
    observed (readStartCharIfAvailable x) = observed x := by
  unfold readStartCharIfAvailable
  split_ifs <;> rfl

theorem countTerminator_observed (x : Nextion) : observed (countTerminator x) = observed x := by
  unfold countTerminator
  split_ifs <;> rfl

theorem numStep_observed (x : Nextion) : observed (numStep x).1 = observed x := by
  unfold numStep
  split_ifs
  · exact countTerminator_observed _
  · rfl

theorem strStep_observed (x : Nextion) : observed (strStep x) = observed x := by
  unfold strStep
  split_ifs
  · exact countTerminator_observed _
  · rfl
  · rfl

theorem readNumParse_observed (fuel : Nat) (s3 r : Nextion) (h : readNumParse fuel s3 = some r) :
    observed r = observed s3 := by
  unfold readNumParse at h
  split_ifs at h with h0
  · simp only [Option.bind_eq_some] at h
    obtain ⟨s5, h5, h⟩ := h
    have o5 := pollLoop_observed _ _ _ setFail (fun x => readStartCharIfAvailable_observed x)
      (fun _ => rfl) fuel _ s5 h5
    split_ifs at h
    · have o7 := pollLoop_observed _ _ _ setFail numStep_observed (fun _ => rfl) fuel _ r h
      exact o7.trans o5
    · rw [← Option.some.inj h]
      exact o5
  · rw [← Option.some.inj h]

theorem readNumResult_observed (x : Nextion) : observed (readNumResult x) = observed x := by
  unfold readNumResult
  split_ifs <;> rfl

/-- The part of `readNum` after the drain changes neither the page ids nor the
pending command, whatever arrives. -/
theorem readNumReply_observed (fuel : Nat) (a r : Nextion) (v : Nat)
    (h : readNumReply fuel a = some (v, r)) : observed r = observed a := by
  simp only [readNumReply, Option.bind_eq_some] at h
  obtain ⟨s3, h3, s7, h7, h⟩ := h
  have o3 := pollLoop_observed _ _ _ setFail (fun _ => rfl) (fun _ => rfl) fuel _ s3 h3
  have o7 := readNumParse_observed fuel s3 s7 h7
  have hr : readNumResult s7 = r := (Prod.mk.inj (Option.some.inj h)).2
  rw [← hr, readNumResult_observed, o7, o3]
  rfl

theorem readStrParse_observed (fuel : Nat) (s3 r : Nextion) (h : readStrParse fuel s3 = some r) :
    observed r = observed s3 := by
  unfold readStrParse at h
  split_ifs at h with h0
  · simp only [Option.bind_eq_some] at h
    obtain ⟨s5, h5, h⟩ := h
    have o5 := pollLoop_observed _ _ _ setError (fun x => readStartCharIfAvailable_observed x)
      (fun _ => rfl) fuel _ s5 h5
    split_ifs at h
    · have o7 := pollLoop_observed _ _ _ setError (fun x => strStep_observed x) (fun _ => rfl)
        fuel _ r h
      exact o7.trans o5
    · rw [← Option.some.inj h]
      exact o5
  · rw [← Option.some.inj h]

/-- The part of `readStr` after the drain changes neither the page ids nor the
pending command, whatever arrives. -/
theorem readStrReply_observed (fuel : Nat) (TextComponent : List Byte) (a r : Nextion)
    (v : List Byte) (h : readStrReply fuel TextComponent a = some (v, r)) :
    observed r = observed a := by
  simp only [readStrReply, Option.bind_eq_some] at h
  obtain ⟨s3, h3, s7, h7, h⟩ := h
  have o3 := pollLoop_observed _ _ _ setError (fun _ => rfl) (fun _ => rfl) fuel _ s3 h3
  have o7 := readStrParse_observed fuel s3 s7 h7
  have hr : s7 = r := (Prod.mk.inj (Option.some.inj h)).2
  rw [← hr, o7, o3]
  rfl
/-! ## A reply behind bytes that are not its marker -/

theorem numStep_count (x : Nextion) (h : (numStep x).2 = false) :
    (numStep x).1.rx = x.rx.tail ∧ (numStep x).1.wire = x.wire ∧
      (numStep x).1._endBytes = x._endBytes + 1 ∧
      (numStep x).1._endOfCommandFound =
        (if x._endBytes + 1 = 3 then true else x._endOfCommandFound) := by
  obtain ⟨h1, h2, h3, h4, -⟩ := countTerminator_fields (readTempChar x)
  by_cases hc : (readTempChar x)._tempChar = 255
  · have e : numStep x = (countTerminator (readTempChar x), false) := by
      rw [numStep, if_pos hc]
    rw [e]
    exact ⟨by rw [h1]; rfl, by rw [h2]; rfl, by rw [h3]; rfl, by rw [h4]; rfl⟩
  · have e : numStep x = (setFail (readTempChar x), true) := by
      rw [numStep, if_neg hc]
    rw [e] at h
    exact absurd h (by simp)

theorem numStep_break (x : Nextion) (h : (numStep x).2 = true) :
    (numStep x).1._endOfCommandFound = x._endOfCommandFound := by
  by_cases hc : (readTempChar x)._tempChar = 255
  · have e : numStep x = (countTerminator (readTempChar x), false) := by
      rw [numStep, if_pos hc]
    rw [e] at h
    exact absurd h (by simp)
  · have e : numStep x = (setFail (readTempChar x), true) := by
      rw [numStep, if_neg hc]
    rw [e]
    rfl

/-- When the terminator loop of `readNum` starts with at most three bytes
buffered and nothing in flight and ends with the terminator found, it has read
all of them. -/
theorem terminator_drains (fuel : Nat) (s6 r : Nextion) (hrx : s6.rx.length ≤ 3)
    (hwire : s6.wire = []) (hend : s6._endBytes = 0) (hfound : s6._endOfCommandFound = false)
    (hr : pollLoop (fun x => x._endOfCommandFound == false) numStep 1000 setFail fuel s6 = some r)
    (hr' : r._endOfCommandFound = true) : r.rx = [] ∧ r.wire = [] := by
  have hm : ∀ x, (x.wire = [] ∧ x.rx.length + x._endBytes ≤ 3 ∧
      (x._endOfCommandFound = true → x._endBytes = 3) ∧
      (x._endOfCommandFound = false → x._endBytes < 3)) →
      x._endOfCommandFound = false → (numStep x).2 = false →
      (millis (numStep x).1).2.wire = [] ∧
      (millis (numStep x).1).2.rx.length + (millis (numStep x).1).2._endBytes ≤ 3 ∧
      ((millis (numStep x).1).2._endOfCommandFound = true →
        (millis (numStep x).1).2._endBytes = 3) ∧
      ((millis (numStep x).1).2._endOfCommandFound = false →
        (millis (numStep x).1).2._endBytes < 3) := by
    rintro x ⟨k1, k2, -, k4⟩ hc hb
    obtain ⟨n1, n2, n3, n4⟩ := numStep_count x hb
    obtain ⟨w1, w2⟩ := millis_wire_nil (numStep x).1 (by rw [n2, k1])
    have hlt := k4 hc
    have e3 : (millis (numStep x).1).2._endBytes = x._endBytes + 1 := n3
    have e4 : (millis (numStep x).1).2._endOfCommandFound =
        (if x._endBytes + 1 = 3 then true else x._endOfCommandFound) := n4
    refine ⟨w2, ?_, ?_, ?_⟩
    · rw [w1, n1, e3, List.length_tail]
      omega
    · intro h
      rw [e4] at h
      rw [e3]
      by_cases h3 : x._endBytes + 1 = 3
      · exact h3
      · rw [if_neg h3, hc] at h
        exact absurd h (by decide)
    · intro h
      rw [e4] at h
      rw [e3]
      by_cases h3 : x._endBytes + 1 = 3
      · rw [if_pos h3] at h
        exact absurd h (by decide)
      · omega
  have hP := pollLoop_inv (fun x => x._endOfCommandFound == false) numStep 1000 setFail
    (fun x => x.wire = [] ∧ x.rx.length + x._endBytes ≤ 3 ∧
      (x._endOfCommandFound = true → x._endBytes = 3) ∧
      (x._endOfCommandFound = false → x._endBytes < 3))
    (fun x hx hc hb _ => hm x hx (by simpa using hc) hb) fuel s6 r
    ⟨hwire, by rw [hend]; exact hrx, fun h => by rw [hfound] at h; exact absurd h (by decide),
      fun _ => by rw [hend]; decide⟩ hr
  rcases hP with ⟨⟨k1, k2, k3, -⟩, -⟩ | ⟨x, -, hc, hb, rfl⟩ | ⟨x, hx, hc, hb, -, rfl⟩
  · have := k3 hr'
    exact ⟨List.eq_nil_of_length_eq_zero (by omega), k1⟩
  · rw [numStep_break x hb] at hr'
    simp [hr'] at hc
  · obtain ⟨m1, m2, m3, -⟩ := hm x hx (by simpa using hc) hb
    have := m3 hr'
    exact ⟨List.eq_nil_of_length_eq_zero (by
      show (millis (numStep x).1).2.rx.length = 0
      omega), m1⟩

theorem dueBy_fresh (x : Nextion) (h : ∀ e ∈ x.wire.head?, x.now < e.1) :
    dueBy x x.now = x.rx.length := by
  have := takeWhile_dropWhile_of_head (fun e : Nat × Byte => decide (e.1 ≤ x.now)) x.wire
    (by intro e he; have := h e he; simp; omega)
  simp [dueBy, this.1]

/-- When all bytes have arrived by the time `n` of them have, and they arrive
within the 400 ms of the response wait, the wait ends with all of them
buffered. -/
theorem wait_all_arrived (n fuel : Nat) (onTimeout : Nextion → Nextion) (s2 r : Nextion)
    (B : Nat)
    (hon : ∀ x, (onTimeout x).rx = x.rx ∧ (onTimeout x).wire = x.wire ∧
      (onTimeout x).now = x.now)
    (hn : n ≤ (stream s2).length) (htmr : s2._tmr1 = s2.now % ULONG)
    (hdue : ∀ e ∈ s2.wire, e.1 ≤ s2.now + 400)
    (hfresh : ∀ e ∈ s2.wire.head?, s2.now < e.1)
    (hticks : ∀ t ∈ s2.ticks, t ≤ B) (hB : 1 ≤ B) (hB' : B + 400 < ULONG)
    (hall : ∀ D, s2.now ≤ D → n ≤ dueBy s2 D → dueBy s2 D = (stream s2).length)
    (hr : pollLoop (fun x => decide (available x < n)) (fun x => (x, false)) 400 onTimeout
        fuel s2 = some r) :
    r.rx = stream s2 ∧ r.wire = [] ∧ r.now ≤ s2.now + 400 + B := by
  obtain ⟨e1, e2, e3, -, e5⟩ := wait_reply_timely n fuel onTimeout s2 r B hon hn htmr hdue hfresh
    hticks hB hB' hr
  have hm : ∀ x, (stream x = stream s2 ∧ ∀ D, x.now ≤ D → dueBy x D = dueBy s2 D) →
      stream (millis x).2 = stream s2 ∧
      ∀ D, (millis x).2.now ≤ D → dueBy (millis x).2 D = dueBy s2 D := by
    rintro x ⟨k1, k2⟩
    refine ⟨by rw [stream_millis]; exact k1, fun D hD => ?_⟩
    rw [dueBy_millis x D hD]
    apply k2
    have : (millis x).2.now = x.now + x.ticks.head?.getD 1 := rfl
    omega
  have hP := pollLoop_inv (fun x => decide (available x < n)) (fun x => (x, false)) 400 onTimeout
    (fun x => stream x = stream s2 ∧ ∀ D, x.now ≤ D → dueBy x D = dueBy s2 D)
    (fun x hx _ _ _ => hm x hx) fuel s2 r ⟨rfl, fun _ _ => rfl⟩ hr
  have hfin : stream r = stream s2 ∧ ∀ D, r.now ≤ D → dueBy r D = dueBy s2 D := by
    rcases hP with ⟨h, -⟩ | ⟨x, hx, -, -, rfl⟩ | ⟨x, hx, -, -, -, rfl⟩
    · exact h
    · exact hx
    · obtain ⟨o1, o2, o3⟩ := hon (millis x).2
      obtain ⟨m1, m2⟩ := hm x hx
      refine ⟨?_, fun D hD => ?_⟩
      · rw [← m1]; simp [stream, o1, o2]
      · rw [← m2 D (by rw [← o3]; exact hD)]
        simp [dueBy, o1, o2]
  have h1 := dueBy_fresh r e5
  rw [hfin.2 r.now (le_refl _)] at h1
  have h2 := hall r.now e3 (by rw [h1]; exact e1)
  obtain ⟨g1, g2⟩ := rx_of_stream_full r (stream s2) hfin.1 (by rw [← h2, h1])
  exact ⟨g1, g2, e2⟩

/-- The marker search of `listen`, `readStr` and `readNum` from the first read
on, in a buffer that holds the bytes `pre`, none of them the marker `m`, then
`m`, with nothing in flight and the polls of the search inside its 100 ms. -/
theorem seek_from_entry (m : Byte) (body : Nextion → Nextion × Bool)
    (onTimeout : Nextion → Nextion)
    (hbody : ∀ x, x.rx ≠ [] → body x = (readStartChar x, false)) (pre : List Byte) (fuel : Nat)
    (s : Nextion) (rest : List Byte) (hrx : s.rx = pre ++ m :: rest) (hm : m ∉ pre)
    (hwire : s.wire = []) (htime : pollTime s (pre.length + 1) ≤ pollTime s 1 + 100)
    (hfuel : pre.length ≤ fuel) :
    ∃ s2, pollLoop (fun y => y._start_char != m) body 100 onTimeout fuel
        (startTimer (readStartChar s)) = some s2 ∧
      s2.rx = rest ∧ s2.wire = [] ∧ s2._start_char = m ∧
      s2.now = pollTime s (pre.length + 1) ∧ s2.ticks = s.ticks.drop (pre.length + 1) ∧
      observed s2 = observed s ∧ s2._endOfCommandFound = s._endOfCommandFound := by
  obtain ⟨w1, w2⟩ := millis_wire_nil (readStartChar s) (by simpa using hwire)
  have hrx1 : (startTimer (readStartChar s)).rx = (readStartChar s).rx := w1
  cases pre with
  | nil =>
    have hsc : (startTimer (readStartChar s))._start_char = m := by
      simp [hrx, toByte_val]
    refine ⟨_, pollLoop_done (by simpa using hsc) fuel, ?_, w2, hsc, rfl, ?_, rfl, rfl⟩
    · rw [hrx1]; simp [hrx]
    · simp
  | cons b pre =>
    have hb : b ≠ m := fun h => hm (by simp [h])
    have hpt : ∀ k, pollTime (startTimer (readStartChar s)) k = pollTime s (k + 1) :=
      fun k => pollTime_congr k (startTimer (readStartChar s)) (millis s).2 rfl rfl
    obtain ⟨s2, hseek, g1, g2, g3, g4, g5, -, g7, g8⟩ := seek_skips m body onTimeout hbody pre
      fuel (startTimer (readStartChar s)) rest (pollTime s 1)
      (by rw [hrx1]; simp [hrx])
      (fun h => hm (List.mem_cons_of_mem b h))
      (by simp [hrx, toByte_val, hb]) w2 rfl (le_refl _)
      (by rw [hpt]; simpa using htime) (by simpa using hfuel)
    refine ⟨s2, hseek, g1, g2, g3, ?_, ?_, g7, g8⟩
    · rw [g4, hpt]; rfl
    · rw [g5]; simp

theorem pollTime_from_first (s : Nextion) (k B : Nat) (hB : 1 ≤ B)
    (hticks : ∀ t ∈ s.ticks, t ≤ B) : pollTime s (k + 1) ≤ pollTime s 1 + k * B := by
  have := pollTime_ticks k (millis s).2 B hB (fun t ht => hticks t (millis_ticks_mem s t ht))
  exact this

/-- The parsing of `readNum` when the buffer holds bytes other than `0x71`
followed by a complete reply, with nothing in flight: the bytes before the
marker are read and dropped, and the reply is accepted. -/
theorem readNumParse_skips (fuel : Nat) (pre : List Byte) (v0 v1 v2 v3 : Byte) (B : Nat)
    (s3 : Nextion) (hrx : s3.rx = pre ++ [113, v0, v1, v2, v3, 255, 255, 255])
    (hpre : (113 : Byte) ∉ pre) (hwire : s3.wire = [])
    (hfound : s3._endOfCommandFound = false)
    (hticks : ∀ t ∈ s3.ticks, t ≤ B) (hB1 : 1 ≤ B) (hB : B ≤ 500) (hpreB : pre.length * B ≤ 100)
    (hfuel : s3.ticks.length + 1002 ≤ fuel) (hfuel' : pre.length ≤ fuel) :
    ∃ r, readNumParse fuel s3 = some r ∧ r._endOfCommandFound = true ∧
      r._numericBuffer = (v0, v1, v2, v3) ∧ r.rx = [] ∧ r.wire = [] := by
  have h0 : available s3 > 7 := by simp [available, hrx]
  obtain ⟨s5, h5, g1, g2, g3, -, g5, -, g8⟩ := seek_from_entry 113
    (fun x => (readStartCharIfAvailable x, false)) setFail
    (fun x hx => by
      have : available x ≠ 0 := by
        rw [available]; exact fun h => hx (List.eq_nil_of_length_eq_zero h)
      simp [readStartCharIfAvailable, this])
    pre fuel s3 [v0, v1, v2, v3, 255, 255, 255] (by simpa using hrx) hpre hwire
    (by have := pollTime_from_first s3 pre.length B hB1 hticks; omega) hfuel'
  simp only [readNumParse, if_pos h0, h5, Option.bind, if_pos g3]
  have htk : ∀ t ∈ s5.ticks, t ≤ B := by
    intro t ht
    rw [g5] at ht
    exact hticks t (List.mem_of_mem_drop ht)
  have hlen : s5.ticks.length ≤ s3.ticks.length := by
    rw [g5, List.length_drop]; omega
  have hbuf : Nextion._numericBuffer
      (startTimer (clearEndBytes (readNumericBuffer s5))) = (v0, v1, v2, v3) := by
    simp [g1, g2, toByte_val]
  have hrx6 : (startTimer (clearEndBytes (readNumericBuffer s5))).rx = [255, 255, 255] := by
    simp [g1, g2]
  have hw6 : (startTimer (clearEndBytes (readNumericBuffer s5))).wire = [] := by
    simp [g2]
  obtain ⟨r, hr, f1, f2⟩ := terminator_wellformed fuel
    (startTimer (clearEndBytes (readNumericBuffer s5))) hrx6 hw6 (by simp) rfl
    (fun t ht => (htk t (List.mem_of_mem_tail ht)).trans hB)
    (by
      have : (startTimer (clearEndBytes (readNumericBuffer s5))).ticks.length ≤
          s5.ticks.length := by simp
      omega)
  obtain ⟨d1, d2⟩ := terminator_drains fuel _ r (by rw [hrx6]; simp) hw6 (by simp)
    (by
      show s5._endOfCommandFound = false
      rw [g8, hfound]) hr f1
  exact ⟨r, hr, f1, by rw [f2, hbuf], d1, d2⟩

/-- The part of `readNum` after the drain, when bytes other than `0x71` and then
the complete reply for `V` arrive within the 400 ms of the response wait, all of
them buffered by the time eight are: the bytes before the marker are read and
dropped, the call returns `V` and leaves no byte. -/
theorem readNumReply_skips (fuel : Nat) (pre : List Byte) (V B : Nat) (a : Nextion)
    (hV : V < ULONG) (harx : a.rx = []) (hawire : a.wire.map Prod.snd = pre ++ numReply V)
    (hpre : (113 : Byte) ∉ pre) (hdue : ∀ e ∈ a.wire, e.1 ≤ pollTime a 1 + 400)
    (hall : ∀ D, 8 ≤ dueBy a D → dueBy a D = (stream a).length)
    (hfound : a._endOfCommandFound = false)
    (hticks : ∀ t ∈ a.ticks, t ≤ B) (hB1 : 1 ≤ B) (hB : B ≤ 500) (hpreB : pre.length * B ≤ 100)
    (hfuel : a.ticks.length + 1002 ≤ fuel) (hfuel' : pre.length ≤ fuel) :
    ∃ r, readNumReply fuel a = some (V, r) ∧ r.rx = [] ∧ r.wire = [] := by
  have hs2ticks : ∀ t ∈ (startTimer (print TERM (print a._comp (print GET a)))).ticks,
      t ≤ B := by
    intro t ht
    have h2 := millis_ticks_mem _ t ht
    exact hticks t h2
  have hs2len : (startTimer (print TERM (print a._comp (print GET a)))).ticks.length ≤
      a.ticks.length := millis_ticks_length (print TERM (print a._comp (print GET a)))
  obtain ⟨r3, h3, hs3, hf3, ht3⟩ := wait_reply 8 fuel setFail
    (startTimer (print TERM (print a._comp (print GET a))))
    (fun x => ⟨rfl, rfl, rfl, rfl⟩) (by omega)
  have hstream : stream (startTimer (print TERM (print a._comp (print GET a)))) =
      pre ++ numReply V := by
    rw [stream_startTimer]
    simp [stream, harx, hawire]
  have hstream' : stream a = pre ++ numReply V := by
    simp [stream, harx, hawire]
  obtain ⟨e1, e2, -⟩ := wait_all_arrived 8 fuel setFail
    (startTimer (print TERM (print a._comp (print GET a)))) r3 B
    (fun x => ⟨rfl, rfl, rfl⟩)
    (by rw [hstream]; simp [numReply, leBytes, TERM]) rfl
    (fun e he => hdue e (millis_wire_subset _ e he))
    (fun e he => millis_wire_fresh (print TERM (print a._comp (print GET a))) e he)
    hs2ticks hB1 (by unfold ULONG; omega)
    (by
      intro D hD h8
      have hd : dueBy (startTimer (print TERM (print a._comp (print GET a)))) D = dueBy a D :=
        dueBy_millis (print TERM (print a._comp (print GET a))) D hD
      rw [hd] at h8 ⊢
      rw [hall D h8, hstream, hstream'])
    h3
  rw [hstream] at e1
  have htk3 : ∀ t ∈ r3.ticks, t ≤ B := fun t ht => hs2ticks t (ht3.subset ht)
  obtain ⟨r7, h7, hf7, hb7, hx7, hw7⟩ := readNumParse_skips fuel pre (Fin.ofNat (V % 256))
    (Fin.ofNat (V / 256 % 256)) (Fin.ofNat (V / 65536 % 256)) (Fin.ofNat (V / 16777216 % 256)) B
    r3 (by rw [e1]; rfl) hpre e2 (by rw [hf3]; exact hfound) htk3 hB1 hB hpreB
    (by have := ht3.length_le; omega) hfuel'
  have hres : readNumResult r7 = { r7 with _numberValue := assemble r7._numericBuffer } := by
    simp only [readNumResult, hf7, if_true]
  have hval : (readNumResult r7)._numberValue = V := by
    rw [hres, hb7]
    exact assemble_leBytes V hV
  refine ⟨readNumResult r7, ?_, by rw [hres]; exact hx7, by rw [hres]; exact hw7⟩
  simp only [readNumReply, Option.bind, h3, h7, hval]
/-! ## A page frame that is buffered when a read starts -/

theorem millis_eq_pollQuiet (y : Nextion) (D : Nat) (hq : ∀ e ∈ y.wire, D < e.1)
    (hD : pollTime y 1 ≤ D) : (millis y).2 = pollQuiet y := by
  obtain ⟨h1, h2⟩ := millis_quiet y (fun e he => by
    have := hq e (List.mem_of_mem_head? he)
    have h : pollTime y 1 = y.now + y.ticks.head?.getD 1 := rfl
    omega)
  apply Nextion.ext <;> first | rfl | exact h1 | exact h2

theorem startTimer_eq_quiet (y : Nextion) (D : Nat) (hq : ∀ e ∈ y.wire, D < e.1)
    (hD : pollTime y 1 ≤ D) : startTimer y = startTimerQuiet y := by
  obtain ⟨h1, h2⟩ := millis_quiet y (fun e he => by
    have := hq e (List.mem_of_mem_head? he)
    have h : pollTime y 1 = y.now + y.ticks.head?.getD 1 := rfl
    omega)
  apply Nextion.ext <;> first | rfl | exact h1 | exact h2

/-- The drain of `readNum` with a page frame buffered and nothing arriving
during its four polls of the clock: the frame is dispatched by one call of
`listen` and the drain ends with the buffer empty. -/
theorem readNumDrain_page (fuel : Nat) (component : List Byte) (s : Nextion) (p : Byte)
    (hrx : s.rx = pageFrame p) (hquiet : ∀ e ∈ s.wire, pollTime s 4 < e.1)
    (hticks : ∀ t ∈ s.ticks, t ≤ 500) (hfuel : 1 ≤ fuel) :
    ∃ a, readNumDrain fuel component s = some a ∧ a.rx = [] ∧ a.wire = s.wire ∧
      a.now = pollTime s 4 ∧ a.ticks = s.ticks.tail.tail.tail.tail ∧
      a._endOfCommandFound = false ∧ a._currentPageId = (p.val : Int) ∧
      a._lastCurrentPageId = s._currentPageId := by
  obtain ⟨f, rfl⟩ : ∃ f, fuel = f + 1 := ⟨fuel - 1, by omega⟩
  have hm : ∀ k, k ≤ 4 → pollTime s k ≤ pollTime s 4 := fun k hk => pollTime_mono s hk
  have q0 : startTimer (readNumInit component s) = startTimerQuiet (readNumInit component s) :=
    startTimer_eq_quiet _ (pollTime s 4) hquiet (hm 1 (by omega))
  have q1 : (millis (startTimerQuiet (readNumInit component s))).2 =
      pollQuiet (startTimerQuiet (readNumInit component s)) :=
    millis_eq_pollQuiet _ (pollTime s 4) hquiet (hm 2 (by omega))
  have hrx1 : (pollQuiet (startTimerQuiet (readNumInit component s))).rx =
      35 :: 2 :: 80 :: [p] := hrx
  have q2 : startTimer (readStartChar (pollQuiet (startTimerQuiet (readNumInit component s)))) =
      startTimerQuiet
        (readStartChar (pollQuiet (startTimerQuiet (readNumInit component s)))) :=
    startTimer_eq_quiet _ (pollTime s 4) hquiet (hm 3 (by omega))
  have q3 : startTimer (readLen (startTimerQuiet
        (readStartChar (pollQuiet (startTimerQuiet (readNumInit component s)))))) =
      startTimerQuiet (readLen (startTimerQuiet
        (readStartChar (pollQuiet (startTimerQuiet (readNumInit component s)))))) :=
    startTimer_eq_quiet _ (pollTime s 4) hquiet (hm 4 (by omega))
  have hel : ¬ elapsed (millis (startTimerQuiet (readNumInit component s))).1
      (millis (startTimerQuiet (readNumInit component s))).2._tmr1 > 1000 := by
    have e1 : (millis (startTimerQuiet (readNumInit component s))).1 = pollTime s 2 % ULONG :=
      rfl
    have e2 : (millis (startTimerQuiet (readNumInit component s))).2._tmr1 =
        pollTime s 1 % ULONG := rfl
    have h12 : pollTime s 1 ≤ pollTime s 2 := pollTime_mono s (by omega)
    have h3 : pollTime s 2 ≤ pollTime s 1 + 1 * 500 :=
      pollTime_from_first s 1 500 (by omega) hticks
    rw [e1, e2, elapsed_eq h12 (by unfold ULONG; omega)]
    omega
  have hav : available (startTimerQuiet (readNumInit component s)) ≠ 0 := by
    simp [available, hrx, pageFrame]
  have hlisten := listen_buffered (f + 1) (pollQuiet (startTimerQuiet (readNumInit component s)))
    2 80 [p] hrx1 (by simp)
  rw [afterHeader, q2, q3] at hlisten
  refine ⟨readCommand (readCmd1 (setCmdFound true (startTimerQuiet (readLen (startTimerQuiet
    (readStartChar (pollQuiet (startTimerQuiet (readNumInit component s))))))))), ?_, ?_, ?_, ?_,
    ?_, ?_, ?_, ?_⟩
  · rw [readNumDrain, q0]
    unfold drainLoop
    rw [if_pos hav]
    simp only [if_neg hel]
    rw [q1, hlisten]
    simp only [Option.bind]
    apply drainLoop_done
    simp [available, readCommand, hrx, pageFrame, toByte_val]
  all_goals simp [readCommand, hrx, pageFrame, toByte_val, pollTime]

theorem dueBy_le (x : Nextion) (D : Nat) : dueBy x D ≤ (stream x).length := by
  have := List.takeWhile_sublist (fun e : Nat × Byte => decide (e.1 ≤ D)) (l := x.wire)
  have h := this.length_le
  simp only [dueBy, stream, List.length_append, List.length_map]
  omega

/-- C22 (drain before read): when `readNum` is called with exactly the page frame
`# 2 P p` buffered, nothing arrives during the four polls of the drain, the
reply `0x71`, the four bytes of `V < 2 ^ 32` in little endian order,
`0xFF 0xFF 0xFF` arrives after the `get` request and within the 400 ms of the
response wait, and the clock is polled at least every 500 ms, then `readNum`
returns `V`, and afterwards the current page id is `p` and the last page id is
the current page id from before the call. -/
theorem drain_before_read (fuel : Nat) (component : List Byte) (s : Nextion) (p : Byte)
    (V : Nat) (hV : V < ULONG) (hrx : s.rx = pageFrame p)
    (hwire : s.wire.map Prod.snd = numReply V)
    (hquiet : ∀ e ∈ s.wire, pollTime s 4 < e.1)
    (hbudget : ∀ e ∈ s.wire, e.1 ≤ pollTime s 5 + 400)
    (hticks : ∀ t ∈ s.ticks, t ≤ 500) (hfuel : s.ticks.length + 1002 ≤ fuel) :
    ∃ r, readNum fuel component s = some (V, r) ∧ getCurrentPage r = (p.val : Int) ∧
      getLastPage r = getCurrentPage s := by
  obtain ⟨a, ha, harx, hawire, hanow, haticks, hafound, hacur, halast⟩ :=
    readNumDrain_page fuel component s p hrx hquiet hticks (by omega)
  have hp5 : pollTime a 1 = pollTime s 5 :=
    pollTime_congr 1 a (millis (millis (millis (millis s).2).2).2).2 hanow haticks
  have htk : ∀ t ∈ a.ticks, t ≤ 500 := by
    intro t ht
    rw [haticks] at ht
    exact hticks t (List.mem_of_mem_tail (List.mem_of_mem_tail (List.mem_of_mem_tail
      (List.mem_of_mem_tail ht))))
  have hlen : a.ticks.length ≤ s.ticks.length := by
    rw [haticks]; simp only [List.length_tail]; omega
  have hstream : stream a = numReply V := by
    simp [stream, harx, hawire, hwire]
  obtain ⟨r, hr, -, -⟩ := readNumReply_skips fuel [] V 500 a hV harx
    (by rw [hawire, hwire]; rfl) (by simp)
    (by intro e he; rw [hp5]; exact hbudget e (by rw [← hawire]; exact he))
    (by
      intro D h8
      have h1 := dueBy_le a D
      have h2 : (stream a).length = 8 := by rw [hstream]; rfl
      omega)
    hafound htk (by omega) (le_refl _) (by simp) (by omega) (by simp)
  have hobs := readNumReply_observed fuel a r V hr
  simp only [observed, Prod.mk.injEq] at hobs
  refine ⟨r, by simp only [readNum, ha, Option.bind, hr], ?_, ?_⟩
  · rw [getCurrentPage, hobs.1, hacur]
  · rw [getLastPage, hobs.2.1, halast]; rfl

/-- The page frame `# 2 P 7` buffered with the current page at 1, and the reply
for 1000 arriving after 150 ms. -/
theorem drain_before_read_witness :
    ∃ r, readNum 1002 [110]
        { initial with
          _currentPageId := 1
          rx := pageFrame 7
          wire := (numReply 1000).map fun b => (150, b) } = some (1000, r) ∧
      getCurrentPage r = 7 ∧ getLastPage r = 1 :=
  drain_before_read 1002 [110]
    { initial with
      _currentPageId := 1
      rx := pageFrame 7
      wire := (numReply 1000).map fun b => (150, b) } 7 1000 (by decide) rfl rfl (by decide)
    (by decide) (by decide) (by decide)

/-- The parsing of `readStr` when the buffer holds bytes other than `0x70`
followed by a complete reply, with nothing in flight: the bytes before the
marker are read and dropped, and the text of the reply is returned. -/
theorem readStrParse_skips (fuel : Nat) (pre str : List Byte) (B : Nat) (s3 : Nextion)
    (hrx : s3.rx = pre ++ strReply str) (hpre : (112 : Byte) ∉ pre)
    (hstr : (255 : Byte) ∉ str) (hwire : s3.wire = [])
    (hfound : s3._endOfCommandFound = false)
    (hticks : ∀ t ∈ s3.ticks, t ≤ B) (hB1 : 1 ≤ B) (hpreB : pre.length * B ≤ 100)
    (htime : (str.length + 4) * B ≤ 1000)
    (hfuel : s3.ticks.length + 1002 ≤ fuel) (hfuel' : pre.length ≤ fuel) :
    ∃ r, readStrParse fuel s3 = some r ∧ r._readString = str ∧ stream r = [] := by
  have h0 : available s3 > 3 := by
    simp [available, hrx, strReply, TERM]
    omega
  obtain ⟨s5, h5, g1, g2, g3, -, g5, -, g8⟩ := seek_from_entry 112
    (fun x => (readStartCharIfAvailable x, false)) setError
    (fun x hx => by
      have : available x ≠ 0 := by
        rw [available]; exact fun h => hx (List.eq_nil_of_length_eq_zero h)
      simp [readStartCharIfAvailable, this])
    pre fuel s3 (str ++ [255, 255, 255]) (by simpa [strReply, TERM] using hrx) hpre hwire
    (by have := pollTime_from_first s3 pre.length B hB1 hticks; omega) hfuel'
  simp only [readStrParse, if_pos h0, h5, Option.bind, if_pos g3]
  have htk : ∀ t ∈ s5.ticks, t ≤ B := by
    intro t ht
    rw [g5] at ht
    exact hticks t (List.mem_of_mem_drop ht)
  have hlen : s5.ticks.length ≤ s3.ticks.length := by
    rw [g5, List.length_drop]; omega
  have hw6 : (startTimer (clearReadString s5)).wire = [] := by
    simp [g2]
  have hmul : (str.length + 4) * B = (str ++ [255, 255, 255]).length * B + B := by
    rw [List.length_append]
    show (str.length + 3 + 1) * B = (str.length + 3) * B + B
    rw [Nat.add_mul (str.length + 3) 1 B, Nat.one_mul]
  obtain ⟨r, hr, f1, f2⟩ := accumulate_upto fuel (str ++ [255, 255, 255]) [] 0 B
    ((startTimer (clearReadString s5)).now + B) (startTimer (clearReadString s5))
    (by rw [List.count_append, List.count_eq_zero_of_not_mem hstr]; rfl) (by simp)
    (by rw [stream_startTimer]; simp [stream, g1, g2])
    (by simp) (by simp)
    (by show s5._endOfCommandFound = false; rw [g8, hfound]) rfl
    (by rw [hw6]; simp) (by rw [hw6]; simp)
    (fun t ht => htk t (List.mem_of_mem_tail ht)) hB1 (by omega) (by omega) (by omega)
    (by
      have : (startTimer (clearReadString s5)).ticks.length ≤ s5.ticks.length := by simp
      omega)
  exact ⟨r, hr, by rw [f1]; exact filter_reply str hstr, f2⟩

/-- The part of `readStr` after the drain, when bytes other than `0x70` and then
the complete reply for `str` arrive within the 400 ms of the response wait, all
of them buffered by the time four are: the bytes before the marker are read and
dropped, the call returns `str` and leaves no byte. -/
theorem readStrReply_skips (fuel : Nat) (TextComponent pre str : List Byte) (B : Nat)
    (a : Nextion) (harx : a.rx = []) (hawire : a.wire.map Prod.snd = pre ++ strReply str)
    (hpre : (112 : Byte) ∉ pre) (hstr : (255 : Byte) ∉ str)
    (hdue : ∀ e ∈ a.wire, e.1 ≤ pollTime a 1 + 400)
    (hall : ∀ D, 4 ≤ dueBy a D → dueBy a D = (stream a).length)
    (hfound : a._endOfCommandFound = false)
    (hticks : ∀ t ∈ a.ticks, t ≤ B) (hB1 : 1 ≤ B) (hB : B ≤ 500) (hpreB : pre.length * B ≤ 100)
    (htime : (str.length + 4) * B ≤ 1000)
    (hfuel : a.ticks.length + 1002 ≤ fuel) (hfuel' : pre.length ≤ fuel) :
    ∃ r, readStrReply fuel TextComponent a = some (str, r) ∧ stream r = [] := by
  have hs2ticks : ∀ t ∈ (startTimer (print TERM (print TextComponent (print GET a)))).ticks,
      t ≤ B := fun t ht => hticks t (millis_ticks_mem _ t ht)
  have hs2len : (startTimer (print TERM (print TextComponent (print GET a)))).ticks.length ≤
      a.ticks.length := millis_ticks_length (print TERM (print TextComponent (print GET a)))
  obtain ⟨r3, h3, hs3, hf3, ht3⟩ := wait_reply 4 fuel setError
    (startTimer (print TERM (print TextComponent (print GET a))))
    (fun x => ⟨rfl, rfl, rfl, rfl⟩) (by omega)
  have hstream : stream (startTimer (print TERM (print TextComponent (print GET a)))) =
      pre ++ strReply str := by
    rw [stream_startTimer]
    simp [stream, harx, hawire]
  have hstream' : stream a = pre ++ strReply str := by
    simp [stream, harx, hawire]
  obtain ⟨e1, e2, -⟩ := wait_all_arrived 4 fuel setError
    (startTimer (print TERM (print TextComponent (print GET a)))) r3 B
    (fun x => ⟨rfl, rfl, rfl⟩)
    (by rw [hstream]; simp [strReply, TERM]; omega) rfl
    (fun e he => hdue e (millis_wire_subset _ e he))
    (fun e he => millis_wire_fresh (print TERM (print TextComponent (print GET a))) e he)
    hs2ticks hB1 (by unfold ULONG; omega)
    (by
      intro D hD h4
      have hd : dueBy (startTimer (print TERM (print TextComponent (print GET a)))) D =
          dueBy a D := dueBy_millis (print TERM (print TextComponent (print GET a))) D hD
      rw [hd] at h4 ⊢
      rw [hall D h4, hstream, hstream'])
    h3
  rw [hstream] at e1
  obtain ⟨r7, h7, hr7, hx7⟩ := readStrParse_skips fuel pre str B r3 e1 hpre hstr e2
    (by rw [hf3]; exact hfound) (fun t ht => hs2ticks t (ht3.subset ht)) hB1 hpreB htime
    (by have := ht3.length_le; omega) hfuel'
  refine ⟨r7, ?_, hx7⟩
  simp only [readStrReply, Option.bind, h3, h7, hr7]

theorem readNumDrain_idle (fuel : Nat) (component : List Byte) (s : Nextion)
    (hrx : s.rx = []) (hquiet : ∀ e ∈ s.wire, pollTime s 1 < e.1) :
    readNumDrain fuel component s = some (startTimer (readNumInit component s)) ∧
      (startTimer (readNumInit component s)).rx = [] ∧
      (startTimer (readNumInit component s)).wire = s.wire := by
  have hq := startTimer_quiet (readNumInit component s) hquiet
  refine ⟨drainLoop_done _ _ _ _ ?_, ?_, hq.2⟩
  · rw [available, hq.1]; simp [hrx]
  · rw [hq.1]; simp [hrx]

theorem readStrDrain_idle (fuel : Nat) (s : Nextion)
    (hrx : s.rx = []) (hquiet : ∀ e ∈ s.wire, pollTime s 1 < e.1) :
    readStrDrain fuel s = some (startTimer (readStrInit s)) ∧
      (startTimer (readStrInit s)).rx = [] ∧ (startTimer (readStrInit s)).wire = s.wire := by
  have hq := startTimer_quiet (readStrInit s) hquiet
  refine ⟨drainLoop_done _ _ _ _ ?_, ?_, hq.2⟩
  · rw [available, hq.1]; simp [hrx]
  · rw [hq.1]; simp [hrx]

theorem takeWhile_burst {α : Type} (p : α → Bool) (l1 l2 : List α)
    (h : (∀ e ∈ l2, p e = true) ∨ (∀ e ∈ l2, p e = false)) :
    ((l1 ++ l2).takeWhile p).length ≤ l1.length ∨ (l1 ++ l2).takeWhile p = l1 ++ l2 := by
  induction l1 with
  | nil =>
    rcases h with h | h
    · exact Or.inr (by simpa using h)
    · refine Or.inl ?_
      cases l2 with
      | nil => simp
      | cons a l => simp [List.takeWhile, h a (by simp)]
  | cons a l ih =>
    by_cases ha : p a = true
    · rcases ih with ih | ih
      · exact Or.inl (by simp [List.takeWhile, ha]; exact ih)
      · exact Or.inr (by rw [List.cons_append, List.takeWhile_cons, if_pos ha, ih])
    · have ha' : p a = false := by simpa using ha
      exact Or.inl (by simp [List.takeWhile, ha'])

/-- When the last bytes in flight arrive in one piece and fewer than `n` bytes
come before them, all bytes have arrived by the time `n` have. -/
theorem dueBy_burst (x : Nextion) (front : List (Nat × Byte)) (burst : List Byte) (t n : Nat)
    (hrx : x.rx = []) (hw : x.wire = front ++ burst.map (fun b => (t, b)))
    (hn : front.length < n) : ∀ D, n ≤ dueBy x D → dueBy x D = (stream x).length := by
  intro D hD
  have h := takeWhile_burst (fun e : Nat × Byte => decide (e.1 ≤ D)) front
    (burst.map (fun b => (t, b)))
    (by
      by_cases ht : t ≤ D
      · refine Or.inl ?_
        intro e he
        simp only [List.mem_map] at he
        obtain ⟨b, -, rfl⟩ := he
        simpa using ht
      · refine Or.inr ?_
        intro e he
        simp only [List.mem_map] at he
        obtain ⟨b, -, rfl⟩ := he
        simpa using ht)
  simp only [dueBy, hrx, hw, List.length_nil, Nat.zero_add] at hD ⊢
  rcases h with h | h
  · omega
  · rw [h]
    simp [stream, hrx, hw]

theorem listen_of_stream_nil (fuel : Nat) (r : Nextion) (h : stream r = []) :
    listen fuel r = some r := by
  have hrx : r.rx = [] := (List.append_eq_nil.mp h).1
  have h2 : ¬ available r > 2 := by simp [available, hrx]
  simp only [listen, if_neg h2]

/-- C23, counterexample: when the page frame `# 2 P 7` arrives 5 ms and the
reply 10 ms after the call, `readNum` returns the value 1000 and `readStr` the
text `hi`, the page ids are still 1 and 0, no byte is left, and a further call
of `listen` changes nothing: the page event is lost. -/
theorem interleaved_event_lost :
    (readNum 20 [110] interleavedNum).map (fun r => (r.1, stream r.2)) = some (1000, []) ∧
      (readNum 20 [110] interleavedNum).map (fun r => observed r.2) =
        some (1, 0, false, 0, 0, 0) ∧
      ((readNum 20 [110] interleavedNum).bind fun r => listen 20 r.2).map observed =
        some (1, 0, false, 0, 0, 0) ∧
      (readStr 20 [116] interleavedStr).map (fun r => (r.1, stream r.2)) =
        some ([104, 105], []) ∧
      (readStr 20 [116] interleavedStr).map (fun r => observed r.2) =
        some (1, 0, false, 0, 0, 0) ∧
      ((readStr 20 [116] interleavedStr).bind fun r => listen 20 r.2).map observed =
        some (1, 0, false, 0, 0, 0) := by
  refine ⟨?_, ?_, ?_, ?_, ?_, ?_⟩ <;> decide!

theorem readNumReply_isSome (fuel : Nat) (a : Nextion) (hfuel : a.ticks.length + 1002 ≤ fuel) :
    ∃ v r, readNumReply fuel a = some (v, r) := by
  have t2 : (startTimer (print TERM (print a._comp (print GET a)))).ticks.length ≤
      a.ticks.length := by simp
  obtain ⟨s3, h3, -, -, t3⟩ := wait_reply 8 fuel setFail
    (startTimer (print TERM (print a._comp (print GET a))))
    (fun x => ⟨rfl, rfl, rfl, rfl⟩) (by omega)
  obtain ⟨s7, h7⟩ := readNumParse_isSome fuel s3 (by have := t3.length_le; omega)
  exact ⟨(readNumResult s7)._numberValue, readNumResult s7,
    by simp only [readNumReply, h3, Option.bind, h7]⟩

theorem readStrReply_isSome (fuel : Nat) (TextComponent : List Byte) (a : Nextion)
    (hfuel : a.ticks.length + 1002 ≤ fuel) :
    ∃ v r, readStrReply fuel TextComponent a = some (v, r) := by
  have t2 : (startTimer (print TERM (print TextComponent (print GET a)))).ticks.length ≤
      a.ticks.length := by simp
  obtain ⟨s3, h3, -, -, t3⟩ := wait_reply 4 fuel setError
    (startTimer (print TERM (print TextComponent (print GET a))))
    (fun x => ⟨rfl, rfl, rfl, rfl⟩) (by omega)
  obtain ⟨s7, h7⟩ := readStrParse_isSome fuel s3 (by have := t3.length_le; omega)
  exact ⟨s7._readString, s7, by simp only [readStrReply, h3, Option.bind, h7]⟩

/-- C23 (amended): an event frame that arrives after the `get` request of
`readNum` or `readStr` is not dispatched by that read.  First, for every state
`u` with nothing buffered and nothing due at the first poll of the call (so that
the drain has nothing to dispatch), whatever is in flight and whenever it
arrives: both reads return, and the page ids and the pending command (flag,
group, length, sub-command) are those from before the call.  Second, take bytes
`ev` without a reply marker, neither `0x70` nor `0x71` (such as a page frame),
that arrive after the first poll, followed by the well-formed reply, all within 400 ms of the poll that
starts the response wait and all arrived by the time 8 of them (for `readStr` 4)
have arrived, with the clock advancing by at most `B` ms per poll, where
`1 ≤ B ≤ 500` and `ev.length * B ≤ 100` (the marker search ends inside its
100 ms), and for `readStr` a text without 0xFF and
`(str.length + 4) * B ≤ 1000`.  Then the read returns the value of the reply,
the page ids and the pending command are those from before the call, no byte of
`ev` or of the reply is left, and a call of `listen` after the read changes
nothing: the event is lost. -/
theorem interleaved_event_discarded (fuel : Nat) (component TextComponent ev str : List Byte)
    (V B : Nat) (u s t : Nextion)
    (hurx : u.rx = []) (huquiet : ∀ e ∈ u.wire, pollTime u 1 < e.1)
    (hufuel : u.ticks.length + 1002 ≤ fuel)
    (hV : V < ULONG) (hstr : (255 : Byte) ∉ str)
    (hev : (113 : Byte) ∉ ev) (hev' : (112 : Byte) ∉ ev)
    (hrx : s.rx = []) (hwire : s.wire.map Prod.snd = ev ++ numReply V)
    (hquiet : ∀ e ∈ s.wire, pollTime s 1 < e.1)
    (hbudget : ∀ e ∈ s.wire, e.1 ≤ pollTime s 2 + 400)
    (hall : ∀ D, 8 ≤ dueBy s D → dueBy s D = (stream s).length)
    (hticks : ∀ k ∈ s.ticks, k ≤ B)
    (hrx' : t.rx = []) (hwire' : t.wire.map Prod.snd = ev ++ strReply str)
    (hquiet' : ∀ e ∈ t.wire, pollTime t 1 < e.1)
    (hbudget' : ∀ e ∈ t.wire, e.1 ≤ pollTime t 2 + 400)
    (hall' : ∀ D, 4 ≤ dueBy t D → dueBy t D = (stream t).length)
    (hticks' : ∀ k ∈ t.ticks, k ≤ B)
    (hB1 : 1 ≤ B) (hB : B ≤ 500) (hevB : ev.length * B ≤ 100)
    (htime : (str.length + 4) * B ≤ 1000)
    (hfuel : s.ticks.length + 1002 ≤ fuel) (hfuel' : t.ticks.length + 1002 ≤ fuel) :
    ((∃ v r, readNum fuel component u = some (v, r) ∧ observed r = observed u) ∧
      ∃ v r, readStr fuel TextComponent u = some (v, r) ∧ observed r = observed u) ∧
    (∃ r, readNum fuel component s = some (V, r) ∧ observed r = observed s ∧
      stream r = [] ∧ listen fuel r = some r) ∧
    ∃ r, readStr fuel TextComponent t = some (str, r) ∧ observed r = observed t ∧
      stream r = [] ∧ listen fuel r = some r := by
  have hevlen : ev.length ≤ fuel := by
    have : ev.length * 1 ≤ ev.length * B := Nat.mul_le_mul_left _ hB1
    omega
  refine ⟨⟨?_, ?_⟩, ?_, ?_⟩
  · obtain ⟨ha, -, -⟩ := readNumDrain_idle fuel component u hurx huquiet
    obtain ⟨v, r, hr⟩ := readNumReply_isSome fuel (startTimer (readNumInit component u))
      (by have h2 : (startTimer (readNumInit component u)).ticks.length ≤ u.ticks.length :=
            millis_ticks_length (readNumInit component u)
          omega)
    have hobs := readNumReply_observed fuel _ r v hr
    exact ⟨v, r, by simp only [readNum, ha, Option.bind, hr], hobs⟩
  · obtain ⟨ha, -, -⟩ := readStrDrain_idle fuel u hurx huquiet
    obtain ⟨v, r, hr⟩ := readStrReply_isSome fuel TextComponent (startTimer (readStrInit u))
      (by have h2 : (startTimer (readStrInit u)).ticks.length ≤ u.ticks.length :=
            millis_ticks_length (readStrInit u)
          omega)
    have hobs := readStrReply_observed fuel TextComponent _ r v hr
    exact ⟨v, r, by simp only [readStr, ha, Option.bind, hr], hobs⟩
  · obtain ⟨ha, harx, hawire⟩ := readNumDrain_idle fuel component s hrx hquiet
    have hdb : ∀ D, dueBy (startTimer (readNumInit component s)) D = dueBy s D := by
      intro D; simp only [dueBy, harx, hawire, hrx]
    have hst : stream (startTimer (readNumInit component s)) = stream s := by
      simp only [stream, harx, hawire, hrx]
    obtain ⟨r, hr, hx, hw⟩ := readNumReply_skips fuel ev V B
      (startTimer (readNumInit component s)) hV harx (by rw [hawire, hwire]) hev
      (fun e he => hbudget e (by rw [← hawire]; exact he))
      (by intro D h8; rw [hdb] at h8 ⊢; rw [hall D h8, hst])
      rfl (fun k hk => hticks k (millis_ticks_mem _ k hk)) hB1 hB hevB
      (by have := millis_ticks_length (readNumInit component s)
          have h2 : (startTimer (readNumInit component s)).ticks.length ≤ s.ticks.length := this
          omega) hevlen
    have hobs := readNumReply_observed fuel _ r V hr
    have hs : stream r = [] := by simp [stream, hx, hw]
    exact ⟨r, by simp only [readNum, ha, Option.bind, hr], hobs, hs,
      listen_of_stream_nil fuel r hs⟩
  · obtain ⟨ha, harx, hawire⟩ := readStrDrain_idle fuel t hrx' hquiet'
    have hdb : ∀ D, dueBy (startTimer (readStrInit t)) D = dueBy t D := by
      intro D; simp only [dueBy, harx, hawire, hrx']
    have hst : stream (startTimer (readStrInit t)) = stream t := by
      simp only [stream, harx, hawire, hrx']
    obtain ⟨r, hr, hs⟩ := readStrReply_skips fuel TextComponent ev str B
      (startTimer (readStrInit t)) harx (by rw [hawire, hwire']) hev' hstr
      (fun e he => hbudget' e (by rw [← hawire]; exact he))
      (by intro D h4; rw [hdb] at h4 ⊢; rw [hall' D h4, hst])
      rfl (fun k hk => hticks' k (millis_ticks_mem _ k hk)) hB1 hB hevB htime
      (by have := millis_ticks_length (readStrInit t)
          have h2 : (startTimer (readStrInit t)).ticks.length ≤ t.ticks.length := this
          omega) hevlen
    have hobs := readStrReply_observed fuel TextComponent _ r str hr
    exact ⟨r, by simp only [readStr, ha, Option.bind, hr], hobs, hs,
      listen_of_stream_nil fuel r hs⟩

/-- The page frame `# 2 P 7`: 5 ms after the call with half of a numeric reply
and the other half 15 ms later, for the first part; 5 ms after the call of
`readNum` with the reply for 1000 another 5 ms later, and in one piece with the
reply for `hi` 5 ms after the call of `readStr`, for the second part. -/
theorem interleaved_event_discarded_witness :
    ((∃ v r, readNum 1002 [110] splitReply = some (v, r) ∧
        observed r = observed splitReply) ∧
      ∃ v r, readStr 1002 [116] splitReply = some (v, r) ∧
        observed r = observed splitReply) ∧
    (∃ r, readNum 1002 [110] interleavedNum = some (1000, r) ∧
      observed r = observed interleavedNum ∧ stream r = [] ∧ listen 1002 r = some r) ∧
    ∃ r, readStr 1002 [116] burstStr = some ([104, 105], r) ∧
      observed r = observed burstStr ∧ stream r = [] ∧ listen 1002 r = some r :=
  interleaved_event_discarded 1002 [110] [116] (pageFrame 7) [104, 105] 1000 1 splitReply
    interleavedNum burstStr rfl (by decide) (by decide)
    (by decide) (by decide) (by decide) (by decide) rfl rfl (by decide) (by decide)
    (dueBy_burst interleavedNum ((pageFrame 7).map fun b => (5, b)) (numReply 1000) 10 8 rfl rfl
      (by decide))
    (by decide) rfl rfl (by decide) (by decide)
    (dueBy_burst burstStr [] (pageFrame 7 ++ strReply [104, 105]) 5 4 rfl rfl (by decide))
    (by decide) (by decide) (by decide) (by decide) (by decide) (by decide) (by decide)

/-! ## A reply that arrives as the response wait times out -/

/-- C9 (text response timeout), evaluated: the reply for the text `hi` arrives
403 ms after the call, 401 ms after the timer of the response wait was set at
2 ms, so that no byte is available during the 400 ms of the wait; the wait ends
at 403 ms by its timeout with `"ERROR"` stored and the six bytes buffered, and
`readStr` goes on, parses the reply and returns `hi`, with every byte consumed.
With the reply 1 ms later `readStr` returns `"ERROR"` and consumes nothing. -/
theorem late_reply_parsed :
    dueBy (lateReply 403) 402 = 0 ∧
      (pollLoop (fun x => decide (available x < 4)) (fun x => (x, false)) 400 setError 500
          (startTimer (print TERM (print [116] (print GET
            (startTimer (readStrInit (lateReply 403)))))))).map
        (fun r => (r._readString, r._tmr1, r.now, available r)) = some (ERROR, 2, 403, 6) ∧
      (readStr 500 [116] (lateReply 403)).map (fun r => (r.1, stream r.2)) =
        some ([104, 105], []) ∧
      (readStr 500 [116] (lateReply 404)).map (fun r => (r.1, stream r.2)) =
        some (ERROR, strReply [104, 105]) := by
  refine ⟨?_, ?_, ?_, ?_⟩ <;> decide!

end NextionEz
